import Mathlib

/-!
# Verification of the gol-webui simulation core

Shallow embedding of the Life-engine worker (`src/public/worker.js`, the
final "Phase 4: Infinite Grid" document) and of the shared utilities
(`src/public/lib.js`), together with proofs settling the frozen claims
about them.

Conventions of the embedding:
* a JS `Uint32Array(32)` chunk is a function `Fin 32 → ℕ` whose values are
  kept below `2^32`; JS 32-bit coercions are made explicit with `% 2^32`;
* a JS `Map` keyed by `"cx,cy"` strings is an association list keyed by
  `ℤ × ℤ` (the string key is a bijective image of the pair, see
  `getChunkKey` in the source);
* JS `Math.floor(x / 32)` on integers is `Int.fdiv x 32`, and the JS
  truncating `%` is `Int.tmod`, so the source's `(x % 32 + 32) % 32`
  becomes `(x.tmod 32 + 32).tmod 32`;
* mutation is replaced by explicit state passing.
-/

/-! ## Words: 32-bit values represented as `ℕ` with explicit wrapping -/

/-- The modulus of a 32-bit word. -/
def WORD_MOD : ℕ := 2 ^ 32

/-- JS `~w` restricted to 32 bits (bitwise complement within a word). -/
def lnot32 (w : ℕ) : ℕ := w ^^^ (WORD_MOD - 1)

/-- `shiftRight(curr, left) = (curr << 1) | (left >>> 31)` from the source
(worker.js line 1579); the `% 2^32` makes the JS 32-bit coercion explicit. -/
def shiftRightV (curr left : ℕ) : ℕ := ((curr <<< 1) % WORD_MOD) ||| (left >>> 31)

/-- `shiftLeft(curr, right) = (curr >>> 1) | (right << 31)` from the source
(worker.js line 1580). -/
def shiftLeftV (curr right : ℕ) : ℕ := (curr >>> 1) ||| ((right <<< 31) % WORD_MOD)

/-! ## Chunks and the sparse chunk store -/

/-- A chunk: 32 rows of 32-bit words (`Uint32Array(CHUNK_SIZE)`), row `ly`
holds the cells of local row `ly`, bit `lx` is the cell at local `(lx, ly)`. -/
abbrev Chunk : Type := Fin 32 → ℕ

/-- The all-zero chunk (`new Uint32Array(CHUNK_SIZE)`). -/
def zeroChunk : Chunk := fun _ => 0

/-- Update one row of a chunk (`chunk[ly] = w`). -/
def setRow (c : Chunk) (ly : Fin 32) (w : ℕ) : Chunk := Function.update c ly w

/-- Chunk keys `(cx, cy)`; the source uses the string `"cx,cy"`, which is in
bijection with the pair. -/
abbrev ChunkKey : Type := ℤ × ℤ

/-- The sparse chunk store: a JS `Map` from key to chunk, embedded as an
association list with unique keys. -/
abbrev Store : Type := List (ChunkKey × Chunk)

/-- `map.get(key)`: the first (unique) binding of `key`.  (The worker keeps
several `Map`s keyed by `"cx,cy"`: cell chunks, age chunks, heatmap chunks
and history deltas; the operations are generic in the value type.) -/
def mapGet {α : Type} (st : List (ChunkKey × α)) (k : ChunkKey) : Option α :=
  match st with
  | [] => none
  | (k', c) :: rest => if k' = k then some c else mapGet rest k

/-- `map.set(key, c)`: replace the binding in place, or append a new one
(JS `Map.set` keeps the insertion position of an existing key). -/
def mapSet {α : Type} (st : List (ChunkKey × α)) (k : ChunkKey) (c : α) :
    List (ChunkKey × α) :=
  match st with
  | [] => [(k, c)]
  | (k', c') :: rest => if k' = k then (k, c) :: rest else (k', c') :: mapSet rest k c

/-- `map.delete(key)`. -/
def mapDelete {α : Type} (st : List (ChunkKey × α)) (k : ChunkKey) :
    List (ChunkKey × α) :=
  st.filter (fun kc => kc.1 ≠ k)

/-- The list of keys of a store. -/
def storeKeys {α : Type} (st : List (ChunkKey × α)) : List ChunkKey := st.map Prod.fst

/-- A store is well-formed when its keys are unique (JS `Map` invariant). -/
def storeWF {α : Type} (st : List (ChunkKey × α)) : Prop := (storeKeys st).Nodup

instance {α : Type} (st : List (ChunkKey × α)) : Decidable (storeWF st) := by
  unfold storeWF; infer_instance

/-! ## Coordinate transforms (worker.js lines 1113-1117, 1256-1260) -/

/-- `cx = Math.floor(x / CHUNK_SIZE)`. -/
def chunkCoord (x : ℤ) : ℤ := Int.fdiv x 32

/-- `lx = (x % CHUNK_SIZE + CHUNK_SIZE) % CHUNK_SIZE` with the JS truncating
remainder. -/
def localRaw (x : ℤ) : ℤ := (x.tmod 32 + 32).tmod 32

theorem tmod32_bounds (x : ℤ) : -32 < x.tmod 32 ∧ x.tmod 32 < 32 := by
  cases x with
  | ofNat m =>
      have h : (m % 32 : ℕ) < 32 := Nat.mod_lt _ (by norm_num)
      constructor <;> (show _ < _) <;> simp [Int.tmod] <;> omega
  | negSucc m =>
      have h : ((m + 1) % 32 : ℕ) < 32 := Nat.mod_lt _ (by norm_num)
      constructor <;> (show _ < _) <;> simp [Int.tmod] <;> omega

theorem localRaw_eq_emod (x : ℤ) : localRaw x = x % 32 := by
  unfold localRaw
  have ht : x = x.tmod 32 + 32 * x.tdiv 32 := by rw [Int.tmod_def]; ring
  have hb := tmod32_bounds x
  rw [Int.tmod_eq_emod (by omega) (by norm_num)]
  conv_rhs => rw [ht]
  rw [show x.tmod 32 + 32 * x.tdiv 32 = x.tmod 32 + x.tdiv 32 * 32 by ring,
    Int.add_mul_emod_self,
    show x.tmod 32 + (32:ℤ) = x.tmod 32 + 1 * 32 by ring,
    Int.add_mul_emod_self]

theorem localRaw_nonneg (x : ℤ) : 0 ≤ localRaw x := by
  rw [localRaw_eq_emod]; exact Int.emod_nonneg x (by norm_num)

theorem localRaw_lt (x : ℤ) : localRaw x < 32 := by
  rw [localRaw_eq_emod]; exact Int.emod_lt_of_pos x (by norm_num)

/-- The local coordinate inside a chunk, as a `Fin 32`. -/
def localIdx (x : ℤ) : Fin 32 :=
  ⟨(localRaw x).toNat, by
    have h1 := localRaw_nonneg x
    have h2 := localRaw_lt x
    omega⟩

theorem localIdx_val (x : ℤ) : ((localIdx x : Fin 32) : ℕ) = (x % 32).toNat := by
  simp [localIdx, localRaw_eq_emod]

/-- Decomposition of a global coordinate into chunk and local parts. -/
theorem chunk_local_decomp (x : ℤ) : x = 32 * chunkCoord x + ((localIdx x : Fin 32) : ℕ) := by
  rw [localIdx_val]
  unfold chunkCoord
  rw [Int.fdiv_eq_ediv _ (by norm_num)]
  have h := Int.ediv_add_emod x 32
  have hnn : 0 ≤ x % 32 := Int.emod_nonneg x (by norm_num)
  omega

/-! ## `setCell` / `getCell` (worker.js lines 1113-1131, 1256-1266) -/

/-- `isChunkEmpty(chunk)` (worker.js lines 1133-1138). -/
def isChunkEmpty (c : Chunk) : Bool :=
  (List.finRange 32).all (fun i => c i == 0)

/-- `setCell(x, y, val)` (worker.js lines 1113-1131).  JS truthiness of the
`val` argument (`0`/`1`) is the `Bool` here.  `getChunk(cx, cy, !!val)`
creates the chunk only when setting a live cell; a dead write to an absent
chunk is a no-op; after a dead write the chunk is deleted if it became
empty. -/
def setCell (st : Store) (x y : ℤ) (val : Bool) : Store :=
  let cx := chunkCoord x
  let cy := chunkCoord y
  let lx := localIdx x
  let ly := localIdx y
  match mapGet st (cx, cy) with
  | none =>
      if val then
        -- chunk created as zeroes, then `chunk[ly] |= (1 << lx)`
        mapSet st (cx, cy) (setRow zeroChunk ly ((0 : ℕ) ||| (2 ^ (lx : ℕ))))
      else st  -- setting 0 on non-existent chunk -> ignore
  | some chunk =>
      if val then
        mapSet st (cx, cy) (setRow chunk ly (chunk ly ||| (2 ^ (lx : ℕ))))
      else
        -- `chunk[ly] &= ~(1 << lx)`, then delete the chunk if it is empty
        let chunk' := setRow chunk ly (chunk ly &&& lnot32 (2 ^ (lx : ℕ)))
        if isChunkEmpty chunk' then mapDelete st (cx, cy)
        else mapSet st (cx, cy) chunk'

/-- `getCell(x, y)` (worker.js lines 1256-1266): `(chunk[ly] >>> lx) & 1`,
`0` for an absent chunk. -/
def getCell (st : Store) (x y : ℤ) : ℕ :=
  match mapGet st (chunkCoord x, chunkCoord y) with
  | none => 0
  | some chunk => (chunk (localIdx y) >>> ((localIdx x : Fin 32) : ℕ)) &&& 1

/-! ## Map-operation lemmas -/

theorem mapGet_mapSet_self {α : Type} (st : List (ChunkKey × α)) (k : ChunkKey) (c : α) :
    mapGet (mapSet st k c) k = some c := by
  induction st with
  | nil => simp [mapSet, mapGet]
  | cons hd tl ih =>
      obtain ⟨k1, c1⟩ := hd
      by_cases h : k1 = k
      · simp [mapSet, mapGet, h]
      · simpa [mapSet, mapGet, h] using ih

theorem mapGet_mapSet_ne {α : Type} (st : List (ChunkKey × α)) (k k' : ChunkKey) (c : α) (h : k ≠ k') :
    mapGet (mapSet st k c) k' = mapGet st k' := by
  induction st with
  | nil => simp [mapSet, mapGet, h]
  | cons hd tl ih =>
      obtain ⟨k1, c1⟩ := hd
      by_cases hh : k1 = k
      · subst hh
        simp [mapSet, mapGet, h]
      · by_cases hk' : k1 = k'
        · subst hk'
          simp [mapSet, mapGet, hh, Ne.symm h]
        · simpa [mapSet, mapGet, hh, hk'] using ih

theorem mapGet_mapDelete_self {α : Type} (st : List (ChunkKey × α)) (k : ChunkKey) :
    mapGet (mapDelete st k) k = none := by
  induction st with
  | nil => simp [mapDelete, mapGet]
  | cons hd tl ih =>
      obtain ⟨k1, c1⟩ := hd
      by_cases h : k1 = k
      · simpa [mapDelete, List.filter, h] using ih
      · simpa [mapDelete, List.filter, h, mapGet] using ih

theorem mapGet_mapDelete_ne {α : Type} (st : List (ChunkKey × α)) (k k' : ChunkKey) (h : k ≠ k') :
    mapGet (mapDelete st k) k' = mapGet st k' := by
  induction st with
  | nil => simp [mapDelete, mapGet]
  | cons hd tl ih =>
      obtain ⟨k1, c1⟩ := hd
      by_cases hh : k1 = k
      · subst hh
        simpa [mapDelete, List.filter, mapGet, h, Ne.symm h] using ih
      · by_cases hk' : k1 = k'
        · subst hk'
          simp [mapDelete, List.filter, hh, mapGet, Ne.symm h]
        · simpa [mapDelete, List.filter, hh, mapGet, hk'] using ih

/-! ## Bit lemmas -/

theorem getBit_eq_toNat_testBit (w i : ℕ) : (w >>> i) &&& 1 = (w.testBit i).toNat := by
  rw [Nat.and_one_is_mod, Nat.testBit_to_div_mod, Nat.shiftRight_eq_div_pow]
  rcases Nat.mod_two_eq_zero_or_one (w / 2 ^ i) with h | h <;> simp [h]

theorem testBit_or_two_pow (a j i : ℕ) :
    (a ||| 2 ^ j).testBit i = (a.testBit i || decide (j = i)) := by
  rw [Nat.testBit_or, Nat.testBit_two_pow]

theorem testBit_lnot32 (w i : ℕ) (hi : i < 32) :
    (lnot32 w).testBit i = !w.testBit i := by
  unfold lnot32 WORD_MOD
  rw [Nat.testBit_xor, Nat.testBit_two_pow_sub_one, decide_eq_true hi, Bool.xor_true]

theorem testBit_and_lnot_two_pow (a j i : ℕ) (hi : i < 32) :
    (a &&& lnot32 (2 ^ j)).testBit i = (a.testBit i && !decide (j = i)) := by
  rw [Nat.testBit_and, testBit_lnot32 _ _ hi, Nat.testBit_two_pow]

/-! ## The cell-at-coordinate view of a store -/

/-- The Boolean value of the cell at global `(x, y)`: bit `lx` of row `ly`
of the chunk at `(cx, cy)` (`false` for an absent chunk).  This is `getCell`
viewed as a Boolean. -/
def cellAt (st : Store) (x y : ℤ) : Bool :=
  match mapGet st (chunkCoord x, chunkCoord y) with
  | none => false
  | some chunk => (chunk (localIdx y)).testBit ((localIdx x : Fin 32) : ℕ)

theorem getCell_eq_cellAt (st : Store) (x y : ℤ) :
    getCell st x y = (cellAt st x y).toNat := by
  unfold getCell cellAt
  cases mapGet st (chunkCoord x, chunkCoord y) with
  | none => simp
  | some chunk => exact getBit_eq_toNat_testBit _ _

theorem coord_eq_of_chunk_local_eq {x x' : ℤ}
    (hc : chunkCoord x = chunkCoord x') (hl : localIdx x = localIdx x') : x = x' := by
  have h1 := chunk_local_decomp x
  have h2 := chunk_local_decomp x'
  rw [hc, hl] at h1
  omega

theorem isChunkEmpty_iff (c : Chunk) : isChunkEmpty c = true ↔ ∀ i, c i = 0 := by
  unfold isChunkEmpty
  simp [List.all_eq_true, List.mem_finRange]

/-! ## Claim C10: `setCell` writes its cell and disturbs no other cell -/

theorem cellAt_setCell_self (st : Store) (x y : ℤ) (v : Bool) :
    cellAt (setCell st x y v) x y = v := by
  cases hget : mapGet st (chunkCoord x, chunkCoord y) with
  | none =>
      cases v with
      | false => simp [setCell, cellAt, hget]
      | true =>
          simp only [setCell, cellAt, hget, if_true]
          rw [mapGet_mapSet_self]
          simp [setRow, Nat.testBit_two_pow]
  | some chunk =>
      cases v with
      | true =>
          simp only [setCell, cellAt, hget, if_true]
          rw [mapGet_mapSet_self]
          simp [setRow, testBit_or_two_pow]
      | false =>
          simp only [setCell, cellAt, hget, Bool.false_eq_true, if_false]
          by_cases hemp :
              isChunkEmpty (setRow chunk (localIdx y)
                (chunk (localIdx y) &&& lnot32 (2 ^ ((localIdx x : Fin 32) : ℕ)))) = true
          · rw [if_pos hemp, mapGet_mapDelete_self]
          · rw [if_neg hemp, mapGet_mapSet_self]
            simp [setRow, testBit_and_lnot_two_pow _ _ _ (localIdx x).isLt]

theorem cellAt_setCell_other (st : Store) (x y x' y' : ℤ) (v : Bool)
    (hne : (x', y') ≠ (x, y)) :
    cellAt (setCell st x y v) x' y' = cellAt st x' y' := by
  by_cases hkey : ((chunkCoord x', chunkCoord y') : ChunkKey) = (chunkCoord x, chunkCoord y)
  · -- same chunk: either a different row, or a different bit of the same row
    have hx : chunkCoord x' = chunkCoord x := congrArg Prod.fst hkey
    have hy : chunkCoord y' = chunkCoord y := congrArg Prod.snd hkey
    have hloc : localIdx y' ≠ localIdx y ∨
        (localIdx y' = localIdx y ∧ localIdx x' ≠ localIdx x) := by
      by_cases hly : localIdx y' = localIdx y
      · right
        refine ⟨hly, fun hlx => hne ?_⟩
        have hx'' : x' = x := coord_eq_of_chunk_local_eq hx hlx
        have hy'' : y' = y := coord_eq_of_chunk_local_eq hy hly
        rw [hx'', hy'']
      · left; exact hly
    cases hget : mapGet st (chunkCoord x, chunkCoord y) with
    | none =>
        cases v with
        | false => simp [setCell, cellAt, hget]
        | true =>
            simp only [setCell, cellAt, hget, if_true, hx, hy]
            rw [mapGet_mapSet_self]
            rcases hloc with hly | ⟨hly, hlx⟩
            · simp [setRow, Function.update_noteq hly, zeroChunk]
            · rw [hly]
              have hdx : ¬((localIdx x : Fin 32) : ℕ) = ((localIdx x' : Fin 32) : ℕ) :=
                fun h => hlx (Fin.eq_of_val_eq h.symm)
              simp [setRow, Nat.testBit_two_pow, zeroChunk, hdx]
    | some chunk =>
        cases v with
        | true =>
            simp only [setCell, cellAt, hget, if_true, hx, hy]
            rw [mapGet_mapSet_self]
            rcases hloc with hly | ⟨hly, hlx⟩
            · simp [setRow, Function.update_noteq hly]
            · rw [hly]
              have hdx : ¬((localIdx x : Fin 32) : ℕ) = ((localIdx x' : Fin 32) : ℕ) :=
                fun h => hlx (Fin.eq_of_val_eq h.symm)
              simp [setRow, testBit_or_two_pow, hdx]
        | false =>
            simp only [setCell, cellAt, hget, Bool.false_eq_true, if_false, hx, hy]
            by_cases hemp :
                isChunkEmpty (setRow chunk (localIdx y)
                  (chunk (localIdx y) &&& lnot32 (2 ^ ((localIdx x : Fin 32) : ℕ)))) = true
            · -- the chunk became all-zero and is deleted: every other cell of it
              -- was already dead before the write
              rw [if_pos hemp, mapGet_mapDelete_self]
              have hz := (isChunkEmpty_iff _).mp hemp
              rcases hloc with hly | ⟨hly, hlx⟩
              · have h0 := hz (localIdx y')
                rw [setRow, Function.update_noteq hly] at h0
                simp [h0]
              · have h0 := hz (localIdx y)
                rw [setRow, Function.update_same] at h0
                rw [hly]
                have hbit0 := congrArg (fun w => w.testBit ((localIdx x' : Fin 32) : ℕ)) h0
                simp only [testBit_and_lnot_two_pow _ _ _ (localIdx x').isLt,
                  Nat.zero_testBit] at hbit0
                have hdx : decide (((localIdx x : Fin 32) : ℕ) = ((localIdx x' : Fin 32) : ℕ)) =
                    false := decide_eq_false (fun h => hlx (Fin.eq_of_val_eq h.symm))
                rw [hdx, Bool.not_false, Bool.and_true] at hbit0
                simp [hbit0]
            · rw [if_neg hemp, mapGet_mapSet_self]
              rcases hloc with hly | ⟨hly, hlx⟩
              · simp [setRow, Function.update_noteq hly]
              · rw [hly]
                simp only [setRow, Function.update_same,
                  testBit_and_lnot_two_pow _ _ _ (localIdx x').isLt]
                have hdx : decide (((localIdx x : Fin 32) : ℕ) = ((localIdx x' : Fin 32) : ℕ)) =
                    false := decide_eq_false (fun h => hlx (Fin.eq_of_val_eq h.symm))
                rw [hdx, Bool.not_false, Bool.and_true]
  · -- a different chunk is never touched
    have hkey' : ((chunkCoord x, chunkCoord y) : ChunkKey) ≠ (chunkCoord x', chunkCoord y') :=
      fun h => hkey h.symm
    cases hget : mapGet st (chunkCoord x, chunkCoord y) with
    | none =>
        cases v with
        | false => simp [setCell, cellAt, hget]
        | true =>
            simp only [setCell, cellAt, hget, if_true]
            rw [mapGet_mapSet_ne _ _ _ _ hkey']
    | some chunk =>
        cases v with
        | true =>
            simp only [setCell, cellAt, hget, if_true]
            rw [mapGet_mapSet_ne _ _ _ _ hkey']
        | false =>
            simp only [setCell, cellAt, hget, Bool.false_eq_true, if_false]
            by_cases hemp :
                isChunkEmpty (setRow chunk (localIdx y)
                  (chunk (localIdx y) &&& lnot32 (2 ^ ((localIdx x : Fin 32) : ℕ)))) = true
            · rw [if_pos hemp, mapGet_mapDelete_ne _ _ _ hkey']
            · rw [if_neg hemp, mapGet_mapSet_ne _ _ _ _ hkey']

/-- C10: for all signed coordinates `(x, y)` (negative included) and both
cell values, after `setCell(x, y, v)` the call `getCell(x, y)` returns `v`,
and `getCell` at every other coordinate returns exactly what it returned
before the write: the floor-division/modulo transform and the
empty-chunk deletion never disturb other cells. -/
theorem setCell_getCell_frame (st : Store) (x y : ℤ) (v : Bool) :
    getCell (setCell st x y v) x y = v.toNat ∧
    ∀ x' y' : ℤ, (x', y') ≠ (x, y) →
      getCell (setCell st x y v) x' y' = getCell st x' y' := by
  constructor
  · rw [getCell_eq_cellAt, cellAt_setCell_self]
  · intro x' y' hne
    rw [getCell_eq_cellAt, getCell_eq_cellAt, cellAt_setCell_other st x y x' y' v hne]

/-- Witness for C10 at concrete inputs: a live write at `(-1, -1)` (a
negative coordinate, exercising the floor/modulo transform) on a store that
already holds a cell at `(0, 0)`; the untouched cell `(0, 0)` keeps its
value and the written cell reads back `1`. -/
theorem setCell_getCell_frame_witness :
    ((0 : ℤ), (0 : ℤ)) ≠ ((-1 : ℤ), (-1 : ℤ)) ∧
    getCell (setCell (setCell [] 0 0 true) (-1) (-1) true) (-1) (-1) = 1 ∧
    getCell (setCell (setCell [] 0 0 true) (-1) (-1) true) 0 0 =
      getCell (setCell [] 0 0 true) 0 0 := by
  refine ⟨by decide, ?_, ?_⟩
  · exact (setCell_getCell_frame (setCell [] 0 0 true) (-1) (-1) true).1
  · exact (setCell_getCell_frame (setCell [] 0 0 true) (-1) (-1) true).2 0 0 (by decide)

/-! ## RLE parsing (lib.js lines 60-108)

Strings are embedded as `List Char` (the source operates on UTF-16 code
units; every character involved is ASCII). -/

/-- `RLE_MAX_CELLS` (lib.js line 21). -/
def RLE_MAX_CELLS : ℕ := 10000000

/-- `RLE_MAX_RUN_LENGTH` (lib.js line 22). -/
def RLE_MAX_RUN_LENGTH : ℕ := 100000

/-- `str.split('\n')`. -/
def splitLines : List Char → List (List Char)
  | [] => [[]]
  | c :: cs =>
      match splitLines cs with
      | [] => [[]]
      | l :: ls => if c = '\n' then [] :: l :: ls else (c :: l) :: ls

/-- ASCII whitespace for JS `String.trim` (the characters that can occur
around RLE text). -/
def isWS (c : Char) : Bool := c = ' ' || c = '\t' || c = '\n' || c = '\r'

/-- `line.trim()`. -/
def trimChars (cs : List Char) : List Char :=
  ((cs.dropWhile isWS).reverse.dropWhile isWS).reverse

/-- `line.startsWith('#') || line.startsWith('x =') || line.startsWith('x=')`. -/
def isHeaderLine (cs : List Char) : Bool :=
  match cs with
  | '#' :: _ => true
  | 'x' :: ' ' :: '=' :: _ => true
  | 'x' :: '=' :: _ => true
  | _ => false

/-- Header/comment stripping of `parseRLE` (lib.js lines 61-69): split into
lines, trim each, skip headers, concatenate the rest. -/
def rleData (cs : List Char) : List Char :=
  ((splitLines cs).map trimChars).filter (fun l => !isHeaderLine l) |>.flatten

/-- `char >= '0' && char <= '9'`. -/
def isDigitChar (c : Char) : Bool := '0' ≤ c && c ≤ '9'

/-- `parseInt(char)` for a digit character. -/
def digitVal (c : Char) : ℕ := c.toNat - 48

/-- The tokenizer state of `parseRLE`: accumulated coordinates, cursor
`(x, y)`, pending run count. -/
structure ParseSt where
  coords : List (ℕ × ℕ)
  x : ℕ
  y : ℕ
  count : ℕ
deriving DecidableEq

/-- The error outcomes of `parseRLE` (the `{ok: false, error}` returns at
lib.js lines 82 and 91). -/
inductive RLEError where
  /-- `Run length ... exceeds maximum (100000)` -/
  | runLength : RLEError
  /-- `Pattern exceeds maximum cell count (10000000)` -/
  | tooManyCells : RLEError
deriving DecidableEq

/-- The character loop of `parseRLE` (lib.js lines 75-106). -/
def parseLoop : List Char → ParseSt → Except RLEError (List (ℕ × ℕ))
  | [], st => .ok st.coords
  | c :: rest, st =>
      if isDigitChar c then
        let count' := st.count * 10 + digitVal c
        -- validate run-length during accumulation
        if count' > RLE_MAX_RUN_LENGTH then .error .runLength
        else parseLoop rest { st with count := count' }
      else if c = 'b' || c = '.' then  -- dead cell
        parseLoop rest { st with x := st.x + max st.count 1, count := 0 }
      else if c = 'o' || c = '*' then  -- live cell
        let run := max st.count 1
        -- check cell limit before adding
        if st.coords.length + run > RLE_MAX_CELLS then .error .tooManyCells
        else
          parseLoop rest
            { st with
              coords := st.coords ++ (List.range run).map (fun k => (st.x + k, st.y))
              x := st.x + run
              count := 0 }
      else if c = '$' then  -- newline
        parseLoop rest { st with y := st.y + max st.count 1, x := 0, count := 0 }
      else if c = '!' then .ok st.coords  -- end
      else parseLoop rest st  -- ignore whitespace and unknown characters

/-- `parseRLE(str)` (lib.js lines 60-108). -/
def parseRLE (cs : List Char) : Except RLEError (List (ℕ × ℕ)) :=
  parseLoop (rleData cs) ⟨[], 0, 0, 0⟩

/-- `count || 1` in the source is `max count 1` for a natural count. -/
theorem max_count_one (n : ℕ) : max n 1 = if n = 0 then 1 else n := by
  split <;> omega

instance decEqExceptRLE : DecidableEq (Except RLEError (List (ℕ × ℕ))) := fun a b =>
  match a, b with
  | .error e, .error f =>
      if h : e = f then isTrue (by rw [h]) else isFalse (by intro hh; cases hh; exact h rfl)
  | .error _, .ok _ => isFalse (by intro h; cases h)
  | .ok _, .error _ => isFalse (by intro h; cases h)
  | .ok u, .ok v =>
      if h : u = v then isTrue (by rw [h]) else isFalse (by intro hh; cases hh; exact h rfl)

/-! ### Claim C9: the run-length cap -/

/-- C9: the parser fails with the pattern-too-large style error
(`runLength`) as soon as an accumulated run count exceeds 100000 — checked
during digit accumulation, whatever follows — so `999999o!` fails; and
`100o!` succeeds, producing exactly the 100 live coordinates
`(0,0) … (99,0)`. -/
theorem parseRLE_run_cap :
    (∀ (rest : List Char) (st : ParseSt) (c : Char), isDigitChar c = true →
      st.count * 10 + digitVal c > RLE_MAX_RUN_LENGTH →
      parseLoop (c :: rest) st = .error .runLength) ∧
    parseRLE "999999o!".toList = .error .runLength ∧
    parseRLE "100o!".toList = .ok ((List.range 100).map (fun k => (k, 0))) := by
  refine ⟨?_, by decide, by decide⟩
  intro rest st c hc hover
  unfold parseLoop
  rw [if_pos hc, if_pos (by exact hover)]

/-- Witness for C9's universal part at a concrete input: accumulating one
more digit onto a pending count of 100000 fails. -/
theorem parseRLE_run_cap_witness :
    isDigitChar '5' = true ∧
    (100000 : ℕ) * 10 + digitVal '5' > RLE_MAX_RUN_LENGTH ∧
    parseLoop ['5'] ⟨[], 0, 0, 100000⟩ = .error .runLength := by
  refine ⟨by decide, by decide, ?_⟩
  exact parseRLE_run_cap.1 [] ⟨[], 0, 0, 100000⟩ '5' (by decide) (by decide)

/-! ## Rule parsing (lib.js lines 238-258) and `setRule` (worker.js 856-865) -/

/-- A 9-entry boolean rule array `birth[0..=8]` / `survival[0..=8]`,
embedded as a function (only indices `0..8` are ever read or written). -/
abbrev RuleArr := ℕ → Bool

/-- The all-`false` initial arrays of `parseRule` (lib.js lines 239-240). -/
def falseRule : RuleArr := fun _ => false

/-- The digit loops of `parseRule` (lib.js lines 248-255): for each digit
character, `if (n >= 0 && n <= 8) arr[n] = true`. -/
def setRuleDigits (arr : RuleArr) (ds : List Char) : RuleArr :=
  ds.foldl (fun a d => if digitVal d ≤ 8 then Function.update a (digitVal d) true else a) arr

/-- One attempt of the JS regex `B(\d*)\/S(\d*)` at the head of the string:
it succeeds iff the head is `B`, followed by a (maximal) digit run, then
`/S`; the two capture groups are the digit runs after `B` and after `S`.
(`\d*` is greedy but can only end at the first non-digit, so the maximal
run is the unique possibility.) -/
def matchBSAt (cs : List Char) : Option (List Char × List Char) :=
  match cs with
  | [] => none
  | c :: rest =>
      if c = 'B' then
        match rest.dropWhile isDigitChar with
        | d1 :: d2 :: rest2 =>
            if d1 = '/' ∧ d2 = 'S' then
              some (rest.takeWhile isDigitChar, rest2.takeWhile isDigitChar)
            else none
        | _ => none
      else none

/-- The JS unanchored `String.match`: try `matchBSAt` at each position,
left to right. -/
def findRuleMatch (cs : List Char) : Option (List Char × List Char) :=
  match cs with
  | [] => none
  | c :: rest =>
      match matchBSAt (c :: rest) with
      | some r => some r
      | none => findRuleMatch rest

/-- `parseRule(ruleStr)` (lib.js lines 238-258): uppercase, match the
unanchored regex `B(\d*)\/S(\d*)`, and set the digit entries. -/
def parseRule (cs : List Char) : Option (RuleArr × RuleArr) :=
  match findRuleMatch (cs.map Char.toUpper) with
  | none => none
  | some (bd, sd) => some (setRuleDigits falseRule bd, setRuleDigits falseRule sd)

/-- The rule-related worker state mutated by `setRule`. -/
structure RuleState where
  birthRule : RuleArr
  survivalRule : RuleArr
  currentRuleString : List Char

/-- `setRule(ruleStr)` (worker.js lines 856-865): on parse success install
the predicates and the upper-cased string and return `true`; on failure
leave the state untouched and return `false` (the message handler at
worker.js 1050-1056 then posts `ruleError`). -/
def setRule (rs : RuleState) (cs : List Char) : RuleState × Bool :=
  match parseRule cs with
  | some (b, s) => (⟨b, s, cs.map Char.toUpper⟩, true)
  | none => (rs, false)

/-! ### Claim C8: the accepted language of `setRule` -/

/-- A digit drawn from `0..=8`, as the claimed grammar requires. -/
def specDigit08 (c : Char) : Bool := '0' ≤ c && c ≤ '8'

/-- The grammar stated by the claim: the whole string is
`B<digits>/S<digits>`, case-insensitive, digits drawn from `0..=8`, either
side possibly empty. -/
def claimRuleGrammar (cs : List Char) : Prop :=
  ∃ bs ss : List Char,
    cs.map Char.toUpper = 'B' :: (bs ++ '/' :: 'S' :: ss) ∧
    bs.all specDigit08 = true ∧ ss.all specDigit08 = true

/-- What the code actually accepts: some position of the upper-cased input
starts a `B<digits 0-9>/S` fragment (the unanchored regex). -/
def looseRuleMatch (cs : List Char) : Prop :=
  ∃ pre ds post : List Char,
    cs = pre ++ 'B' :: (ds ++ '/' :: 'S' :: post) ∧ ds.all isDigitChar = true

theorem all_takeWhile {p : Char → Bool} (l : List Char) :
    (l.takeWhile p).all p = true := by
  induction l with
  | nil => rfl
  | cons c cs ih =>
      by_cases h : p c = true
      · simp [List.takeWhile, h, ih]
      · simp [List.takeWhile, h]

theorem takeWhile_append_not {p : Char → Bool} (ds : List Char) (c : Char) (t : List Char)
    (hall : ds.all p = true) (hc : p c = false) :
    (ds ++ c :: t).takeWhile p = ds ∧ (ds ++ c :: t).dropWhile p = c :: t := by
  induction ds with
  | nil => simp [List.takeWhile, List.dropWhile, hc]
  | cons d ds ih =>
      simp only [List.all_cons, Bool.and_eq_true] at hall
      have := ih hall.2
      simp [List.takeWhile, List.dropWhile, hall.1, this.1, this.2]

theorem matchBSAt_none_iff (cs : List Char) :
    matchBSAt cs = none ↔
      ¬ ∃ ds post : List Char, cs = 'B' :: (ds ++ '/' :: 'S' :: post) ∧
        ds.all isDigitChar = true := by
  constructor
  · intro hnone ⟨ds, post, hcs, hall⟩
    subst hcs
    have h := takeWhile_append_not ds '/' ('S' :: post) hall (by decide)
    simp only [matchBSAt] at hnone
    rw [h.2] at hnone
    simp at hnone
  · intro hno
    cases cs with
    | nil => rfl
    | cons c rest =>
        simp only [matchBSAt]
        by_cases hB : c = 'B'
        · subst hB
          rw [if_pos rfl]
          cases hdw : rest.dropWhile isDigitChar with
          | nil => rfl
          | cons d1 tail =>
              cases tail with
              | nil => rfl
              | cons d2 rest2 =>
                  by_cases hds : d1 = '/' ∧ d2 = 'S'
                  · exfalso
                    apply hno
                    obtain ⟨h1, h2⟩ := hds
                    subst h1; subst h2
                    refine ⟨rest.takeWhile isDigitChar, rest2, ?_, all_takeWhile rest⟩
                    have htd := List.takeWhile_append_dropWhile (p := isDigitChar) (l := rest)
                    rw [hdw] at htd
                    rw [htd]
                  · simp [hds]
        · rw [if_neg hB]

theorem findRuleMatch_none_iff (cs : List Char) :
    findRuleMatch cs = none ↔ ¬ looseRuleMatch cs := by
  induction cs with
  | nil =>
      constructor
      · rintro _ ⟨pre, ds, post, hcs, _⟩
        simp at hcs
      · intro _; rfl
  | cons c rest ih =>
      constructor
      · intro hnone ⟨pre, ds, post, hcs, hall⟩
        unfold findRuleMatch at hnone
        cases hm : matchBSAt (c :: rest) with
        | some r => rw [hm] at hnone; exact Option.noConfusion hnone
        | none =>
            rw [hm] at hnone
            cases pre with
            | nil =>
                simp only [List.nil_append] at hcs
                exact ((matchBSAt_none_iff _).mp hm) ⟨ds, post, hcs, hall⟩
            | cons p pre' =>
                have hrest : rest = pre' ++ 'B' :: (ds ++ '/' :: 'S' :: post) := by
                  have := hcs
                  simp only [List.cons_append] at this
                  exact (List.cons.injEq _ _ _ _).mp this |>.2
                exact (ih.mp hnone) ⟨pre', ds, post, hrest, hall⟩
      · intro hno
        unfold findRuleMatch
        cases hm : matchBSAt (c :: rest) with
        | some r =>
            exfalso
            apply hno
            rcases hr : matchBSAt (c :: rest) with _ | ⟨bd, sd⟩
            · rw [hr] at hm; exact Option.noConfusion hm
            · -- extract the decomposition from a successful head match
              simp only [matchBSAt] at hr
              by_cases hB : c = 'B'
              · subst hB
                rw [if_pos rfl] at hr
                cases hdw : rest.dropWhile isDigitChar with
                | nil => rw [hdw] at hr; exact Option.noConfusion hr
                | cons d1 tail =>
                    cases tail with
                    | nil => rw [hdw] at hr; exact Option.noConfusion hr
                    | cons d2 rest2 =>
                        rw [hdw] at hr
                        by_cases hds : d1 = '/' ∧ d2 = 'S'
                        · obtain ⟨h1, h2⟩ := hds
                          subst h1; subst h2
                          refine ⟨[], rest.takeWhile isDigitChar, rest2, ?_, all_takeWhile rest⟩
                          have htd := List.takeWhile_append_dropWhile (p := isDigitChar) (l := rest)
                          rw [hdw] at htd
                          simp only [List.nil_append]
                          rw [htd]
                        · simp [hds] at hr
              · rw [if_neg hB] at hr; exact Option.noConfusion hr
        | none =>
            apply ih.mpr
            intro ⟨pre', ds, post, hrest, hall⟩
            exact hno ⟨c :: pre', ds, post, by rw [List.cons_append, hrest], hall⟩

/-- C8 counterexample: on input `"B9/S"` the code's `setRule` succeeds (no
`ruleError` surfaced) although the string does not conform to the claimed
grammar `B<digits 0..=8>/S<digits 0..=8>` — the regex `\d` accepts `9` and
the digit loop silently drops it.  This falsifies the claimed
"if and only if". -/
theorem setRule_grammar_cex :
    (setRule ⟨falseRule, falseRule, []⟩ "B9/S".toList).2 = true ∧
    ¬ claimRuleGrammar "B9/S".toList := by
  constructor
  · decide
  · rintro ⟨bs, ss, heq, hb, hs⟩
    have hmap : List.map Char.toUpper "B9/S".toList = ['B', '9', '/', 'S'] := by decide
    rw [hmap] at heq
    have htl : (['9', '/', 'S'] : List Char) = bs ++ '/' :: 'S' :: ss :=
      (List.cons.injEq _ _ _ _).mp heq |>.2
    have hlen := congrArg List.length htl
    simp at hlen
    rcases bs with _ | ⟨b1, bs1⟩
    · simp at htl
    · rcases bs1 with _ | ⟨b2, bs2⟩
      · simp at htl
        rw [← htl.1] at hb
        exact absurd hb (by decide)
      · simp at hlen
        omega

/-- C8 (amended): `setRule` surfaces the error (returns `false`, upon which
the handler posts `ruleError`) iff the upper-cased input contains no
substring of the form `B<digits>/S` — the regex is unanchored and accepts
the digits `9` as well (they are then ignored), so conformance of the
whole string to the claimed grammar is NOT required; and whenever it
fails, the birth predicate, survival predicate and rule string are left
unchanged. -/
theorem setRule_error_iff (rs : RuleState) (cs : List Char) :
    ((setRule rs cs).2 = false ↔ ¬ looseRuleMatch (cs.map Char.toUpper)) ∧
    ((setRule rs cs).2 = false → (setRule rs cs).1 = rs) := by
  unfold setRule parseRule
  cases hm : findRuleMatch (cs.map Char.toUpper) with
  | none =>
      refine ⟨⟨fun _ => (findRuleMatch_none_iff _).mp hm, fun _ => rfl⟩, fun _ => rfl⟩
  | some r =>
      obtain ⟨bd, sd⟩ := r
      constructor
      · constructor
        · intro h; exact absurd h (by simp)
        · intro hno
          exfalso
          have : findRuleMatch (cs.map Char.toUpper) = none := (findRuleMatch_none_iff _).mpr hno
          rw [hm] at this
          exact Option.noConfusion this
      · intro h; exact absurd h (by simp)

/-- Witness for C8's amended theorem at a concrete input: `"xyz"` contains
no `B…/S` fragment, so `setRule` fails and leaves the rule state intact. -/
theorem setRule_error_iff_witness :
    (setRule ⟨falseRule, falseRule, []⟩ "xyz".toList).2 = false ∧
    (setRule ⟨falseRule, falseRule, []⟩ "xyz".toList).1 = ⟨falseRule, falseRule, []⟩ := by
  refine ⟨by decide, ?_⟩
  exact (setRule_error_iff ⟨falseRule, falseRule, []⟩ "xyz".toList).2 (by decide)

/-! ## JS `Set` iteration order (first-occurrence de-duplication) -/

/-- Adding one element to a JS `Set` (kept as an insertion-ordered list). -/
def insertUniq {α : Type} [DecidableEq α] (acc : List α) (k : α) : List α :=
  if k ∈ acc then acc else acc ++ [k]

/-- `new Set(list)`: first occurrences, in order. -/
def setOfList {α : Type} [DecidableEq α] (ks : List α) : List α :=
  ks.foldl insertUniq []

theorem mem_foldl_insertUniq {α : Type} [DecidableEq α] (ks : List α) (acc : List α) (a : α) :
    a ∈ ks.foldl insertUniq acc ↔ a ∈ acc ∨ a ∈ ks := by
  induction ks generalizing acc with
  | nil => simp
  | cons k rest ih =>
      simp only [List.foldl_cons, ih]
      unfold insertUniq
      by_cases h : k ∈ acc
      · rw [if_pos h]
        constructor
        · rintro (ha | hr)
          · exact Or.inl ha
          · exact Or.inr (List.mem_cons_of_mem k hr)
        · rintro (ha | hr)
          · exact Or.inl ha
          · rcases List.mem_cons.mp hr with rfl | hr
            · exact Or.inl h
            · exact Or.inr hr
      · rw [if_neg h]
        simp only [List.mem_append, List.mem_singleton, List.mem_cons]
        tauto

theorem mem_setOfList {α : Type} [DecidableEq α] (ks : List α) (a : α) :
    a ∈ setOfList ks ↔ a ∈ ks := by
  unfold setOfList
  rw [mem_foldl_insertUniq]
  simp

theorem nodup_foldl_insertUniq {α : Type} [DecidableEq α] (ks : List α) (acc : List α)
    (h : acc.Nodup) : (ks.foldl insertUniq acc).Nodup := by
  induction ks generalizing acc with
  | nil => exact h
  | cons k rest ih =>
      simp only [List.foldl_cons]
      apply ih
      unfold insertUniq
      by_cases hk : k ∈ acc
      · rw [if_pos hk]; exact h
      · rw [if_neg hk]
        exact List.nodup_append.mpr ⟨h, List.nodup_singleton k, by simpa using hk⟩

theorem nodup_setOfList {α : Type} [DecidableEq α] (ks : List α) : (setOfList ks).Nodup :=
  nodup_foldl_insertUniq ks [] List.nodup_nil

/-! ## Heatmap tracking (worker.js lines 1814-1866), claim C4 -/

/-- `CONFIG.HEATMAP_BOOST` (worker.js line 830). -/
def HEATMAP_BOOST : ℕ := 5

/-- `HEATMAP_DECAY_INTERVAL` (worker.js line 909). -/
def HEATMAP_DECAY_INTERVAL : ℕ := 10

/-- A heatmap tile: `Uint8Array(CHUNK_SIZE * CHUNK_SIZE)`, byte
`ly * 32 + lx` is the activity counter of local cell `(lx, ly)`. -/
abbrev HeatChunk := Fin 1024 → ℕ

/-- The heatmap store `heatmapChunks`. -/
abbrev HeatStore := List (ChunkKey × HeatChunk)

/-- `new Uint8Array(CHUNK_SIZE * CHUNK_SIZE)`. -/
def zeroHeat : HeatChunk := fun _ => 0

/-- `ly * CHUNK_SIZE + lx` as an index into a 1024-byte tile. -/
def idx1024 (ly lx : Fin 32) : Fin 1024 :=
  ⟨ly.val * 32 + lx.val, by omega⟩

/-- The per-byte update of `updateHeatmap` (worker.js lines 1840-1843):

```
if (heatChunk[idx] < 255) {
    heatChunk[idx] += CONFIG.HEATMAP_BOOST;
    if (heatChunk[idx] > 255) heatChunk[idx] = 255;
}
```

`heatChunk` is a `Uint8Array`, so the `+=` write stores `(h + 5) % 256`;
the guard then re-reads the already-wrapped byte, so it can never fire.
The embedding reproduces this faithfully. -/
def heatBump (h : ℕ) : ℕ :=
  if h < 255 then
    let stored := (h + HEATMAP_BOOST) % 256
    if stored > 255 then 255 else stored
  else h

/-- The inner `lx` loop of `updateHeatmap` over one row's changed mask
(worker.js lines 1836-1845), preceded by the `changed === 0` skip. -/
def updateHeatRow (heat : HeatChunk) (ly : Fin 32) (changed : ℕ) : HeatChunk :=
  if changed = 0 then heat
  else
    (List.finRange 32).foldl
      (fun hc lx =>
        if (changed >>> lx.val) &&& 1 = 1 then
          Function.update hc (idx1024 ly lx) (heatBump (hc (idx1024 ly lx)))
        else hc)
      heat

/-- The `ly` loop of `updateHeatmap` for one chunk key: XOR old and new
rows and bump every changed bit (worker.js lines 1829-1846). -/
def updateHeatChunk (oldC newC : Option Chunk) (heat : HeatChunk) : HeatChunk :=
  (List.finRange 32).foldl
    (fun hc ly =>
      let oldWord := match oldC with | some c => c ly | none => 0
      let newWord := match newC with | some c => c ly | none => 0
      updateHeatRow hc ly (oldWord ^^^ newWord))
    heat

/-- One byte of the decay pass (worker.js line 1857):
`heatChunk[i] = Math.max(0, heatChunk[i] - 1)` applied to positive bytes. -/
def decayHeatChunk (h : HeatChunk) : HeatChunk :=
  fun i => if h i > 0 then h i - 1 else h i

/-- `hasValue` after the decay pass: some byte is still positive
(worker.js lines 1854-1860). -/
def heatHasValue (h : HeatChunk) : Bool :=
  (List.finRange 1024).any (fun i => decide (0 < decayHeatChunk h i))

/-- The decay sweep (worker.js lines 1853-1864): decrement every positive
byte of every tile and delete tiles with no positive byte left. -/
def decayHeatStore (hs : HeatStore) : HeatStore :=
  (hs.map (fun kc => (kc.1, decayHeatChunk kc.2))).filter (fun kc => heatHasValue kc.2)

/-- `updateHeatmap(oldChunks, newChunks)` (worker.js lines 1815-1866),
acting on the heat store and the decay counter: for every key of either
store, get-or-create the heat tile and bump every changed bit; then, every
`HEATMAP_DECAY_INTERVAL` calls, run the decay sweep. -/
def updateHeatmap (oldChunks newChunks : Store) (hs : HeatStore) (decayCounter : ℕ) :
    HeatStore × ℕ :=
  let hs' :=
    (setOfList (storeKeys oldChunks ++ storeKeys newChunks)).foldl
      (fun acc key =>
        let heatChunk := match mapGet acc key with | some h => h | none => zeroHeat
        mapSet acc key (updateHeatChunk (mapGet oldChunks key) (mapGet newChunks key) heatChunk))
      hs
  let dc := decayCounter + 1
  if dc ≥ HEATMAP_DECAY_INTERVAL then (decayHeatStore hs', 0) else (hs', dc)

/-- C4 (code bug): a cell whose state bit flips while its heatmap byte is
254 ends with byte `(254 + 5) % 256 = 3`, not `min(254 + 5, 255) = 255` as
the claim states: the `Uint8Array` write wraps before the `> 255` guard
reads it back, so the saturation branch is dead code.  Here the old store
holds one live cell at `(0, 0)` which dies (`newChunks` empty), and the
heatmap byte of that cell is 254. -/
theorem updateHeatmap_wrap_bug :
    (match
        mapGet
          (updateHeatmap [((0, 0), setRow zeroChunk 0 1)] []
            [((0, 0), Function.update zeroHeat ⟨0, by norm_num⟩ 254)] 0).1
          (0, 0) with
     | some h => h ⟨0, by norm_num⟩
     | none => 0) = 3 ∧
    min (254 + HEATMAP_BOOST) 255 = 255 := by
  constructor
  · decide
  · decide

/-! ## Decimal rendering (JS template `${count}`) -/

/-- The character of a decimal digit. -/
def digitChar (n : ℕ) : Char := Char.ofNat (48 + n)

/-- Decimal rendering with explicit fuel (structural, so that concrete
evaluation reduces in the kernel). -/
def natDigitsAux : ℕ → ℕ → List Char
  | 0, _ => []
  | fuel + 1, n => if n < 10 then [digitChar n] else natDigitsAux fuel (n / 10) ++ [digitChar (n % 10)]

/-- The decimal digits of `n`, most significant first (JS `${n}`). -/
def natDigits (n : ℕ) : List Char := natDigitsAux (n + 1) n

theorem natDigitsAux_fuel_irrel (n : ℕ) : ∀ f, n < f → natDigitsAux f n = natDigits n := by
  induction n using Nat.strong_induction_on with
  | _ n ih =>
      intro f hf
      match f with
      | f' + 1 =>
          unfold natDigits
          by_cases h10 : n < 10
          · simp [natDigitsAux, h10]
          · have hdiv : n / 10 < n := Nat.div_lt_self (by omega) (by omega)
            simp only [natDigitsAux, h10, if_false]
            rw [ih (n / 10) hdiv f' (by omega), ih (n / 10) hdiv n (by omega)]

theorem natDigits_unfold (n : ℕ) (h10 : ¬ n < 10) :
    natDigits n = natDigits (n / 10) ++ [digitChar (n % 10)] := by
  have hdiv : n / 10 < n := Nat.div_lt_self (by omega) (by omega)
  conv_lhs => unfold natDigits natDigitsAux
  simp only [h10, if_false]
  rw [natDigitsAux_fuel_irrel (n / 10) n (by omega)]

/-! ## `exportWorld` (worker.js lines 1356-1450), claim C5 -/

/-- The live-cell scan of one chunk (worker.js lines 1366-1381): rows top
to bottom, bits LSB first, skipping all-zero words; coordinates are
`(cx*32+lx, cy*32+ly)`. -/
def liveCellsOfChunk (key : ChunkKey) (c : Chunk) : List (ℤ × ℤ) :=
  (List.finRange 32).foldl
    (fun acc ly =>
      if c ly = 0 then acc
      else
        (List.finRange 32).foldl
          (fun acc2 lx =>
            if (c ly >>> lx.val) &&& 1 = 1 then
              acc2 ++ [(key.1 * 32 + (lx.val : ℤ), key.2 * 32 + (ly.val : ℤ))]
            else acc2)
          acc)
    []

/-- The live-cell scan of the whole store (worker.js lines 1361-1382), in
map iteration order. -/
def liveCellsOfStore (st : Store) : List (ℤ × ℤ) :=
  st.foldl (fun acc kc => acc ++ liveCellsOfChunk kc.1 kc.2) []

/-- The run-length scan of `exportWorld`/`coordsToRLE`
(`while (x + count < w && grid[y][x + count] === alive) count++`),
with fuel `w` (sufficient: the loop runs at most `w` times). -/
def runCountAux (row : ℕ → Bool) (w : ℕ) (alive : Bool) (x : ℕ) : ℕ → ℕ → ℕ
  | 0, count => count
  | fuel + 1, count =>
      if x + count < w ∧ row (x + count) = alive then runCountAux row w alive x fuel (count + 1)
      else count

/-- The run length starting at `x` (initial `count = 1`). -/
def runCount (row : ℕ → Bool) (w : ℕ) (alive : Bool) (x : ℕ) : ℕ :=
  runCountAux row w alive x w 1

/-- One row of `exportWorld`'s RLE loop (worker.js lines 1401-1431).
State `(rle, rowRle, lineLen)`: tokens are appended to `rowRle` while the
wrap-newline is appended to `rle` — exactly as the source does. -/
def exportRowLoop (row : ℕ → Bool) (w : ℕ) :
    ℕ → ℕ → (List Char × List Char × ℕ) → (List Char × List Char × ℕ)
  | 0, _, st => st
  | fuel + 1, x, (rle, rowRle, lineLen) =>
      if x < w then
        let alive := row x
        let count := runCount row w alive x
        -- skip trailing dead cells
        if alive = false ∧ x + count ≥ w then (rle, rowRle, lineLen)
        else
          let token := (if count > 1 then natDigits count else []) ++ [if alive then 'o' else 'b']
          -- line wrap BEFORE adding the token … but the newline goes to `rle`
          -- while the token goes to `rowRle` (worker.js lines 1423-1429)
          let wrapped := lineLen + token.length > 70 ∧ lineLen > 0
          let rle' := if wrapped then rle ++ ['\n'] else rle
          let lineLen' := if wrapped then 0 else lineLen
          exportRowLoop row w fuel (x + count) (rle', rowRle ++ token, lineLen' + token.length)
      else (rle, rowRle, lineLen)

/-- The row loop of `exportWorld` (worker.js lines 1401-1444): per row run
the token loop, then append `rowRle` and the terminator (`$` or `!`) to
`rle`, wrapping before the terminator if needed. -/
def exportBody (grid2 : ℕ → ℕ → Bool) (w h : ℕ) (init : List Char) : List Char :=
  ((List.range h).foldl
    (fun (st : List Char × ℕ) y =>
      let (rle, lineLen) := st
      let (rle1, rowRle, lineLen1) := exportRowLoop (fun x => grid2 x y) w w 0 (rle, [], lineLen)
      let term := if y < h - 1 then '$' else '!'
      let wrapped := lineLen1 + 1 > 70 ∧ lineLen1 > 0
      let rle2 := if wrapped then rle1 ++ ['\n'] else rle1
      let lineLen2 := if wrapped then 0 else lineLen1
      (rle2 ++ rowRle ++ [term], lineLen2 + 1))
    (init, 0)).1

/-- `exportWorld()` (worker.js lines 1356-1450): scan live cells, compute
the bounding box (the `±Infinity` fold seeds are replaced by seeding with
the first cell, which is equivalent on the non-empty list), build the
row-major grid (embedded as the membership function the array writes
produce), and emit header plus RLE body.  Returns `none` when there are no
live cells (the source returns without posting). -/
def exportWorldRLE (st : Store) (ruleString : List Char) : Option (List Char × ℤ × ℤ) :=
  let liveCells := liveCellsOfStore st
  match liveCells with
  | [] => none
  | c0 :: restCells =>
      let minX := restCells.foldl (fun m p => min m p.1) c0.1
      let maxX := restCells.foldl (fun m p => max m p.1) c0.1
      let minY := restCells.foldl (fun m p => min m p.2) c0.2
      let maxY := restCells.foldl (fun m p => max m p.2) c0.2
      let w := maxX - minX + 1
      let h := maxY - minY + 1
      let grid2 : ℕ → ℕ → Bool := fun gx gy => decide ((minX + gx, minY + gy) ∈ liveCells)
      let header :=
        "#C Exported from Life Engine".toList ++ ['\n'] ++
        "x = ".toList ++ natDigits w.toNat ++ ", y = ".toList ++ natDigits h.toNat ++
        ", rule = ".toList ++ ruleString ++ ['\n']
      some (exportBody grid2 w.toNat h.toNat header, w, h)

/-- The longest line of a text. -/
def maxLineLen (cs : List Char) : ℕ :=
  ((splitLines cs).map List.length).foldl max 0

/-- A chunk whose row 0 is `0x55555555` (cells at even `lx`). -/
def cexChunk55 : Chunk := setRow zeroChunk 0 1431655765

/-- 80 live cells at `(2k, 0)`, `k < 80`, spanning five chunks: a single
row whose RLE tokens total 159 characters. -/
def cexExportStore : Store :=
  [((0, 0), cexChunk55), ((1, 0), cexChunk55), ((2, 0), cexChunk55),
   ((3, 0), cexChunk55), ((4, 0), cexChunk55)]

set_option maxRecDepth 100000 in
/-- C5 (code bug): `exportWorld` emits a 160-character line on this store.
The wrap-newlines are appended to `rle` while the row's tokens accumulate
in `rowRle`, which is appended afterwards in one piece, so the 70-column
limit claimed is not enforced (the companion `coordsToRLE` in lib.js
appends tokens directly to the output and wraps correctly). -/
theorem exportWorld_line_length_bug :
    (match exportWorldRLE cexExportStore "B3/S23".toList with
     | some (rle, _, _) => maxLineLen rle
     | none => 0) = 160 := by
  decide

/-! ## The SWAR generator `computeNextGeneration` (worker.js 1563-1711) -/

/-- `chunk ? chunk[i] : 0`: a row of an optional chunk, zero when absent. -/
def rowOf (oc : Option Chunk) (i : Fin 32) : ℕ :=
  match oc with
  | some c => c i
  | none => 0

/-- The carry-save adder tree of the SWAR step (worker.js lines 1642-1663),
producing the four per-lane count bits `total0..total3` from the eight
aligned neighbor vectors. -/
def swarTotals (n s w e nw ne sw se : ℕ) : ℕ × ℕ × ℕ × ℕ :=
  let s0 := n ^^^ s; let c0 := n &&& s
  let s1 := w ^^^ e; let c1 := w &&& e
  let s2 := nw ^^^ sw; let c2 := nw &&& sw
  let s3 := ne ^^^ se; let c3 := ne &&& se
  let s01 := s0 ^^^ s1; let c01 := s0 &&& s1
  let s23 := s2 ^^^ s3; let c23 := s2 &&& s3
  let total0 := s01 ^^^ s23
  let carry_s_raw := s01 &&& s23
  let sum_A := c01 ^^^ c23 ^^^ carry_s_raw
  let carry_A := (c01 &&& c23) ||| (c01 &&& carry_s_raw) ||| (c23 &&& carry_s_raw)
  let c01_x := c0 ^^^ c1; let c01_a := c0 &&& c1
  let c23_x := c2 ^^^ c3; let c23_a := c2 &&& c3
  let sum_B := c01_x ^^^ c23_x
  let carry_B := (c01_x &&& c23_x) ||| c01_a ||| c23_a
  let total1 := sum_A ^^^ sum_B
  let carry_AB := sum_A &&& sum_B
  let total2 := carry_A ^^^ carry_B ^^^ carry_AB
  let total3 := (carry_A &&& carry_B) ||| (carry_A &&& carry_AB) ||| (carry_B &&& carry_AB)
  (total0, total1, total2, total3)

/-- The same adder tree, one lane at a time. -/
def swarTotalsB (n s w e nw ne sw se : Bool) : Bool × Bool × Bool × Bool :=
  let s0 := xor n s; let c0 := n && s
  let s1 := xor w e; let c1 := w && e
  let s2 := xor nw sw; let c2 := nw && sw
  let s3 := xor ne se; let c3 := ne && se
  let s01 := xor s0 s1; let c01 := s0 && s1
  let s23 := xor s2 s3; let c23 := s2 && s3
  let total0 := xor s01 s23
  let carry_s_raw := s01 && s23
  let sum_A := xor (xor c01 c23) carry_s_raw
  let carry_A := (c01 && c23) || (c01 && carry_s_raw) || (c23 && carry_s_raw)
  let c01_x := xor c0 c1; let c01_a := c0 && c1
  let c23_x := xor c2 c3; let c23_a := c2 && c3
  let sum_B := xor c01_x c23_x
  let carry_B := (c01_x && c23_x) || c01_a || c23_a
  let total1 := xor sum_A sum_B
  let carry_AB := sum_A && sum_B
  let total2 := xor (xor carry_A carry_B) carry_AB
  let total3 := (carry_A && carry_B) || (carry_A && carry_AB) || (carry_B && carry_AB)
  (total0, total1, total2, total3)

/-- The number of live bits among the eight neighbor lanes. -/
def cntOf (n s w e nw ne sw se : Bool) : ℕ :=
  n.toNat + s.toNat + w.toNat + e.toNat + nw.toNat + ne.toNat + sw.toNat + se.toNat

/-- The count as the adder tree actually decodes it: `carry_B` OR-merges
the two weight-4 carries `c01_a` and `c23_a`, which are simultaneously set
exactly when all eight neighbors are live, so a true count of 8 comes out
as 4.  All counts `0..7` are encoded exactly. -/
def decodedCnt (n s w e nw ne sw se : Bool) : ℕ :=
  if cntOf n s w e nw ne sw se = 8 then 4 else cntOf n s w e nw ne sw se

/-- The adder tree computes the binary expansion of `decodedCnt` (NOT of
the true count: on eight live neighbors it produces 4). -/
theorem swarTotalsB_correct (n s w e nw ne sw se : Bool) :
    (swarTotalsB n s w e nw ne sw se).1.toNat +
      2 * (swarTotalsB n s w e nw ne sw se).2.1.toNat +
      4 * (swarTotalsB n s w e nw ne sw se).2.2.1.toNat +
      8 * (swarTotalsB n s w e nw ne sw se).2.2.2.toNat =
    decodedCnt n s w e nw ne sw se := by
  cases n <;> cases s <;> cases w <;> cases e <;>
    cases nw <;> cases ne <;> cases sw <;> cases se <;> decide

/-- Each word-level total bit is the Bool-level total of the lane bits. -/
theorem swarTotals_testBit (n s w e nw ne sw se : ℕ) (i : ℕ) :
    ((swarTotals n s w e nw ne sw se).1.testBit i,
     (swarTotals n s w e nw ne sw se).2.1.testBit i,
     (swarTotals n s w e nw ne sw se).2.2.1.testBit i,
     (swarTotals n s w e nw ne sw se).2.2.2.testBit i) =
    swarTotalsB (n.testBit i) (s.testBit i) (w.testBit i) (e.testBit i)
      (nw.testBit i) (ne.testBit i) (sw.testBit i) (se.testBit i) := by
  simp only [swarTotals, swarTotalsB, Nat.testBit_xor, Nat.testBit_and, Nat.testBit_or]

theorem testBit_cond_mask (b : Bool) (x : ℕ) (i : ℕ) :
    (if b then x else 0).testBit i = (b && x.testBit i) := by
  cases b <;> simp

/-- The mask decode and rule application of the SWAR step (worker.js lines
1665-1699), on the aligned neighbor vectors.  The source accumulates
`birthMask`/`survivalMask` through nine `if (rule[k]) mask |= nk`
statements; the accumulated result is the OR of the selected masks, written
here as the OR of nine conditionals. -/
def swarCombine (birth surv : RuleArr) (c_row n s w e nw ne sw se : ℕ) : ℕ :=
  let t := swarTotals n s w e nw ne sw se
  let total0 := t.1
  let total1 := t.2.1
  let total2 := t.2.2.1
  let total3 := t.2.2.2
  let n0 := lnot32 total3 &&& lnot32 total2 &&& lnot32 total1 &&& lnot32 total0
  let n1 := lnot32 total3 &&& lnot32 total2 &&& lnot32 total1 &&& total0
  let n2 := lnot32 total3 &&& lnot32 total2 &&& total1 &&& lnot32 total0
  let n3 := lnot32 total3 &&& lnot32 total2 &&& total1 &&& total0
  let n4 := lnot32 total3 &&& total2 &&& lnot32 total1 &&& lnot32 total0
  let n5 := lnot32 total3 &&& total2 &&& lnot32 total1 &&& total0
  let n6 := lnot32 total3 &&& total2 &&& total1 &&& lnot32 total0
  let n7 := lnot32 total3 &&& total2 &&& total1 &&& total0
  let n8 := total3 &&& lnot32 total2 &&& lnot32 total1 &&& lnot32 total0
  let birthMask :=
    (if birth 0 then n0 else 0) ||| (if birth 1 then n1 else 0) |||
    (if birth 2 then n2 else 0) ||| (if birth 3 then n3 else 0) |||
    (if birth 4 then n4 else 0) ||| (if birth 5 then n5 else 0) |||
    (if birth 6 then n6 else 0) ||| (if birth 7 then n7 else 0) |||
    (if birth 8 then n8 else 0)
  let survivalMask :=
    (if surv 0 then n0 else 0) ||| (if surv 1 then n1 else 0) |||
    (if surv 2 then n2 else 0) ||| (if surv 3 then n3 else 0) |||
    (if surv 4 then n4 else 0) ||| (if surv 5 then n5 else 0) |||
    (if surv 6 then n6 else 0) ||| (if surv 7 then n7 else 0) |||
    (if surv 8 then n8 else 0)
  (lnot32 c_row &&& birthMask) ||| (c_row &&& survivalMask)

/-- The same decode and rule application, one lane at a time. -/
def swarCombineB (birth surv : RuleArr) (cb n s w e nw ne sw se : Bool) : Bool :=
  let t := swarTotalsB n s w e nw ne sw se
  let total0 := t.1
  let total1 := t.2.1
  let total2 := t.2.2.1
  let total3 := t.2.2.2
  let n0 := !total3 && !total2 && !total1 && !total0
  let n1 := !total3 && !total2 && !total1 && total0
  let n2 := !total3 && !total2 && total1 && !total0
  let n3 := !total3 && !total2 && total1 && total0
  let n4 := !total3 && total2 && !total1 && !total0
  let n5 := !total3 && total2 && !total1 && total0
  let n6 := !total3 && total2 && total1 && !total0
  let n7 := !total3 && total2 && total1 && total0
  let n8 := total3 && !total2 && !total1 && !total0
  let birthMask :=
    (birth 0 && n0) || (birth 1 && n1) || (birth 2 && n2) || (birth 3 && n3) ||
    (birth 4 && n4) || (birth 5 && n5) || (birth 6 && n6) || (birth 7 && n7) ||
    (birth 8 && n8)
  let survivalMask :=
    (surv 0 && n0) || (surv 1 && n1) || (surv 2 && n2) || (surv 3 && n3) ||
    (surv 4 && n4) || (surv 5 && n5) || (surv 6 && n6) || (surv 7 && n7) ||
    (surv 8 && n8)
  (!cb && birthMask) || (cb && survivalMask)

set_option maxHeartbeats 2000000 in
theorem swarCombine_testBit (birth surv : RuleArr) (c n s w e nw ne sw se : ℕ)
    (i : ℕ) (hi : i < 32) :
    (swarCombine birth surv c n s w e nw ne sw se).testBit i =
    swarCombineB birth surv (c.testBit i) (n.testBit i) (s.testBit i) (w.testBit i)
      (e.testBit i) (nw.testBit i) (ne.testBit i) (sw.testBit i) (se.testBit i) := by
  have h := swarTotals_testBit n s w e nw ne sw se i
  have h0 := congrArg (fun p => p.1) h
  have h1 := congrArg (fun p => p.2.1) h
  have h2 := congrArg (fun p => p.2.2.1) h
  have h3 := congrArg (fun p => p.2.2.2) h
  simp only [] at h0 h1 h2 h3
  simp only [swarCombine, swarCombineB,
    Nat.testBit_and, Nat.testBit_or, testBit_cond_mask,
    testBit_lnot32 _ _ hi, h0, h1, h2, h3]

/-- The nine-fold OR of rule-selected exact-count masks picks the rule
entry at the encoded value. -/
theorem maskOr_eq (r : RuleArr) (t0 t1 t2 t3 : Bool)
    (h : t0.toNat + 2 * t1.toNat + 4 * t2.toNat + 8 * t3.toNat ≤ 8) :
    ((r 0 && (!t3 && !t2 && !t1 && !t0)) || (r 1 && (!t3 && !t2 && !t1 && t0)) ||
     (r 2 && (!t3 && !t2 && t1 && !t0)) || (r 3 && (!t3 && !t2 && t1 && t0)) ||
     (r 4 && (!t3 && t2 && !t1 && !t0)) || (r 5 && (!t3 && t2 && !t1 && t0)) ||
     (r 6 && (!t3 && t2 && t1 && !t0)) || (r 7 && (!t3 && t2 && t1 && t0)) ||
     (r 8 && (t3 && !t2 && !t1 && !t0))) =
    r (t0.toNat + 2 * t1.toNat + 4 * t2.toNat + 8 * t3.toNat) := by
  cases t0 <;> cases t1 <;> cases t2 <;> cases t3 <;>
    first
      | (exfalso; revert h; decide)
      | simp

theorem decodedCnt_le (n s w e nw ne sw se : Bool) :
    decodedCnt n s w e nw ne sw se ≤ 8 := by
  have hb : ∀ b : Bool, b.toNat ≤ 1 := fun b => by cases b <;> simp
  unfold decodedCnt cntOf
  split
  · omega
  · have h1 := hb n; have h2 := hb s; have h3 := hb w; have h4 := hb e
    have h5 := hb nw; have h6 := hb ne; have h7 := hb sw; have h8 := hb se
    omega

/-- Bool-level decode correctness: the combine applies the rule at the
decoded count. -/
theorem swarCombineB_eq (birth surv : RuleArr) (cb n s w e nw ne sw se : Bool) :
    swarCombineB birth surv cb n s w e nw ne sw se =
      (if cb then surv (decodedCnt n s w e nw ne sw se)
       else birth (decodedCnt n s w e nw ne sw se)) := by
  have hval := swarTotalsB_correct n s w e nw ne sw se
  have hle := decodedCnt_le n s w e nw ne sw se
  simp only [swarCombineB]
  rw [maskOr_eq birth _ _ _ _ (by rw [hval]; exact hle),
    maskOr_eq surv _ _ _ _ (by rw [hval]; exact hle), hval]
  cases cb <;> simp

theorem shiftRightV_testBit (curr left : ℕ) (hleft : left < WORD_MOD) (i : ℕ) (hi : i < 32) :
    (shiftRightV curr left).testBit i =
      if i = 0 then left.testBit 31 else curr.testBit (i - 1) := by
  unfold shiftRightV
  unfold WORD_MOD at *
  rw [Nat.testBit_or, Nat.testBit_mod_two_pow, Nat.testBit_shiftLeft, Nat.testBit_shiftRight]
  by_cases h0 : i = 0
  · subst h0; simp
  · have hge : left < 2 ^ (31 + i) :=
      lt_of_lt_of_le hleft (Nat.pow_le_pow_right (by norm_num) (by omega))
    have h31 : left.testBit (31 + i) = false := Nat.testBit_lt_two_pow hge
    simp [hi, h0, h31, Nat.one_le_iff_ne_zero]

theorem shiftLeftV_testBit (curr right : ℕ) (hcurr : curr < WORD_MOD) (i : ℕ) (hi : i < 32) :
    (shiftLeftV curr right).testBit i =
      if i = 31 then right.testBit 0 else curr.testBit (i + 1) := by
  unfold shiftLeftV
  unfold WORD_MOD at *
  rw [Nat.testBit_or, Nat.testBit_mod_two_pow, Nat.testBit_shiftLeft, Nat.testBit_shiftRight]
  by_cases h31 : i = 31
  · subst h31
    have h32 : curr.testBit (1 + 31) = false :=
      Nat.testBit_lt_two_pow (lt_of_lt_of_le hcurr (by norm_num))
    simp [h32]
  · simp only [hi, decide_eq_true_eq, if_neg h31]
    have : ¬ 31 ≤ i := by omega
    simp [this, Nat.add_comm 1 i]

/-- One row of the SWAR step (worker.js lines 1599-1702): align the eight
neighbor vectors by shifting in the boundary bits of the west/east words,
then run the adder tree, decode and apply the rule. -/
def swarRowWord (birth surv : RuleArr)
    (c_row n_row s_row w_chunk_row e_chunk_row n_w_word n_e_word s_w_word s_e_word : ℕ) : ℕ :=
  let w := shiftRightV c_row w_chunk_row
  let e := shiftLeftV c_row e_chunk_row
  let n := n_row
  let nw := shiftRightV n_row n_w_word
  let ne := shiftLeftV n_row n_e_word
  let s := s_row
  let sw := shiftRightV s_row s_w_word
  let se := shiftLeftV s_row s_e_word
  swarCombine birth surv c_row n s w e nw ne sw se

/-- Bit-level reading of one SWAR row: the next state of lane `i` is the
rule applied (at the decoded count) to the eight neighbor bits, which are
drawn from the center/north/south rows and, at the two boundary lanes,
from the west/east words. -/
theorem swarRowWord_testBit (birth surv : RuleArr)
    (c_row n_row s_row w_chunk_row e_chunk_row n_w_word n_e_word s_w_word s_e_word : ℕ)
    (hc : c_row < WORD_MOD) (hn : n_row < WORD_MOD) (hs : s_row < WORD_MOD)
    (hw : w_chunk_row < WORD_MOD) (hnw : n_w_word < WORD_MOD) (hsw : s_w_word < WORD_MOD)
    (i : ℕ) (hi : i < 32) :
    (swarRowWord birth surv c_row n_row s_row w_chunk_row e_chunk_row
        n_w_word n_e_word s_w_word s_e_word).testBit i =
      (if c_row.testBit i then
        surv (decodedCnt (n_row.testBit i) (s_row.testBit i)
          (if i = 0 then w_chunk_row.testBit 31 else c_row.testBit (i - 1))
          (if i = 31 then e_chunk_row.testBit 0 else c_row.testBit (i + 1))
          (if i = 0 then n_w_word.testBit 31 else n_row.testBit (i - 1))
          (if i = 31 then n_e_word.testBit 0 else n_row.testBit (i + 1))
          (if i = 0 then s_w_word.testBit 31 else s_row.testBit (i - 1))
          (if i = 31 then s_e_word.testBit 0 else s_row.testBit (i + 1)))
      else
        birth (decodedCnt (n_row.testBit i) (s_row.testBit i)
          (if i = 0 then w_chunk_row.testBit 31 else c_row.testBit (i - 1))
          (if i = 31 then e_chunk_row.testBit 0 else c_row.testBit (i + 1))
          (if i = 0 then n_w_word.testBit 31 else n_row.testBit (i - 1))
          (if i = 31 then n_e_word.testBit 0 else n_row.testBit (i + 1))
          (if i = 0 then s_w_word.testBit 31 else s_row.testBit (i - 1))
          (if i = 31 then s_e_word.testBit 0 else s_row.testBit (i + 1)))) := by
  unfold swarRowWord
  rw [swarCombine_testBit birth surv _ _ _ _ _ _ _ _ _ i hi, swarCombineB_eq]
  rw [shiftRightV_testBit c_row w_chunk_row hw i hi,
    shiftLeftV_testBit c_row e_chunk_row hc i hi,
    shiftRightV_testBit n_row n_w_word hnw i hi,
    shiftLeftV_testBit n_row n_e_word hn i hi,
    shiftRightV_testBit s_row s_w_word hsw i hi,
    shiftLeftV_testBit s_row s_e_word hs i hi]

/-- The per-key row computation of `computeNextGeneration` (worker.js lines
1582-1703): fetch the 3×3 chunk neighborhood (absent chunks read as zero,
the center falls back to `new Uint32Array(CHUNK_SIZE)`), then for each row
pick the north/south rows and the west/east boundary words — from the
diagonal chunks at the row boundaries — and run the SWAR row. -/
def nextChunkAt (birth surv : RuleArr) (st : Store) (cx cy : ℤ) : Chunk := fun y =>
  let C := mapGet st (cx, cy)
  let N := mapGet st (cx, cy - 1)
  let S := mapGet st (cx, cy + 1)
  let W := mapGet st (cx - 1, cy)
  let E := mapGet st (cx + 1, cy)
  let NW := mapGet st (cx - 1, cy - 1)
  let NE := mapGet st (cx + 1, cy - 1)
  let SW := mapGet st (cx - 1, cy + 1)
  let SE := mapGet st (cx + 1, cy + 1)
  let c_row := rowOf C y
  let n_row := if h : 0 < y.val then rowOf C ⟨y.val - 1, by omega⟩ else rowOf N ⟨31, by norm_num⟩
  let s_row := if h : y.val < 31 then rowOf C ⟨y.val + 1, by omega⟩ else rowOf S ⟨0, by norm_num⟩
  let w_chunk_row := rowOf W y
  let e_chunk_row := rowOf E y
  let n_w_word :=
    if h : 0 < y.val then rowOf W ⟨y.val - 1, by omega⟩ else rowOf NW ⟨31, by norm_num⟩
  let n_e_word :=
    if h : 0 < y.val then rowOf E ⟨y.val - 1, by omega⟩ else rowOf NE ⟨31, by norm_num⟩
  let s_w_word :=
    if h : y.val < 31 then rowOf W ⟨y.val + 1, by omega⟩ else rowOf SW ⟨0, by norm_num⟩
  let s_e_word :=
    if h : y.val < 31 then rowOf E ⟨y.val + 1, by omega⟩ else rowOf SE ⟨0, by norm_num⟩
  swarRowWord birth surv c_row n_row s_row w_chunk_row e_chunk_row
    n_w_word n_e_word s_w_word s_e_word

/-- The 3×3 chunk neighborhood of a key, in the source's `dy` outer / `dx`
inner order (worker.js lines 1569-1576). -/
def nineNeighborhood (k : ChunkKey) : List ChunkKey :=
  [(k.1 - 1, k.2 - 1), (k.1, k.2 - 1), (k.1 + 1, k.2 - 1),
   (k.1 - 1, k.2), (k.1, k.2), (k.1 + 1, k.2),
   (k.1 - 1, k.2 + 1), (k.1, k.2 + 1), (k.1 + 1, k.2 + 1)]

/-- `toProcess`: the JS `Set` of all active chunks plus their neighbors. -/
def toProcessList (st : Store) : List ChunkKey :=
  setOfList (((storeKeys st).map nineNeighborhood).flatten)

/-- The `active` flag (worker.js lines 1597, 1701): some next row is
non-zero. -/
def isActiveChunk (c : Chunk) : Bool :=
  (List.finRange 32).any (fun y => c y != 0)

/-- `computeNextGeneration(currentChunks)` (worker.js lines 1563-1711).
The birth/survival predicates are module globals in the source and explicit
parameters here. -/
def computeNextGeneration (birth surv : RuleArr) (currentChunks : Store) : Store :=
  (toProcessList currentChunks).foldl
    (fun result key =>
      let nextChunk := nextChunkAt birth surv currentChunks key.1 key.2
      if isActiveChunk nextChunk then mapSet result key nextChunk else result)
    []

/-! ### The naive per-cell reference (the claim's specification side) -/

/-- The naive 8-neighbor sum: each neighbor of `(x, y)` read individually. -/
def neighborCount (st : Store) (x y : ℤ) : ℕ :=
  (cellAt st x (y - 1)).toNat + (cellAt st x (y + 1)).toNat +
  (cellAt st (x - 1) y).toNat + (cellAt st (x + 1) y).toNat +
  (cellAt st (x - 1) (y - 1)).toNat + (cellAt st (x + 1) (y - 1)).toNat +
  (cellAt st (x - 1) (y + 1)).toNat + (cellAt st (x + 1) (y + 1)).toNat

/-- The naive next generation: for each cell of the plane, apply the rule
to its own state and its 8-neighbor sum. -/
def naiveNext (birth surv : RuleArr) (st : Store) (x y : ℤ) : Bool :=
  if cellAt st x y then surv (neighborCount st x y) else birth (neighborCount st x y)

/-! ### Chunk-row bookkeeping for the equivalence proof -/

/-- The word holding global row `gy` in chunk column `cx` (zero when the
chunk is absent). -/
def gRow (st : Store) (cx gy : ℤ) : ℕ :=
  rowOf (mapGet st (cx, chunkCoord gy)) (localIdx gy)

theorem chunkCoord_32mul_add (c : ℤ) (j : Fin 32) : chunkCoord (32 * c + j.val) = c := by
  unfold chunkCoord
  rw [Int.fdiv_eq_ediv _ (by norm_num)]
  rw [show (32 * c + (j.val : ℤ)) = (j.val : ℤ) + c * 32 by ring]
  rw [Int.add_mul_ediv_right _ _ (by norm_num)]
  rw [Int.ediv_eq_zero_of_lt (by positivity) (by exact_mod_cast j.isLt)]
  ring

theorem localIdx_32mul_add (c : ℤ) (j : Fin 32) : localIdx (32 * c + j.val) = j := by
  apply Fin.ext
  rw [localIdx_val]
  rw [show (32 * c + (j.val : ℤ)) = (j.val : ℤ) + c * 32 by ring]
  rw [Int.add_mul_emod_self]
  rw [Int.emod_eq_of_lt (by positivity) (by exact_mod_cast j.isLt)]
  simp

theorem gRow_at (st : Store) (c k : ℤ) (j : Fin 32) :
    gRow st c (32 * k + j.val) = rowOf (mapGet st (c, k)) j := by
  unfold gRow
  rw [chunkCoord_32mul_add, localIdx_32mul_add]

/-- Membership of a successful lookup. -/
theorem mapGet_mem {α : Type} (st : List (ChunkKey × α)) (k : ChunkKey) (c : α)
    (h : mapGet st k = some c) : (k, c) ∈ st := by
  induction st with
  | nil => exact absurd h (by simp [mapGet])
  | cons hd tl ih =>
      obtain ⟨k1, c1⟩ := hd
      by_cases hk : k1 = k
      · subst hk
        simp only [mapGet, if_pos rfl] at h
        injection h with h
        subst h
        exact List.mem_cons_self _ _
      · simp only [mapGet, if_neg hk] at h
        exact List.mem_cons_of_mem _ (ih h)

/-- All chunk words are genuine 32-bit values. -/
def wordsBounded (st : Store) : Prop :=
  ∀ kc ∈ st, ∀ i : Fin 32, kc.2 i < WORD_MOD

instance (st : Store) : Decidable (wordsBounded st) := by
  unfold wordsBounded; infer_instance

theorem gRow_lt (st : Store) (hb : wordsBounded st) (c gy : ℤ) : gRow st c gy < WORD_MOD := by
  unfold gRow rowOf
  cases h : mapGet st (c, chunkCoord gy) with
  | none => unfold WORD_MOD; positivity
  | some ch => exact hb _ (mapGet_mem _ _ _ h) _

theorem gRow_up (st : Store) (c cy : ℤ) (y : Fin 32) :
    gRow st c (32 * cy + y.val - 1) =
      if _ : 0 < y.val then rowOf (mapGet st (c, cy)) ⟨y.val - 1, by omega⟩
      else rowOf (mapGet st (c, cy - 1)) ⟨31, by norm_num⟩ := by
  split
  · rename_i h
    have harg : 32 * cy + (y.val : ℤ) - 1 = 32 * cy + ((⟨y.val - 1, by omega⟩ : Fin 32) : ℕ) := by
      push_cast
      omega
    rw [harg, gRow_at]
  · rename_i h
    have hy : y.val = 0 := by omega
    have harg : 32 * cy + (y.val : ℤ) - 1 = 32 * (cy - 1) + ((⟨31, by norm_num⟩ : Fin 32) : ℕ) := by
      rw [hy]
      push_cast
      ring
    rw [harg, gRow_at]

theorem gRow_down (st : Store) (c cy : ℤ) (y : Fin 32) :
    gRow st c (32 * cy + y.val + 1) =
      if _ : y.val < 31 then rowOf (mapGet st (c, cy)) ⟨y.val + 1, by omega⟩
      else rowOf (mapGet st (c, cy + 1)) ⟨0, by norm_num⟩ := by
  split
  · rename_i h
    have harg : 32 * cy + (y.val : ℤ) + 1 = 32 * cy + ((⟨y.val + 1, by omega⟩ : Fin 32) : ℕ) := by
      push_cast
      omega
    rw [harg, gRow_at]
  · rename_i h
    have hy : y.val = 31 := by omega
    have harg : 32 * cy + (y.val : ℤ) + 1 = 32 * (cy + 1) + ((⟨0, by norm_num⟩ : Fin 32) : ℕ) := by
      rw [hy]
      push_cast
      ring
    rw [harg, gRow_at]

theorem nextChunkAt_eq (birth surv : RuleArr) (st : Store) (cx cy : ℤ) (y : Fin 32) :
    nextChunkAt birth surv st cx cy y =
      swarRowWord birth surv
        (gRow st cx (32 * cy + y.val))
        (gRow st cx (32 * cy + y.val - 1))
        (gRow st cx (32 * cy + y.val + 1))
        (gRow st (cx - 1) (32 * cy + y.val))
        (gRow st (cx + 1) (32 * cy + y.val))
        (gRow st (cx - 1) (32 * cy + y.val - 1))
        (gRow st (cx + 1) (32 * cy + y.val - 1))
        (gRow st (cx - 1) (32 * cy + y.val + 1))
        (gRow st (cx + 1) (32 * cy + y.val + 1)) := by
  rw [gRow_at st cx cy y, gRow_at st (cx - 1) cy y, gRow_at st (cx + 1) cy y,
    gRow_up st cx cy y, gRow_up st (cx - 1) cy y, gRow_up st (cx + 1) cy y,
    gRow_down st cx cy y, gRow_down st (cx - 1) cy y, gRow_down st (cx + 1) cy y]
  rfl

theorem gRow_testBit_cellAt (st : Store) (cx gy : ℤ) (j : Fin 32) :
    (gRow st cx gy).testBit j.val = cellAt st (32 * cx + j.val) gy := by
  unfold cellAt
  rw [chunkCoord_32mul_add, localIdx_32mul_add]
  unfold gRow rowOf
  cases mapGet st (cx, chunkCoord gy) <;> simp

theorem west_bit (st : Store) (cx gy : ℤ) (lx : Fin 32) :
    (if lx.val = 0 then (gRow st (cx - 1) gy).testBit 31
     else (gRow st cx gy).testBit (lx.val - 1)) =
    cellAt st (32 * cx + lx.val - 1) gy := by
  by_cases h0 : lx.val = 0
  · rw [if_pos h0]
    rw [show (31 : ℕ) = ((⟨31, by norm_num⟩ : Fin 32) : ℕ) from rfl,
      gRow_testBit_cellAt st (cx - 1) gy ⟨31, by norm_num⟩]
    congr 1
    rw [h0]
    push_cast
    ring
  · rw [if_neg h0]
    rw [show (lx.val - 1 : ℕ) = ((⟨lx.val - 1, by omega⟩ : Fin 32) : ℕ) from rfl,
      gRow_testBit_cellAt st cx gy ⟨lx.val - 1, by omega⟩]
    congr 1
    push_cast
    omega

theorem east_bit (st : Store) (cx gy : ℤ) (lx : Fin 32) :
    (if lx.val = 31 then (gRow st (cx + 1) gy).testBit 0
     else (gRow st cx gy).testBit (lx.val + 1)) =
    cellAt st (32 * cx + lx.val + 1) gy := by
  by_cases h31 : lx.val = 31
  · rw [if_pos h31]
    rw [show (0 : ℕ) = ((⟨0, by norm_num⟩ : Fin 32) : ℕ) from rfl,
      gRow_testBit_cellAt st (cx + 1) gy ⟨0, by norm_num⟩]
    congr 1
    rw [h31]
    push_cast
    ring
  · rw [if_neg h31]
    have hlt : lx.val + 1 < 32 := by omega
    rw [show (lx.val + 1 : ℕ) = ((⟨lx.val + 1, hlt⟩ : Fin 32) : ℕ) from rfl,
      gRow_testBit_cellAt st cx gy ⟨lx.val + 1, hlt⟩]
    congr 1
    push_cast
    ring

theorem rule_at_decoded (r : RuleArr) (h48 : r 4 = r 8) (b1 b2 b3 b4 b5 b6 b7 b8 : Bool) :
    r (decodedCnt b1 b2 b3 b4 b5 b6 b7 b8) = r (cntOf b1 b2 b3 b4 b5 b6 b7 b8) := by
  unfold decodedCnt
  split
  · rename_i h
    rw [h, h48]
  · rfl

/-- The per-cell reading of the SWAR chunk computation: bit `lx` of row
`ly` of the chunk computed at key `(cx, cy)` is the naive rule application
at global `(32 cx + lx, 32 cy + ly)` — for rules that do not distinguish
neighbor counts 4 and 8 (the adder tree decodes a full house of 8
neighbors as 4). -/
theorem nextChunkAt_naive (birth surv : RuleArr) (st : Store) (hbd : wordsBounded st)
    (hb48 : birth 4 = birth 8) (hs48 : surv 4 = surv 8) (cx cy : ℤ) (ly lx : Fin 32) :
    (nextChunkAt birth surv st cx cy ly).testBit lx.val =
      naiveNext birth surv st (32 * cx + lx.val) (32 * cy + ly.val) := by
  rw [nextChunkAt_eq]
  rw [swarRowWord_testBit birth surv _ _ _ _ _ _ _ _ _
    (gRow_lt st hbd _ _) (gRow_lt st hbd _ _) (gRow_lt st hbd _ _)
    (gRow_lt st hbd _ _) (gRow_lt st hbd _ _) (gRow_lt st hbd _ _) lx.val lx.isLt]
  rw [gRow_testBit_cellAt st cx (32 * cy + ly.val) lx,
    gRow_testBit_cellAt st cx (32 * cy + ly.val - 1) lx,
    gRow_testBit_cellAt st cx (32 * cy + ly.val + 1) lx,
    west_bit st cx (32 * cy + ly.val) lx,
    west_bit st cx (32 * cy + ly.val - 1) lx,
    west_bit st cx (32 * cy + ly.val + 1) lx,
    east_bit st cx (32 * cy + ly.val) lx,
    east_bit st cx (32 * cy + ly.val - 1) lx,
    east_bit st cx (32 * cy + ly.val + 1) lx]
  rw [rule_at_decoded surv hs48, rule_at_decoded birth hb48]
  rfl

theorem foldl_mapGet (f : ChunkKey → Chunk) (p : ChunkKey → Bool) (L : List ChunkKey)
    (hnd : L.Nodup) (acc : Store) (k : ChunkKey) :
    mapGet (L.foldl (fun r key => if p key then mapSet r key (f key) else r) acc) k =
      if k ∈ L ∧ p k = true then some (f k) else mapGet acc k := by
  induction L generalizing acc with
  | nil => simp
  | cons h rest ih =>
      have hh : h ∉ rest := (List.nodup_cons.mp hnd).1
      have hrest : rest.Nodup := (List.nodup_cons.mp hnd).2
      simp only [List.foldl_cons]
      rw [ih hrest]
      by_cases hkh : k = h
      · subst hkh
        have hknotr : k ∉ rest := hh
        rw [if_neg (fun hc => hknotr hc.1)]
        cases hp : p k with
        | true =>
            rw [if_pos rfl, mapGet_mapSet_self,
              if_pos ⟨List.mem_cons_self _ _, rfl⟩]
        | false =>
            rw [if_neg (by simp [hp]), if_neg (by simp [hp])]
      · have hmem : (k ∈ h :: rest ∧ p k = true) ↔ (k ∈ rest ∧ p k = true) := by
          constructor
          · rintro ⟨hm, hp⟩
            rcases List.mem_cons.mp hm with rfl | hm
            · exact absurd rfl hkh
            · exact ⟨hm, hp⟩
          · rintro ⟨hm, hp⟩
            exact ⟨List.mem_cons_of_mem _ hm, hp⟩
        by_cases hk : k ∈ rest ∧ p k = true
        · rw [if_pos hk, if_pos (hmem.mpr hk)]
        · rw [if_neg hk, if_neg (fun hc => hk (hmem.mp hc))]
          cases hp : p h with
          | true => rw [if_pos rfl, mapGet_mapSet_ne _ _ _ _ (fun he => hkh he.symm)]
          | false => rw [if_neg (by simp [hp])]

theorem mem_nineNeighborhood (k0 k : ChunkKey) :
    k ∈ nineNeighborhood k0 ↔
      k0.1 - 1 ≤ k.1 ∧ k.1 ≤ k0.1 + 1 ∧ k0.2 - 1 ≤ k.2 ∧ k.2 ≤ k0.2 + 1 := by
  simp [nineNeighborhood, Prod.ext_iff]
  omega

theorem mem_toProcessList (st : Store) (k : ChunkKey) :
    k ∈ toProcessList st ↔ ∃ k0 ∈ storeKeys st, k ∈ nineNeighborhood k0 := by
  unfold toProcessList
  rw [mem_setOfList]
  simp only [List.mem_flatten, List.mem_map]
  constructor
  · rintro ⟨l, ⟨k0, hk0, rfl⟩, hk⟩
    exact ⟨k0, hk0, hk⟩
  · rintro ⟨k0, hk0, hk⟩
    exact ⟨nineNeighborhood k0, ⟨k0, hk0, rfl⟩, hk⟩

theorem mapGet_none_of_not_mem {α : Type} (st : List (ChunkKey × α)) (k : ChunkKey)
    (h : k ∉ storeKeys st) : mapGet st k = none := by
  induction st with
  | nil => rfl
  | cons hd tl ih =>
      obtain ⟨k1, c1⟩ := hd
      have h1 : ¬ k1 = k := by
        intro he
        exact h (by simp [storeKeys, he])
      have h2 : k ∉ storeKeys tl := by
        intro hm
        exact h (by simp [storeKeys] at hm ⊢; exact Or.inr hm)
      simp only [mapGet, if_neg h1]
      exact ih h2

theorem chunkCoord_mono {a b : ℤ} (h : a ≤ b) : chunkCoord a ≤ chunkCoord b := by
  unfold chunkCoord
  rw [Int.fdiv_eq_ediv _ (by norm_num), Int.fdiv_eq_ediv _ (by norm_num)]
  exact Int.ediv_le_ediv (by norm_num) h

theorem chunkCoord_add_32 (x : ℤ) : chunkCoord (x + 32) = chunkCoord x + 1 := by
  unfold chunkCoord
  rw [Int.fdiv_eq_ediv _ (by norm_num), Int.fdiv_eq_ediv _ (by norm_num)]
  rw [show x + 32 = x + 1 * 32 by ring, Int.add_mul_ediv_right _ _ (by norm_num)]

theorem chunkCoord_sub_32 (x : ℤ) : chunkCoord (x - 32) = chunkCoord x - 1 := by
  have h := chunkCoord_add_32 (x - 32)
  rw [show x - 32 + 32 = x by ring] at h
  omega

/-- A step of at most one cell moves the chunk coordinate by at most one. -/
theorem chunkCoord_shift (x d : ℤ) (hd : -1 ≤ d ∧ d ≤ 1) :
    chunkCoord x - 1 ≤ chunkCoord (x + d) ∧ chunkCoord (x + d) ≤ chunkCoord x + 1 := by
  constructor
  · have h1 := chunkCoord_mono (show x - 32 ≤ x + d by omega)
    rw [chunkCoord_sub_32] at h1
    omega
  · have h2 := chunkCoord_mono (show x + d ≤ x + 32 by omega)
    rw [chunkCoord_add_32] at h2
    omega

theorem isActiveChunk_false_iff (c : Chunk) :
    isActiveChunk c = false ↔ ∀ y, c y = 0 := by
  unfold isActiveChunk
  rw [← Bool.not_eq_true, List.any_eq_true]
  constructor
  · intro h y
    by_contra hne
    exact h ⟨y, List.mem_finRange y, by simpa using hne⟩
  · rintro h ⟨y, _, hy⟩
    simp [h y] at hy

theorem computeNextGeneration_mapGet (birth surv : RuleArr) (st : Store) (k : ChunkKey) :
    mapGet (computeNextGeneration birth surv st) k =
      if k ∈ toProcessList st ∧
          isActiveChunk (nextChunkAt birth surv st k.1 k.2) = true
      then some (nextChunkAt birth surv st k.1 k.2) else none := by
  have hdef : computeNextGeneration birth surv st =
      (toProcessList st).foldl
        (fun r key =>
          if (fun key => isActiveChunk (nextChunkAt birth surv st key.1 key.2)) key then
            mapSet r key ((fun key => nextChunkAt birth surv st key.1 key.2) key)
          else r) [] := rfl
  have hnd : (toProcessList st).Nodup := by
    unfold toProcessList
    exact nodup_setOfList _
  rw [hdef, foldl_mapGet _ _ (toProcessList st) hnd [] k]
  rfl

/-- C1 (amended): for every chunk store (with genuine 32-bit words) and
every rule whose birth predicate is `false` at 0 and which does not
distinguish neighbor counts 4 and 8, `computeNextGeneration` computes, at
every cell of the plane, exactly the naive per-cell 8-neighbor-sum
reference — in particular for B3/S23 on any pattern, including cells whose
neighborhoods cross one or two chunk edges. -/
theorem computeNextGeneration_eq_naive (birth surv : RuleArr) (st : Store)
    (hbd : wordsBounded st) (hb0 : birth 0 = false)
    (hb48 : birth 4 = birth 8) (hs48 : surv 4 = surv 8) (x y : ℤ) :
    cellAt (computeNextGeneration birth surv st) x y = naiveNext birth surv st x y := by
  have hres := computeNextGeneration_mapGet birth surv st (chunkCoord x, chunkCoord y)
  by_cases hmem : ((chunkCoord x, chunkCoord y) : ChunkKey) ∈ toProcessList st
  · by_cases hact :
        isActiveChunk (nextChunkAt birth surv st (chunkCoord x) (chunkCoord y)) = true
    · rw [if_pos ⟨hmem, hact⟩] at hres
      have hcell : cellAt (computeNextGeneration birth surv st) x y =
          (nextChunkAt birth surv st (chunkCoord x) (chunkCoord y)
            (localIdx y)).testBit ((localIdx x : Fin 32) : ℕ) := by
        unfold cellAt
        rw [hres]
      rw [hcell,
        nextChunkAt_naive birth surv st hbd hb48 hs48 (chunkCoord x) (chunkCoord y)
          (localIdx y) (localIdx x)]
      rw [← chunk_local_decomp x, ← chunk_local_decomp y]
    · rw [if_neg (fun hc => hact hc.2)] at hres
      have hcell : cellAt (computeNextGeneration birth surv st) x y = false := by
        unfold cellAt
        rw [hres]
      rw [hcell]
      have hz := (isActiveChunk_false_iff _).mp (by simpa using hact)
      conv_rhs => rw [chunk_local_decomp x, chunk_local_decomp y]
      rw [← nextChunkAt_naive birth surv st hbd hb48 hs48 (chunkCoord x) (chunkCoord y)
        (localIdx y) (localIdx x)]
      rw [hz (localIdx y)]
      simp
  · rw [if_neg (fun hc => hmem hc.1)] at hres
    have hcell : cellAt (computeNextGeneration birth surv st) x y = false := by
      unfold cellAt
      rw [hres]
    rw [hcell]
    have hnin : ∀ k' ∈ storeKeys st,
        ((chunkCoord x, chunkCoord y) : ChunkKey) ∉ nineNeighborhood k' :=
      fun k' h1 h2 => hmem ((mem_toProcessList st _).mpr ⟨k', h1, h2⟩)
    have hdead : ∀ x' y' : ℤ,
        chunkCoord x - 1 ≤ chunkCoord x' → chunkCoord x' ≤ chunkCoord x + 1 →
        chunkCoord y - 1 ≤ chunkCoord y' → chunkCoord y' ≤ chunkCoord y + 1 →
        cellAt st x' y' = false := by
      intro x' y' h1 h2 h3 h4
      unfold cellAt
      rw [mapGet_none_of_not_mem st _ (fun hmem' => hnin _ hmem'
        ((mem_nineNeighborhood _ _).mpr ⟨by omega, by omega, by omega, by omega⟩))]
    have hbx := chunkCoord_shift x 1 (by omega)
    have hbx' := chunkCoord_shift x (-1) (by omega)
    have hby := chunkCoord_shift y 1 (by omega)
    have hby' := chunkCoord_shift y (-1) (by omega)
    rw [show x + (1 : ℤ) = x + 1 by ring] at hbx
    rw [show x + (-1 : ℤ) = x - 1 by ring] at hbx'
    rw [show y + (1 : ℤ) = y + 1 by ring] at hby
    rw [show y + (-1 : ℤ) = y - 1 by ring] at hby'
    unfold naiveNext neighborCount
    rw [hdead x y (by omega) (by omega) (by omega) (by omega),
      hdead x (y - 1) (by omega) (by omega) hby'.1 hby'.2,
      hdead x (y + 1) (by omega) (by omega) hby.1 hby.2,
      hdead (x - 1) y hbx'.1 hbx'.2 (by omega) (by omega),
      hdead (x + 1) y hbx.1 hbx.2 (by omega) (by omega),
      hdead (x - 1) (y - 1) hbx'.1 hbx'.2 hby'.1 hby'.2,
      hdead (x + 1) (y - 1) hbx.1 hbx.2 hby'.1 hby'.2,
      hdead (x - 1) (y + 1) hbx'.1 hbx'.2 hby.1 hby.2,
      hdead (x + 1) (y + 1) hbx.1 hbx.2 hby.1 hby.2]
    simp [hb0]

/-- The rule `B0/S` (settable through `setRule("B0/S")`). -/
def b0Birth : RuleArr := fun k => k == 0

/-- The empty survival side of `B0/S`. -/
def b0Surv : RuleArr := fun _ => false

/-- Diamoeba birth `B35678` (a preset of the worker, `RULE_PRESETS`). -/
def diamoebaBirth : RuleArr := fun k => k == 3 || k == 5 || k == 6 || k == 7 || k == 8

/-- Diamoeba survival `S5678`. -/
def diamoebaSurv : RuleArr := fun k => k == 5 || k == 6 || k == 7 || k == 8

/-- A 3×3 block of live cells at `(0..2, 0..2)`. -/
def block3Store : Store := [((0, 0), setRow (setRow (setRow zeroChunk 0 7) 1 7) 2 7)]

set_option maxRecDepth 20000 in
/-- C1 counterexample: the claim as stated (equivalence for every store and
the current rule) fails twice over.
(a) Under `B0/S` on the empty store, the naive reference births every cell
of the plane — `(0,0)` in particular — while the generator, which only
processes chunks near existing ones, produces nothing.
(b) Under the `Diamoeba` preset `B35678/S5678`, the center of a 3×3 block
has eight live neighbors and must survive (`S8`), but the generator's
carry-save tree OR-merges the two weight-4 carries and decodes the count 8
as 4, so the cell dies. -/
theorem computeNextGeneration_claim_cex :
    (cellAt (computeNextGeneration b0Birth b0Surv []) 0 0 = false ∧
     naiveNext b0Birth b0Surv [] 0 0 = true) ∧
    (cellAt (computeNextGeneration diamoebaBirth diamoebaSurv block3Store) 1 1 = false ∧
     naiveNext diamoebaBirth diamoebaSurv block3Store 1 1 = true) := by
  refine ⟨⟨by decide, by decide⟩, ⟨by decide, by decide⟩⟩

/-- Conway birth `B3`. -/
def conwayBirth : RuleArr := fun k => k == 3

/-- Conway survival `S23`. -/
def conwaySurv : RuleArr := fun k => k == 2 || k == 3

/-- A horizontal blinker at `(0..2, 0)`. -/
def blinkerStore : Store := [((0, 0), setRow zeroChunk 0 7)]

set_option maxRecDepth 20000 in
/-- Witness for C1's amended theorem: B3/S23 (which has `birth 0 = false`
and does not distinguish counts 4 and 8) on a blinker, read at `(1, 1)`. -/
theorem computeNextGeneration_eq_naive_witness :
    wordsBounded blinkerStore ∧
    cellAt (computeNextGeneration conwayBirth conwaySurv blinkerStore) 1 1 =
      naiveNext conwayBirth conwaySurv blinkerStore 1 1 :=
  ⟨by decide,
   computeNextGeneration_eq_naive conwayBirth conwaySurv blinkerStore
     (by decide) (by decide) (by decide) (by decide) 1 1⟩

/-! ## Population counting (lib.js 301-305, worker.js 1181-1194) -/

/-- `popcount32(n)` (lib.js lines 301-305); the `>>> 24` coerces the
product to 32 bits first, made explicit by `% 2^32`. -/
def popcount32 (n : ℕ) : ℕ :=
  let n1 := n - ((n >>> 1) &&& 0x55555555)
  let n2 := (n1 &&& 0x33333333) + ((n1 >>> 2) &&& 0x33333333)
  ((((n2 + (n2 >>> 4)) &&& 0x0F0F0F0F) * 0x01010101) % WORD_MOD) >>> 24

/-- `countChunkPopulation(chunk)` (worker.js lines 1181-1187). -/
def countChunkPopulation (chunk : Chunk) : ℕ :=
  (List.finRange 32).foldl
    (fun pop i => if chunk i ≠ 0 then pop + popcount32 (chunk i) else pop) 0

/-- `recalculateTotalPopulation()` (worker.js lines 1189-1194), as a value. -/
def recalcPopulation (st : Store) : ℕ :=
  st.foldl (fun t kc => t + countChunkPopulation kc.2) 0

/-- The number of set bits of a word, by definition (the claim's
"popcount"). -/
def bitsum (w : ℕ) : ℕ :=
  ((List.range 32).map (fun i => (w.testBit i).toNat)).sum

/-- The claim's specification-side population: the sum over all stored
chunks of the popcounts of their 32 words. -/
def storePopulation (st : Store) : ℕ :=
  (st.map (fun kc => ((List.finRange 32).map (fun i => bitsum (kc.2 i))).sum)).sum

/-! ## History (worker.js 1452-1552) and the worker state -/

/-- One history entry (worker.js line 898): the delta map plus the
pre-step generation and population. -/
structure HistEntry where
  delta : List (ChunkKey × (Option Chunk × Option Chunk))
  generation : ℕ
  population : ℕ

/-- The changed-test of `buildDelta` for two present chunks
(worker.js lines 1475-1482). -/
def chunkNe (a b : Chunk) : Bool :=
  (List.finRange 32).any (fun i => a i != b i)

/-- `cloneChunk(chunk)` (worker.js lines 1455-1457): `new Uint32Array`
copies the bytes; on pure values the clone is the value itself. -/
def cloneChunk (oc : Option Chunk) : Option Chunk := oc

/-- `buildDelta(oldChunks, newChunks)` (worker.js lines 1461-1493). -/
def buildDelta (oldChunks newChunks : Store) :
    List (ChunkKey × (Option Chunk × Option Chunk)) :=
  (setOfList (storeKeys oldChunks ++ storeKeys newChunks)).foldl
    (fun delta key =>
      let oldChunk := mapGet oldChunks key
      let newChunk := mapGet newChunks key
      let changed :=
        match oldChunk, newChunk with
        | none, some _ => true
        | some _, none => true
        | some oc, some nc => chunkNe oc nc
        | none, none => false
      if changed then mapSet delta key (cloneChunk oldChunk, cloneChunk newChunk) else delta)
    []

/-- `applyDeltaReverse(delta)` (worker.js lines 1496-1504). -/
def applyDeltaReverse (delta : List (ChunkKey × (Option Chunk × Option Chunk)))
    (chunks : Store) : Store :=
  delta.foldl
    (fun cs kc =>
      match kc.2.1 with
      | some oldC => mapSet cs kc.1 oldC
      | none => mapDelete cs kc.1)
    chunks

/-- Age tiles have the same `Uint8Array(1024)` shape as heat tiles. -/
abbrev AgeStore := List (ChunkKey × HeatChunk)

/-- `updateAges(newChunks)` (worker.js lines 1777-1801): a fresh age store
holding, for every live cell of the new store, its old age plus one
(capped at 255). -/
def updateAges (ageChunks : AgeStore) (newChunks : Store) : AgeStore :=
  newChunks.foldl
    (fun newAge kc =>
      let oldAgeChunk := mapGet ageChunks kc.1
      let newAgeChunk :=
        (List.finRange 32).foldl
          (fun ac ly =>
            if kc.2 ly = 0 then ac
            else
              (List.finRange 32).foldl
                (fun ac2 lx =>
                  if (kc.2 ly >>> lx.val) &&& 1 = 1 then
                    let idx := idx1024 ly lx
                    let oldAge := match oldAgeChunk with | some oc => oc idx | none => 0
                    Function.update ac2 idx (if oldAge < 255 then oldAge + 1 else 255)
                  else ac2)
                ac)
          zeroHeat
      mapSet newAge kc.1 newAgeChunk)
    []

/-- The worker's mutable state, restricted to the fields the claims are
about.  Omitted (independent of all claims here): the run-loop flags
(`running`, `fps`, `timerID`, FPS meter) and the approximate bounding box
(`bboxMinCx..`, `bboxDirty`), which no modelled field reads. -/
structure WState where
  chunks : Store
  generation : ℕ
  totalPopulation : ℕ
  historyEnabled : Bool
  historyMaxSize : ℕ
  history : List HistEntry
  preStepChunks : Option Store
  preStepGeneration : ℕ
  preStepPopulation : ℕ
  birthRule : RuleArr
  survivalRule : RuleArr
  viewX : ℤ
  viewY : ℤ
  viewW : ℕ
  viewH : ℕ
  ageTrackingEnabled : Bool
  ageChunks : AgeStore
  heatmapEnabled : Bool
  heatmapChunks : HeatStore
  heatmapDecayCounter : ℕ

/-- `capturePreStepState()` (worker.js lines 1511-1519). -/
def capturePreStepState (s : WState) : WState :=
  if s.historyEnabled then
    { s with
      preStepChunks := some s.chunks
      preStepGeneration := s.generation
      preStepPopulation := s.totalPopulation }
  else s

/-- `pushHistoryDelta()` (worker.js lines 1521-1541): build the delta from
the captured pre-step chunks, push it (trimming the oldest entry when over
capacity) if non-empty, and clear the capture. -/
def pushHistoryDelta (s : WState) : WState :=
  if s.historyEnabled then
    match s.preStepChunks with
    | none => s
    | some pre =>
        let delta := buildDelta pre s.chunks
        let s1 :=
          if delta.length > 0 then
            let h1 := s.history ++ [HistEntry.mk delta s.preStepGeneration s.preStepPopulation]
            { s with history := if h1.length > s.historyMaxSize then h1.drop 1 else h1 }
          else s
        { s1 with preStepChunks := none }
  else s

/-- `popHistory()` (worker.js lines 1543-1552): pop the newest entry,
rewind the chunk map through its delta, and restore generation and
population; returns whether anything was done. -/
def popHistory (s : WState) : WState × Bool :=
  if s.historyEnabled = false ∨ s.history.length = 0 then (s, false)
  else
    match s.history.getLast? with
    | none => (s, false)
    | some state =>
        ({ s with
            chunks := applyDeltaReverse state.delta s.chunks
            generation := state.generation
            totalPopulation := state.population
            history := s.history.dropLast }, true)

/-- `step()` (worker.js lines 1713-1743): capture, compute the next
generation, update overlays if enabled, recompute the population, install
the new store, bump the generation, and push the history delta. -/
def stepOp (s : WState) : WState :=
  let s1 := capturePreStepState s
  let nextState := computeNextGeneration s1.birthRule s1.survivalRule s1.chunks
  let ages' := if s1.ageTrackingEnabled then updateAges s1.ageChunks nextState else s1.ageChunks
  let hd' :=
    if s1.heatmapEnabled then updateHeatmap s1.chunks nextState s1.heatmapChunks s1.heatmapDecayCounter
    else (s1.heatmapChunks, s1.heatmapDecayCounter)
  let newPop := recalcPopulation nextState
  pushHistoryDelta
    { s1 with
      chunks := nextState
      generation := s1.generation + 1
      totalPopulation := newPop
      ageChunks := ages'
      heatmapChunks := hd'.1
      heatmapDecayCounter := hd'.2 }

/-- The `setCell` message handler (worker.js lines 992-999): convert the
flat viewport index to global coordinates and write the cell.  Note: the
handler does NOT touch `totalPopulation`. -/
def handleSetCell (s : WState) (idx : ℕ) (val : Bool) : WState :=
  let vx := idx % s.viewW
  let vy := idx / s.viewW
  { s with chunks := setCell s.chunks (s.viewX + vx) (s.viewY + vy) val }

/-- The `pop` field of the `update` message (worker.js line 1982):
`sendUpdate` reports the running counter `totalPopulation`. -/
def updatePop (s : WState) : ℕ := s.totalPopulation

/-- `garbageCollectChunks()` (worker.js lines 1243-1254). -/
def garbageCollectChunks (st : Store) : Store :=
  st.filter (fun kc => ¬ isChunkEmpty kc.2)

/-- `BITS` (worker.js line 869). -/
def BITS : ℕ := 32

/-- `loadFlatData(data, w, h)` (worker.js lines 1268-1286): set every live
bit of the flat packed bitmap through `setCell`, then garbage-collect (`h`
is unused by the source). -/
def loadFlatData (st : Store) (data : List ℕ) (w : ℕ) : Store :=
  let stride := (w + BITS - 1) / BITS
  let st1 :=
    (List.range data.length).foldl
      (fun cs i =>
        let word := data.getD i 0
        if word = 0 then cs
        else
          let row := i / stride
          let colStart := (i % stride) * BITS
          (List.finRange 32).foldl
            (fun cs2 b =>
              if (word >>> b.val) &&& 1 = 1 then
                setCell cs2 ((colStart : ℤ) + b.val) (row : ℤ) true
              else cs2)
            cs)
      st
  garbageCollectChunks st1

/-- `randomize(density, viewportOnly=true)` (worker.js lines 1288-1302):
write every viewport cell live or dead according to the Bernoulli draws
(abstracted as the oracle `rand`, indexed in the loop's row-major order),
then garbage-collect. -/
def randomizeOp (st : Store) (viewX viewY : ℤ) (viewW viewH : ℕ) (rand : ℕ → Bool) : Store :=
  let st1 :=
    (List.range viewH).foldl
      (fun cs y =>
        (List.range viewW).foldl
          (fun cs2 x =>
            if rand (y * viewW + x) then setCell cs2 (viewX + (x : ℤ)) (viewY + (y : ℤ)) true
            else setCell cs2 (viewX + (x : ℤ)) (viewY + (y : ℤ)) false)
          cs)
      st

  garbageCollectChunks st1

/-- The operations of claim C6, with their message handlers
(worker.js lines 992-999, 948-952, 1034-1044, 1024-1032, 954-960). -/
inductive WOp where
  | edit (idx : ℕ) (val : Bool)
  | step
  | load (data : List ℕ) (w : ℕ)
  | randomize (rand : ℕ → Bool)
  | reverse

/-- Apply one operation, following the corresponding message handler. -/
def applyOp (s : WState) : WOp → WState
  | .edit idx val => handleSetCell s idx val
  | .step => stepOp s
  | .load data w =>
      { s with
        chunks := loadFlatData [] data w
        ageChunks := []
        generation := 0
        totalPopulation := recalcPopulation (loadFlatData [] data w) }
  | .randomize rand =>
      { s with
        chunks := randomizeOp [] s.viewX s.viewY s.viewW s.viewH rand
        ageChunks := []
        history := []
        totalPopulation :=
          recalcPopulation (randomizeOp [] s.viewX s.viewY s.viewW s.viewH rand) }
  | .reverse => (popHistory s).1

/-- A quiescent worker state: empty store, population counter 0 (the
invariant holds), 1×1 viewport at the origin. -/
def c2Init : WState :=
  ⟨[], 0, 0, false, 20, [], none, 0, 0, conwayBirth, conwaySurv,
   0, 0, 1, 1, false, [], false, [], 0⟩

/-- C2 (code bug): the `setCell` message handler never updates the running
`totalPopulation`, which `sendUpdate` reports as `pop`.  Starting from an
empty store with a correct counter, the handler `setCell {idx: 0, val: 1}`
makes cell `(0,0)` live, so the sum of chunk popcounts becomes 1, but the
reported population stays 0. -/
theorem setCell_population_bug :
    storePopulation c2Init.chunks = updatePop c2Init ∧
    updatePop (handleSetCell c2Init 0 true) = 0 ∧
    storePopulation (handleSetCell c2Init 0 true).chunks = 1 := by
  refine ⟨by decide, by decide, by decide⟩

/-! ## Claim C6: no empty chunk is ever retained -/

/-- The store invariant of the claim: every retained chunk has at least
one non-zero word. -/
def storeNonEmpty (st : Store) : Prop := ∀ kc ∈ st, isChunkEmpty kc.2 = false

instance (st : Store) : Decidable (storeNonEmpty st) := by
  unfold storeNonEmpty; infer_instance

/-- An old-side of a history delta is either absent or a non-empty chunk. -/
def oldSideOK (p : Option Chunk) : Prop :=
  match p with
  | some c => isChunkEmpty c = false
  | none => True

instance (p : Option Chunk) : Decidable (oldSideOK p) := by
  unfold oldSideOK; cases p <;> infer_instance

/-- Well-formedness of a history entry: all old-side chunks of its delta
are non-empty (they were cloned from a store satisfying the invariant). -/
def histEntryWF (e : HistEntry) : Prop := ∀ kc ∈ e.delta, oldSideOK kc.2.1

instance (e : HistEntry) : Decidable (histEntryWF e) := by
  unfold histEntryWF; infer_instance

/-- The full C6 invariant over the worker state. -/
def C6Inv (s : WState) : Prop :=
  storeNonEmpty s.chunks ∧ (∀ e ∈ s.history, histEntryWF e) ∧
    (∀ pre, s.preStepChunks = some pre → storeNonEmpty pre)

theorem isChunkEmpty_false_iff (c : Chunk) :
    isChunkEmpty c = false ↔ ∃ i, c i ≠ 0 := by
  rw [← Bool.not_eq_true, isChunkEmpty_iff]
  push_neg
  rfl

theorem mem_mapSet {α : Type} (st : List (ChunkKey × α)) (k : ChunkKey) (c : α)
    (x : ChunkKey × α) (h : x ∈ mapSet st k c) : x = (k, c) ∨ x ∈ st := by
  induction st with
  | nil => simpa [mapSet] using h
  | cons hd tl ih =>
      obtain ⟨k1, c1⟩ := hd
      by_cases hk : k1 = k
      · simp only [mapSet, if_pos hk] at h
        rcases List.mem_cons.mp h with rfl | hmem
        · exact Or.inl rfl
        · exact Or.inr (List.mem_cons_of_mem _ hmem)
      · simp only [mapSet, if_neg hk] at h
        rcases List.mem_cons.mp h with rfl | hmem
        · exact Or.inr (List.mem_cons_self _ _)
        · rcases ih hmem with h1 | h1
          · exact Or.inl h1
          · exact Or.inr (List.mem_cons_of_mem _ h1)

theorem mem_mapDelete {α : Type} (st : List (ChunkKey × α)) (k : ChunkKey)
    (x : ChunkKey × α) (h : x ∈ mapDelete st k) : x ∈ st :=
  List.mem_of_mem_filter h

theorem word_or_pow_ne_zero (a : ℕ) (j : ℕ) : a ||| 2 ^ j ≠ 0 := by
  intro h
  have hb := congrArg (fun w => w.testBit j) h
  simp [Nat.testBit_or, Nat.testBit_two_pow] at hb

/-- `setCell` preserves the non-emptiness invariant: a live write makes a
non-empty chunk, a dead write deletes the chunk if it became empty. -/
theorem setCell_nonEmpty (st : Store) (x y : ℤ) (val : Bool) (h : storeNonEmpty st) :
    storeNonEmpty (setCell st x y val) := by
  cases hget : mapGet st (chunkCoord x, chunkCoord y) with
  | none =>
      cases val with
      | false => simpa only [setCell, hget, Bool.false_eq_true, if_false] using h
      | true =>
          simp only [setCell, hget, if_true]
          intro kc hkc
          rcases mem_mapSet _ _ _ _ hkc with rfl | hmem
          · rw [isChunkEmpty_false_iff]
            refine ⟨localIdx y, ?_⟩
            simp [setRow, zeroChunk]
          · exact h _ hmem
  | some chunk =>
      cases val with
      | true =>
          simp only [setCell, hget, if_true]
          intro kc hkc
          rcases mem_mapSet _ _ _ _ hkc with rfl | hmem
          · rw [isChunkEmpty_false_iff]
            refine ⟨localIdx y, ?_⟩
            simp only [setRow, Function.update_same]
            exact word_or_pow_ne_zero _ _
          · exact h _ hmem
      | false =>
          simp only [setCell, hget, Bool.false_eq_true, if_false]
          by_cases hemp :
              isChunkEmpty (setRow chunk (localIdx y)
                (chunk (localIdx y) &&& lnot32 (2 ^ ((localIdx x : Fin 32) : ℕ)))) = true
          · rw [if_pos hemp]
            intro kc hkc
            exact h _ (mem_mapDelete _ _ _ hkc)
          · rw [if_neg hemp]
            intro kc hkc
            rcases mem_mapSet _ _ _ _ hkc with rfl | hmem
            · exact Bool.not_eq_true _ |>.mp hemp
            · exact h _ hmem

theorem isActive_notEmpty (c : Chunk) (h : isActiveChunk c = true) :
    isChunkEmpty c = false := by
  rw [isChunkEmpty_false_iff]
  unfold isActiveChunk at h
  rw [List.any_eq_true] at h
  obtain ⟨y, _, hy⟩ := h
  exact ⟨y, by simpa using hy⟩

/-- The next-generation store only ever contains active chunks. -/
theorem computeNextGeneration_nonEmpty (birth surv : RuleArr) (st : Store) :
    storeNonEmpty (computeNextGeneration birth surv st) := by
  unfold computeNextGeneration
  generalize toProcessList st = L
  have hgen : ∀ (L : List ChunkKey) (acc : Store), storeNonEmpty acc →
      storeNonEmpty (L.foldl
        (fun result key =>
          let nextChunk := nextChunkAt birth surv st key.1 key.2
          if isActiveChunk nextChunk then mapSet result key nextChunk else result) acc) := by
    intro L
    induction L with
    | nil => intro acc hacc; exact hacc
    | cons hd rest ih =>
        intro acc hacc
        simp only [List.foldl_cons]
        apply ih
        by_cases hact : isActiveChunk (nextChunkAt birth surv st hd.1 hd.2) = true
        · simp only [hact, if_true]
          intro kc hkc
          rcases mem_mapSet _ _ _ _ hkc with rfl | hmem
          · exact isActive_notEmpty _ hact
          · exact hacc _ hmem
        · simp only [Bool.not_eq_true _ |>.mp hact, Bool.false_eq_true, if_false]
          exact hacc
  exact hgen L [] (by intro kc hkc; exact absurd hkc (List.not_mem_nil kc))

/-- Every delta entry records exactly the two lookups at its key. -/
theorem buildDelta_entries (A B : Store) :
    ∀ kc ∈ buildDelta A B, kc.2.1 = mapGet A kc.1 ∧ kc.2.2 = mapGet B kc.1 := by
  unfold buildDelta
  generalize setOfList (storeKeys A ++ storeKeys B) = L
  have hgen : ∀ (L : List ChunkKey) (acc : List (ChunkKey × (Option Chunk × Option Chunk))),
      (∀ kc ∈ acc, kc.2.1 = mapGet A kc.1 ∧ kc.2.2 = mapGet B kc.1) →
      ∀ kc ∈ L.foldl
        (fun delta key =>
          let oldChunk := mapGet A key
          let newChunk := mapGet B key
          let changed :=
            match oldChunk, newChunk with
            | none, some _ => true
            | some _, none => true
            | some oc, some nc => chunkNe oc nc
            | none, none => false
          if changed then mapSet delta key (cloneChunk oldChunk, cloneChunk newChunk)
          else delta) acc,
        kc.2.1 = mapGet A kc.1 ∧ kc.2.2 = mapGet B kc.1 := by
    intro L
    induction L with
    | nil => intro acc hacc; exact hacc
    | cons hd rest ih =>
        intro acc hacc
        simp only [List.foldl_cons]
        apply ih
        intro kc hkc
        split at hkc
        · rcases mem_mapSet _ _ _ _ hkc with rfl | hmem
          · exact ⟨rfl, rfl⟩
          · exact hacc _ hmem
        · exact hacc _ hkc
  exact hgen L [] (by intro kc hkc; exact absurd hkc (List.not_mem_nil kc))

/-- Rewinding through a delta whose old sides are non-empty preserves the
invariant. -/
theorem applyDeltaReverse_cons (kc : ChunkKey × (Option Chunk × Option Chunk))
    (rest : List (ChunkKey × (Option Chunk × Option Chunk))) (cs : Store) :
    applyDeltaReverse (kc :: rest) cs =
      applyDeltaReverse rest
        (match kc.2.1 with
         | some oldC => mapSet cs kc.1 oldC
         | none => mapDelete cs kc.1) := rfl

theorem applyDeltaReverse_nonEmpty (delta : List (ChunkKey × (Option Chunk × Option Chunk)))
    (cs : Store) (hd : ∀ kc ∈ delta, oldSideOK kc.2.1) (hcs : storeNonEmpty cs) :
    storeNonEmpty (applyDeltaReverse delta cs) := by
  induction delta generalizing cs with
  | nil => exact hcs
  | cons kc rest ih =>
      rw [applyDeltaReverse_cons]
      have hhead := hd kc (List.mem_cons_self _ _)
      have htail : ∀ kc' ∈ rest, oldSideOK kc'.2.1 :=
        fun kc' h' => hd kc' (List.mem_cons_of_mem _ h')
      cases hold : kc.2.1 with
      | some oldC =>
          simp only [hold]
          refine ih _ htail ?_
          intro kc' hkc'
          rcases mem_mapSet _ _ _ _ hkc' with rfl | hmem
          · rw [hold] at hhead
            exact hhead
          · exact hcs _ hmem
      | none =>
          simp only [hold]
          refine ih _ htail ?_
          intro kc' hkc'
          exact hcs _ (mem_mapDelete _ _ _ hkc')

theorem garbageCollect_nonEmpty (st : Store) : storeNonEmpty (garbageCollectChunks st) := by
  intro kc hkc
  have := List.mem_filter.mp hkc
  simpa using this.2

theorem mem_dropLast {α : Type} (l : List α) (x : α) (h : x ∈ l.dropLast) : x ∈ l := by
  induction l with
  | nil => exact absurd h (List.not_mem_nil x)
  | cons hd tl ih =>
      cases tl with
      | nil => exact absurd h (List.not_mem_nil x)
      | cons hd2 tl2 =>
          rcases List.mem_cons.mp h with rfl | hmem
          · exact List.mem_cons_self _ _
          · exact List.mem_cons_of_mem _ (ih hmem)

theorem getLast?_mem {α : Type} (l : List α) (x : α) (h : l.getLast? = some x) : x ∈ l := by
  induction l with
  | nil => exact absurd h (by simp)
  | cons hd tl ih =>
      cases tl with
      | nil =>
          simp only [List.getLast?_singleton] at h
          injection h with h
          subst h
          exact List.mem_cons_self _ _
      | cons hd2 tl2 =>
          rw [List.getLast?_cons_cons] at h
          exact List.mem_cons_of_mem _ (ih h)

theorem capture_history (s : WState) : (capturePreStepState s).history = s.history := by
  unfold capturePreStepState
  split <;> rfl

theorem capture_chunks (s : WState) : (capturePreStepState s).chunks = s.chunks := by
  unfold capturePreStepState
  split <;> rfl

theorem capture_preStep (s : WState) :
    (capturePreStepState s).preStepChunks = some s.chunks ∨
      (capturePreStepState s).preStepChunks = s.preStepChunks := by
  unfold capturePreStepState
  split
  · exact Or.inl rfl
  · exact Or.inr rfl

/-- All old-side chunks of a delta built from an invariant-satisfying
store are non-empty. -/
theorem buildDelta_WF (A B : Store) (hA : storeNonEmpty A) :
    ∀ kc ∈ buildDelta A B, oldSideOK kc.2.1 := by
  intro kc hkc
  have hent := (buildDelta_entries A B kc hkc).1
  unfold oldSideOK
  cases hg : kc.2.1 with
  | none => trivial
  | some c =>
      rw [hg] at hent
      exact hA _ (mapGet_mem A kc.1 c hent.symm)

/-- `pushHistoryDelta` preserves the C6 invariant. -/
theorem pushHistoryDelta_inv (s : WState)
    (hch : storeNonEmpty s.chunks)
    (hh : ∀ e ∈ s.history, histEntryWF e)
    (hpre : ∀ pre, s.preStepChunks = some pre → storeNonEmpty pre) :
    C6Inv (pushHistoryDelta s) := by
  cases he : s.historyEnabled with
  | false =>
      simp only [pushHistoryDelta, he, Bool.false_eq_true, if_false]
      exact ⟨hch, hh, hpre⟩
  | true =>
      cases hps : s.preStepChunks with
      | none =>
          simp only [pushHistoryDelta, he, hps, if_true]
          exact ⟨hch, hh, hpre⟩
      | some pre =>
          simp only [pushHistoryDelta, he, hps, if_true]
          have hpreNE : storeNonEmpty pre := hpre pre hps
          have hWF : histEntryWF
              ⟨buildDelta pre s.chunks, s.preStepGeneration, s.preStepPopulation⟩ :=
            buildDelta_WF pre s.chunks hpreNE
          by_cases hlen : (buildDelta pre s.chunks).length > 0
          · rw [if_pos hlen]
            by_cases htrim :
                (s.history ++
                  [HistEntry.mk (buildDelta pre s.chunks) s.preStepGeneration
                    s.preStepPopulation]).length > s.historyMaxSize
            · rw [if_pos htrim]
              refine ⟨hch, ?_, fun p hp => Option.noConfusion hp⟩
              intro e hmem
              have hmem' := List.mem_of_mem_drop hmem
              rcases List.mem_append.mp hmem' with h1 | h1
              · exact hh e h1
              · rw [List.mem_singleton.mp h1]
                exact hWF
            · rw [if_neg htrim]
              refine ⟨hch, ?_, fun p hp => Option.noConfusion hp⟩
              intro e hmem
              rcases List.mem_append.mp hmem with h1 | h1
              · exact hh e h1
              · rw [List.mem_singleton.mp h1]
                exact hWF
          · rw [if_neg hlen]
            exact ⟨hch, hh, fun p hp => Option.noConfusion hp⟩

/-- `popHistory` preserves the C6 invariant. -/
theorem popHistory_inv (s : WState) (h : C6Inv s) : C6Inv (popHistory s).1 := by
  obtain ⟨hch, hh, hpre⟩ := h
  unfold popHistory
  by_cases hg : (s.historyEnabled = false ∨ s.history.length = 0)
  · rw [if_pos hg]
    exact ⟨hch, hh, hpre⟩
  · rw [if_neg hg]
    cases hL : s.history.getLast? with
    | none => exact ⟨hch, hh, hpre⟩
    | some state =>
        refine ⟨?_, ?_, hpre⟩
        · exact applyDeltaReverse_nonEmpty _ _ (hh state (getLast?_mem _ _ hL)) hch
        · intro e he
          exact hh e (mem_dropLast _ _ he)

theorem loadFlatData_nonEmpty (st : Store) (data : List ℕ) (w : ℕ) :
    storeNonEmpty (loadFlatData st data w) := by
  unfold loadFlatData
  exact garbageCollect_nonEmpty _

theorem randomizeOp_nonEmpty (st : Store) (vx vy : ℤ) (vw vh : ℕ) (rand : ℕ → Bool) :
    storeNonEmpty (randomizeOp st vx vy vw vh rand) := by
  unfold randomizeOp
  exact garbageCollect_nonEmpty _

/-- C6: chunk-store non-emptiness is an invariant preserved by every
operation — direct cell edit, step, pattern load, randomize, and history
reverse.  `C6Inv` states that every chunk retained in the store has at
least one non-zero word, that every history delta's old-side chunks are
non-empty, and that a captured pre-step store is non-empty; each operation
of `WOp` preserves it, so an all-zero chunk is never retained. -/
theorem applyOp_preserves_nonEmpty (s : WState) (op : WOp) (h : C6Inv s) :
    C6Inv (applyOp s op) := by
  obtain ⟨hch, hh, hpre⟩ := h
  cases op with
  | edit idx val => exact ⟨setCell_nonEmpty _ _ _ _ hch, hh, hpre⟩
  | step =>
      show C6Inv (stepOp s)
      unfold stepOp
      apply pushHistoryDelta_inv
      · exact computeNextGeneration_nonEmpty _ _ _
      · show ∀ e ∈ (capturePreStepState s).history, histEntryWF e
        rw [capture_history]
        exact hh
      · show ∀ pre, (capturePreStepState s).preStepChunks = some pre → storeNonEmpty pre
        intro pre hp
        rcases capture_preStep s with hc | hc
        · rw [hc] at hp
          injection hp with hp
          rw [← hp]
          exact hch
        · rw [hc] at hp
          exact hpre pre hp
  | load data w => exact ⟨loadFlatData_nonEmpty _ _ _, hh, hpre⟩
  | randomize rand =>
      refine ⟨randomizeOp_nonEmpty _ _ _ _ _ _, ?_, hpre⟩
      intro e he
      exact absurd he (List.not_mem_nil e)
  | reverse => exact popHistory_inv s ⟨hch, hh, hpre⟩

/-- A concrete invariant-satisfying state: one non-empty chunk, history
enabled with one well-formed entry. -/
def c6WitState : WState :=
  ⟨[((0, 0), setRow zeroChunk 0 1)], 5, 1, true, 20,
   [⟨[((0, 0), (some (setRow zeroChunk 0 1), none))], 4, 1⟩], none, 0, 0,
   conwayBirth, conwaySurv, 0, 0, 1, 1, false, [], false, [], 0⟩

theorem applyOp_preserves_nonEmpty_witness :
    C6Inv c6WitState ∧ C6Inv (applyOp c6WitState .reverse) := by
  have h1 : C6Inv c6WitState := by
    refine ⟨by decide, by decide, ?_⟩
    intro pre hp
    exact absurd hp (by simp [c6WitState])
  exact ⟨h1, applyOp_preserves_nonEmpty c6WitState .reverse h1⟩

/-! ## Claim C3: k steps then k reverses -/

/-- `k` consecutive `step` messages. -/
def stepN : ℕ → WState → WState
  | 0, s => s
  | k + 1, s => stepN k (stepOp s)

/-- `k` consecutive `reverse` messages. -/
def revN : ℕ → WState → WState
  | 0, s => s
  | k + 1, s => revN k (popHistory s).1

theorem revN_succ_right (k : ℕ) (s : WState) :
    revN (k + 1) s = (popHistory (revN k s)).1 := by
  induction k generalizing s with
  | zero => rfl
  | succ k ih =>
      show revN (k + 1) (popHistory s).1 = _
      rw [ih]
      rfl

theorem chunkNe_false (a b : Chunk) (h : chunkNe a b = false) : a = b := by
  funext i
  unfold chunkNe at h
  rw [List.any_eq_false] at h
  have h2 := h i (List.mem_finRange i)
  simpa using h2

theorem chunkNe_true_of_ne (a b : Chunk) (h : a ≠ b) : chunkNe a b = true := by
  cases hne : chunkNe a b with
  | false => exact absurd (chunkNe_false a b hne) h
  | true => rfl

theorem mapSet_keys_of_mem {α : Type} (st : List (ChunkKey × α)) (k : ChunkKey) (c : α)
    (h : k ∈ storeKeys st) : storeKeys (mapSet st k c) = storeKeys st := by
  induction st with
  | nil => exact absurd h (by simp [storeKeys])
  | cons hd tl ih =>
      obtain ⟨k1, c1⟩ := hd
      by_cases hk : k1 = k
      · simp [mapSet, hk, storeKeys]
      · have hmem : k ∈ storeKeys tl := by
          simp only [storeKeys, List.map_cons, List.mem_cons] at h
          rcases h with h1 | h1
          · exact absurd h1.symm hk
          · exact h1
        simp only [mapSet, if_neg hk, storeKeys, List.map_cons]
        exact congrArg (List.cons (k1, c1).1) (ih hmem)

theorem mapSet_keys_of_notin {α : Type} (st : List (ChunkKey × α)) (k : ChunkKey) (c : α)
    (h : k ∉ storeKeys st) : storeKeys (mapSet st k c) = storeKeys st ++ [k] := by
  induction st with
  | nil => simp [mapSet, storeKeys]
  | cons hd tl ih =>
      obtain ⟨k1, c1⟩ := hd
      simp only [storeKeys, List.map_cons, List.mem_cons, not_or] at h
      obtain ⟨hk1, htl⟩ := h
      have hk : ¬ k1 = k := fun he => hk1 (by rw [he])
      simp only [mapSet, if_neg hk, storeKeys, List.map_cons, List.cons_append]
      exact congrArg (List.cons (k1, c1).1) (ih htl)

theorem mem_keys_mapSet_of_mem {α : Type} (st : List (ChunkKey × α)) (k : ChunkKey) (c : α)
    (k' : ChunkKey) (h : k' ∈ storeKeys st) : k' ∈ storeKeys (mapSet st k c) := by
  by_cases hk : k ∈ storeKeys st
  · rw [mapSet_keys_of_mem st k c hk]; exact h
  · rw [mapSet_keys_of_notin st k c hk]; exact List.mem_append_left _ h

theorem self_mem_keys_mapSet {α : Type} (st : List (ChunkKey × α)) (k : ChunkKey) (c : α) :
    k ∈ storeKeys (mapSet st k c) := by
  by_cases hk : k ∈ storeKeys st
  · rw [mapSet_keys_of_mem st k c hk]; exact hk
  · rw [mapSet_keys_of_notin st k c hk]
    exact List.mem_append_right _ (by simp)

/-- The fold step of `buildDelta oldChunks newChunks`, named so that its
foldl can be reasoned about generically. -/
def bdStep (A B : Store) (delta : List (ChunkKey × (Option Chunk × Option Chunk)))
    (key : ChunkKey) : List (ChunkKey × (Option Chunk × Option Chunk)) :=
  let oldChunk := mapGet A key
  let newChunk := mapGet B key
  let changed :=
    match oldChunk, newChunk with
    | none, some _ => true
    | some _, none => true
    | some oc, some nc => chunkNe oc nc
    | none, none => false
  if changed then mapSet delta key (cloneChunk oldChunk, cloneChunk newChunk) else delta

theorem buildDelta_eq_foldl (A B : Store) :
    buildDelta A B = (setOfList (storeKeys A ++ storeKeys B)).foldl (bdStep A B) [] := rfl

theorem bdStep_keys_monotone (A B : Store) :
    ∀ (L : List ChunkKey) (acc : List (ChunkKey × (Option Chunk × Option Chunk)))
      (k : ChunkKey), k ∈ storeKeys acc → k ∈ storeKeys (L.foldl (bdStep A B) acc) := by
  intro L
  induction L with
  | nil => intro acc k h; exact h
  | cons hd rest ih =>
      intro acc k h
      simp only [List.foldl_cons]
      apply ih
      simp only [bdStep]
      split
      · exact mem_keys_mapSet_of_mem _ _ _ _ h
      · exact h

theorem bdStep_keys_nodup (A B : Store) :
    ∀ (L : List ChunkKey) (acc : List (ChunkKey × (Option Chunk × Option Chunk))),
      L.Nodup → (∀ x ∈ L, x ∉ storeKeys acc) → (storeKeys acc).Nodup →
      (storeKeys (L.foldl (bdStep A B) acc)).Nodup := by
  intro L
  induction L with
  | nil => intro acc _ _ hacc; exact hacc
  | cons hd rest ih =>
      intro acc hL hdisj hacc
      simp only [List.foldl_cons]
      have hLrest := (List.nodup_cons.mp hL).2
      have hhd_not_rest := (List.nodup_cons.mp hL).1
      have hhd_not_acc := hdisj hd (List.mem_cons_self _ _)
      apply ih _ hLrest
      · intro x hx
        simp only [bdStep]
        split
        · rw [mapSet_keys_of_notin _ _ _ hhd_not_acc]
          simp only [List.mem_append, List.mem_singleton, not_or]
          exact ⟨hdisj x (List.mem_cons_of_mem _ hx),
                 fun he => hhd_not_rest (he ▸ hx)⟩
        · exact hdisj x (List.mem_cons_of_mem _ hx)
      · simp only [bdStep]
        split
        · rw [mapSet_keys_of_notin _ _ _ hhd_not_acc]
          refine List.Nodup.append hacc (List.nodup_singleton _) ?_
          intro a ha hb
          rw [List.mem_singleton] at hb
          exact hhd_not_acc (hb ▸ ha)
        · exact hacc

theorem bdStep_inserts (A B : Store) :
    ∀ (L : List ChunkKey) (acc : List (ChunkKey × (Option Chunk × Option Chunk)))
      (k : ChunkKey), k ∈ L → mapGet A k ≠ mapGet B k →
      k ∈ storeKeys (L.foldl (bdStep A B) acc) := by
  intro L
  induction L with
  | nil => intro acc k hk; exact absurd hk (List.not_mem_nil k)
  | cons hd rest ih =>
      intro acc k hk hne
      simp only [List.foldl_cons]
      rcases List.mem_cons.mp hk with rfl | hmem
      · apply bdStep_keys_monotone
        simp only [bdStep]
        split
        · exact self_mem_keys_mapSet _ _ _
        · rename_i hc
          exfalso
          cases hA : mapGet A k with
          | none =>
              cases hB : mapGet B k with
              | none => exact hne (hA.trans hB.symm)
              | some nc => simp only [hA, hB] at hc; exact hc trivial
          | some oc =>
              cases hB : mapGet B k with
              | none => simp only [hA, hB] at hc; exact hc trivial
              | some nc =>
                  simp only [hA, hB, Bool.not_eq_true] at hc
                  exact hne (by rw [hA, hB, chunkNe_false oc nc hc])
      · exact ih _ k hmem hne

theorem buildDelta_keys_nodup (A B : Store) : (storeKeys (buildDelta A B)).Nodup := by
  rw [buildDelta_eq_foldl]
  exact bdStep_keys_nodup A B _ [] (nodup_setOfList _)
    (by intro x hx; simp [storeKeys]) (by simp [storeKeys])

theorem buildDelta_complete (A B : Store) (k : ChunkKey)
    (h : k ∉ storeKeys (buildDelta A B)) : mapGet A k = mapGet B k := by
  by_contra hne
  apply h
  rw [buildDelta_eq_foldl]
  apply bdStep_inserts A B _ [] k ?_ hne
  rw [mem_setOfList, List.mem_append]
  cases hA : mapGet A k with
  | some c =>
      left
      by_contra hmem
      rw [mapGet_none_of_not_mem A k hmem] at hA
      exact Option.noConfusion hA
  | none =>
      cases hB : mapGet B k with
      | none => rw [hA, hB] at hne; exact absurd rfl hne
      | some c =>
          right
          by_contra hmem
          rw [mapGet_none_of_not_mem B k hmem] at hB
          exact Option.noConfusion hB

theorem ADR_get_notin (delta : List (ChunkKey × (Option Chunk × Option Chunk))) :
    ∀ (C : Store) (k : ChunkKey), k ∉ delta.map Prod.fst →
      mapGet (applyDeltaReverse delta C) k = mapGet C k := by
  induction delta with
  | nil => intro C k _; rfl
  | cons kc rest ih =>
      intro C k h
      rw [applyDeltaReverse_cons]
      have hk : k ≠ kc.1 := by
        intro he
        apply h
        simp only [List.map_cons, List.mem_cons]
        exact Or.inl he
      have htl : k ∉ rest.map Prod.fst := by
        intro hm
        apply h
        simp only [List.map_cons, List.mem_cons]
        exact Or.inr hm
      cases hold : kc.2.1 with
      | some oldC =>
          simp only [hold]
          rw [ih _ k htl]
          exact mapGet_mapSet_ne _ _ _ _ (Ne.symm hk)
      | none =>
          simp only [hold]
          rw [ih _ k htl]
          exact mapGet_mapDelete_ne _ _ _ (Ne.symm hk)

theorem ADR_get_in (delta : List (ChunkKey × (Option Chunk × Option Chunk))) :
    ∀ (C : Store) (k : ChunkKey) (p : Option Chunk × Option Chunk),
      (delta.map Prod.fst).Nodup → (k, p) ∈ delta →
      mapGet (applyDeltaReverse delta C) k = p.1 := by
  induction delta with
  | nil => intro C k p _ hmem; exact absurd hmem (List.not_mem_nil _)
  | cons kc rest ih =>
      intro C k p hnd hmem
      obtain ⟨k1, p1⟩ := kc
      simp only [List.map_cons, List.nodup_cons] at hnd
      obtain ⟨hk1nd, hndrest⟩ := hnd
      rw [applyDeltaReverse_cons]
      rcases List.mem_cons.mp hmem with heq | hmem'
      · injection heq with h1 h2
        subst h1
        subst h2
        cases hold : p.1 with
        | some oldC =>
            simp only [hold]
            rw [ADR_get_notin rest _ k hk1nd, mapGet_mapSet_self]
        | none =>
            simp only [hold]
            rw [ADR_get_notin rest _ k hk1nd, mapGet_mapDelete_self]
      · cases hold : p1.1 with
        | some oldC => simp only [hold]; exact ih _ k p hndrest hmem'
        | none => simp only [hold]; exact ih _ k p hndrest hmem'

/-- Rewinding a delta built from `A` to `B` on any store that agrees with
`B` as a key-value map yields exactly `A` as a key-value map. -/
theorem applyDeltaReverse_buildDelta (A B C : Store)
    (hC : ∀ key, mapGet C key = mapGet B key) (k : ChunkKey) :
    mapGet (applyDeltaReverse (buildDelta A B) C) k = mapGet A k := by
  by_cases hk : k ∈ (buildDelta A B).map Prod.fst
  · obtain ⟨kc, hmem, hfst⟩ := List.mem_map.mp hk
    obtain ⟨k1, p⟩ := kc
    have hk1 : k1 = k := hfst
    subst hk1
    have hold := (buildDelta_entries A B (k1, p) hmem).1
    rw [ADR_get_in (buildDelta A B) C k1 p (buildDelta_keys_nodup A B) hmem]
    exact hold
  · rw [ADR_get_notin (buildDelta A B) C k hk, hC k]
    exact (buildDelta_complete A B k hk).symm

/-- The step actually changes the store: the delta the step would record
is non-empty. -/
def stepChanges (s : WState) : Prop :=
  (buildDelta s.chunks (computeNextGeneration s.birthRule s.survivalRule s.chunks)).length > 0

instance (s : WState) : Decidable (stepChanges s) := by
  unfold stepChanges; infer_instance

/-- With history on, a store-changing step: the full effect of `step()`
on the worker state, including the ring trim of the oldest entry when the
push overflows the configured capacity. -/
theorem stepOp_eq (s : WState) (hen : s.historyEnabled = true)
    (hch : stepChanges s) :
    stepOp s = { s with
      chunks := computeNextGeneration s.birthRule s.survivalRule s.chunks
      generation := s.generation + 1
      totalPopulation := recalcPopulation (computeNextGeneration s.birthRule s.survivalRule s.chunks)
      history := if (s.history ++
          [HistEntry.mk
            (buildDelta s.chunks (computeNextGeneration s.birthRule s.survivalRule s.chunks))
            s.generation s.totalPopulation]).length > s.historyMaxSize then
          (s.history ++
            [HistEntry.mk
              (buildDelta s.chunks (computeNextGeneration s.birthRule s.survivalRule s.chunks))
              s.generation s.totalPopulation]).drop 1
        else s.history ++
          [HistEntry.mk
            (buildDelta s.chunks (computeNextGeneration s.birthRule s.survivalRule s.chunks))
            s.generation s.totalPopulation]
      preStepChunks := none
      preStepGeneration := s.generation
      preStepPopulation := s.totalPopulation
      ageChunks := if s.ageTrackingEnabled then
          updateAges s.ageChunks (computeNextGeneration s.birthRule s.survivalRule s.chunks)
        else s.ageChunks
      heatmapChunks := (if s.heatmapEnabled then
          updateHeatmap s.chunks (computeNextGeneration s.birthRule s.survivalRule s.chunks)
            s.heatmapChunks s.heatmapDecayCounter
        else (s.heatmapChunks, s.heatmapDecayCounter)).1
      heatmapDecayCounter := (if s.heatmapEnabled then
          updateHeatmap s.chunks (computeNextGeneration s.birthRule s.survivalRule s.chunks)
            s.heatmapChunks s.heatmapDecayCounter
        else (s.heatmapChunks, s.heatmapDecayCounter)).2 } := by
  have hlen : (buildDelta s.chunks
      (computeNextGeneration s.birthRule s.survivalRule s.chunks)).length > 0 := hch
  simp only [stepOp, capturePreStepState, pushHistoryDelta, hen, if_true]
  rw [if_pos hlen]

/-- Popping when the history ends in `e`: the full effect of `reverse`. -/
theorem popHistory_concat (s : WState) (H : List HistEntry) (e : HistEntry)
    (hen : s.historyEnabled = true) (hh : s.history = H ++ [e]) :
    (popHistory s).1 = { s with
      chunks := applyDeltaReverse e.delta s.chunks
      generation := e.generation
      totalPopulation := e.population
      history := H } := by
  have hguard : ¬ (s.historyEnabled = false ∨ s.history.length = 0) := by
    rw [hen, hh]
    simp
  unfold popHistory
  rw [if_neg hguard]
  simp only [hh, List.getLast?_concat, List.dropLast_concat]

theorem drop_append_le {α : Type} (l1 l2 : List α) (n : ℕ) (h : n ≤ l1.length) :
    (l1 ++ l2).drop n = l1.drop n ++ l2 := by
  rw [List.drop_append_eq_append_drop, Nat.sub_eq_zero_of_le h, List.drop_zero]

/-- The round-trip induction: `k` store-changing steps with capacity at
least `k`, followed by `k` reverses, restore the chunk map and the
generation; the history comes back minus at most the oldest entries the
ring trim discarded (never the pushed ones: an entry only reaches the
front of a ring shorter than the capacity, where no trim fires). -/
theorem roundtrip_aux : ∀ (k : ℕ) (s : WState),
    s.historyEnabled = true →
    k ≤ s.historyMaxSize →
    (∀ i < k, stepChanges (stepN i s)) →
    (∀ key, mapGet (revN k (stepN k s)).chunks key = mapGet s.chunks key) ∧
    (revN k (stepN k s)).generation = s.generation ∧
    (∃ m, m ≤ (s.history.length + k) - s.historyMaxSize ∧
      (revN k (stepN k s)).history = s.history.drop m) ∧
    (revN k (stepN k s)).historyEnabled = true := by
  intro k
  induction k with
  | zero =>
      intro s hen _ _
      exact ⟨fun key => rfl, rfl, ⟨0, Nat.zero_le _, (List.drop_zero _).symm⟩, hen⟩
  | succ k ih =>
      intro s hen hcap hchg
      have hch0 : stepChanges s := hchg 0 (Nat.succ_pos k)
      have hstep := stepOp_eq s hen hch0
      have hhist' : (stepOp s).history =
          if (s.history ++
              [HistEntry.mk
                (buildDelta s.chunks (computeNextGeneration s.birthRule s.survivalRule s.chunks))
                s.generation s.totalPopulation]).length > s.historyMaxSize then
            (s.history ++
              [HistEntry.mk
                (buildDelta s.chunks (computeNextGeneration s.birthRule s.survivalRule s.chunks))
                s.generation s.totalPopulation]).drop 1
          else s.history ++
            [HistEntry.mk
              (buildDelta s.chunks (computeNextGeneration s.birthRule s.survivalRule s.chunks))
              s.generation s.totalPopulation] := by rw [hstep]
      have hmax' : (stepOp s).historyMaxSize = s.historyMaxSize := by rw [hstep]
      have hchunks' : (stepOp s).chunks =
          computeNextGeneration s.birthRule s.survivalRule s.chunks := by rw [hstep]
      have hen' : (stepOp s).historyEnabled = true := by rw [hstep]; exact hen
      have hcap' : k ≤ (stepOp s).historyMaxSize := by rw [hmax']; omega
      have hchg' : ∀ i < k, stepChanges (stepN i (stepOp s)) := by
        intro i hi
        exact hchg (i + 1) (by omega)
      obtain ⟨ha, hb, ⟨m, hmb, hmh⟩, hd⟩ := ih (stepOp s) hen' hcap' hchg'
      rw [hmax'] at hmb
      have hT : revN (k + 1) (stepN (k + 1) s) =
          (popHistory (revN k (stepN k (stepOp s)))).1 := by
        rw [show stepN (k + 1) s = stepN k (stepOp s) from rfl, revN_succ_right]
      by_cases htrim : (s.history ++
          [HistEntry.mk
            (buildDelta s.chunks (computeNextGeneration s.birthRule s.survivalRule s.chunks))
            s.generation s.totalPopulation]).length > s.historyMaxSize
      · -- the push overflowed: the ring dropped the oldest entry
        rw [if_pos htrim] at hhist'
        rw [List.length_append, List.length_singleton] at htrim
        have hH : (stepOp s).history = s.history.drop 1 ++
            [HistEntry.mk
              (buildDelta s.chunks (computeNextGeneration s.birthRule s.survivalRule s.chunks))
              s.generation s.totalPopulation] := by
          rw [hhist', drop_append_le _ _ 1 (by omega)]
        rw [hH, List.length_append, List.length_singleton, List.length_drop] at hmb
        have hmle : m ≤ (s.history.drop 1).length := by
          rw [List.length_drop]
          omega
        have hThist : (revN k (stepN k (stepOp s))).history = (s.history.drop 1).drop m ++
            [HistEntry.mk
              (buildDelta s.chunks (computeNextGeneration s.birthRule s.survivalRule s.chunks))
              s.generation s.totalPopulation] := by
          rw [hmh, hH, drop_append_le _ _ m hmle]
        have hpop := popHistory_concat (revN k (stepN k (stepOp s))) ((s.history.drop 1).drop m)
          (HistEntry.mk
            (buildDelta s.chunks (computeNextGeneration s.birthRule s.survivalRule s.chunks))
            s.generation s.totalPopulation) hd hThist
        refine ⟨?_, ?_, ?_, ?_⟩
        · intro key
          rw [hT, hpop]
          exact applyDeltaReverse_buildDelta s.chunks
            (computeNextGeneration s.birthRule s.survivalRule s.chunks)
            (revN k (stepN k (stepOp s))).chunks
            (fun key2 => by rw [ha key2, hchunks']) key
        · rw [hT, hpop]
        · refine ⟨m + 1, by omega, ?_⟩
          have hdd : (s.history.drop 1).drop m = s.history.drop (m + 1) := by
            rw [List.drop_drop, Nat.add_comm]
          rw [hT, hpop, hdd]
        · rw [hT, hpop]
          exact hd
      · -- the push fit: nothing was trimmed
        rw [if_neg htrim] at hhist'
        rw [List.length_append, List.length_singleton] at htrim
        rw [hhist', List.length_append, List.length_singleton] at hmb
        have hmle : m ≤ s.history.length := by omega
        have hThist : (revN k (stepN k (stepOp s))).history = s.history.drop m ++
            [HistEntry.mk
              (buildDelta s.chunks (computeNextGeneration s.birthRule s.survivalRule s.chunks))
              s.generation s.totalPopulation] := by
          rw [hmh, hhist', drop_append_le _ _ m hmle]
        have hpop := popHistory_concat (revN k (stepN k (stepOp s))) (s.history.drop m)
          (HistEntry.mk
            (buildDelta s.chunks (computeNextGeneration s.birthRule s.survivalRule s.chunks))
            s.generation s.totalPopulation) hd hThist
        refine ⟨?_, ?_, ?_, ?_⟩
        · intro key
          rw [hT, hpop]
          exact applyDeltaReverse_buildDelta s.chunks
            (computeNextGeneration s.birthRule s.survivalRule s.chunks)
            (revN k (stepN k (stepOp s))).chunks
            (fun key2 => by rw [ha key2, hchunks']) key
        · rw [hT, hpop]
        · exact ⟨m, by omega, by rw [hT, hpop]⟩
        · rw [hT, hpop]
          exact hd

/-- A 2×2 still-life block with history enabled and ample capacity. -/
def c3CexInit : WState :=
  ⟨[((0, 0), setRow (setRow zeroChunk 0 3) 1 3)], 0, 4, true, 20, [], none, 0, 0,
   conwayBirth, conwaySurv, 0, 0, 1, 1, false, [], false, [], 0⟩

set_option maxRecDepth 40000 in
/-- C3 counterexample: on a still-life (a 2×2 block under B3/S23) the step
produces an identical store, so `pushHistoryDelta` records nothing (the
delta is empty); the subsequent `reverse` finds an empty history and is a
no-op, leaving the generation at 1 instead of restoring 0 — despite history
being enabled with capacity 20 ≥ k = 1. -/
theorem step_reverse_claim_cex :
    c3CexInit.historyEnabled = true ∧
    1 ≤ c3CexInit.historyMaxSize ∧
    c3CexInit.generation = 0 ∧
    (revN 1 (stepN 1 c3CexInit)).generation = 1 := by
  refine ⟨rfl, by decide, rfl, by decide⟩

/-- C3 (corrected): with history enabled, configured capacity at least `k`,
and every one of the `k` steps actually changing the store (so that each
step pushes a history entry), `k` `step`s followed by `k` `reverse`s
restore the prior chunk store exactly (as a key-to-chunk map) and the
prior generation counter — even when the ring trims: the trim only ever
discards entries older than the `k` pushed ones. -/
theorem step_reverse_roundtrip (k : ℕ) (s : WState)
    (hen : s.historyEnabled = true)
    (hcap : k ≤ s.historyMaxSize)
    (hchg : ∀ i < k, stepChanges (stepN i s)) :
    (∀ key, mapGet (revN k (stepN k s)).chunks key = mapGet s.chunks key) ∧
    (revN k (stepN k s)).generation = s.generation := by
  obtain ⟨h1, h2, -, -⟩ := roundtrip_aux k s hen hcap hchg
  exact ⟨h1, h2⟩

/-- A blinker with history enabled and the ring already FULL
(`history.length = historyMaxSize = 1`), so the push trims the oldest
entry: the round trip must still restore store and generation. -/
def c3WitInit : WState :=
  ⟨blinkerStore, 0, 3, true, 1, [HistEntry.mk [] 7 5], none, 0, 0,
   conwayBirth, conwaySurv, 0, 0, 1, 1, false, [], false, [], 0⟩

set_option maxRecDepth 100000 in
theorem step_reverse_roundtrip_witness :
    c3WitInit.historyEnabled = true ∧
    1 ≤ c3WitInit.historyMaxSize ∧
    c3WitInit.history.length = c3WitInit.historyMaxSize ∧
    stepChanges (stepN 0 c3WitInit) ∧
    mapGet (revN 1 (stepN 1 c3WitInit)).chunks (0, 0) = mapGet c3WitInit.chunks (0, 0) ∧
    (revN 1 (stepN 1 c3WitInit)).generation = c3WitInit.generation := by
  have hchg : ∀ i < 1, stepChanges (stepN i c3WitInit) := by
    intro i hi
    have h0 : i = 0 := Nat.lt_one_iff.mp hi
    subst h0
    decide
  have h := step_reverse_roundtrip 1 c3WitInit rfl (by decide) hchg
  exact ⟨rfl, by decide, by decide, hchg 0 (by decide), h.1 (0, 0), h.2⟩

/-! ## Claim C7: `coordsToRLE` (lib.js lines 152-220) round-trips through `parseRLE` -/

/-- One RLE cell token: `(count > 1 ? count : '') + (alive ? 'o' : 'b')`. -/
def c2rToken (count : ℕ) (alive : Bool) : List Char :=
  (if count > 1 then natDigits count else []) ++ [if alive then 'o' else 'b']

/-- The inner `while (x < w)` loop of `coordsToRLE` (lib.js lines 180-206):
unlike `exportWorld`, tokens are appended directly to `rle`, so the
70-column wrap is applied to the actual output.  State `(rle, lineLen)`. -/
def c2rRowLoop (row : ℕ → Bool) (w : ℕ) : ℕ → ℕ → (List Char × ℕ) → (List Char × ℕ)
  | 0, _, st => st
  | fuel + 1, x, (rle, lineLen) =>
      if x < w then
        let alive := row x
        let count := runCount row w alive x
        if alive = false ∧ x + count ≥ w then (rle, lineLen)
        else
          let token := c2rToken count alive
          let wrapped := lineLen + token.length > 70 ∧ lineLen > 0
          let rle' := if wrapped then rle ++ ['\n'] else rle
          let lineLen' := if wrapped then 0 else lineLen
          c2rRowLoop row w fuel (x + count) (rle' ++ token, lineLen' + token.length)
      else (rle, lineLen)

/-- The row loop of `coordsToRLE` (lib.js lines 177-215): per row run the
token loop, then append the terminator (`$` or `!`), wrapping before it if
needed. -/
def c2rBody (grid2 : ℕ → ℕ → Bool) (w h : ℕ) : List Char :=
  ((List.range h).foldl
    (fun (st : List Char × ℕ) y =>
      let (rle1, lineLen1) := c2rRowLoop (fun x => grid2 x y) w w 0 st
      let term := if y < h - 1 then '$' else '!'
      let wrapped := lineLen1 + 1 > 70 ∧ lineLen1 > 0
      let rle2 := if wrapped then rle1 ++ ['\n'] else rle1
      let lineLen2 := if wrapped then 0 else lineLen1
      (rle2 ++ [term], lineLen2 + 1))
    ([], 0)).1

/-- `minX` of the bounding-box scan (lib.js lines 156-162); the `Infinity`
seed is replaced by seeding with the first cell, which is equivalent on
the non-empty lists the function is used with (`0` for `[]`). -/
def minXof (coords : List (ℤ × ℤ)) : ℤ :=
  match coords with
  | [] => 0
  | c0 :: rest => rest.foldl (fun m p => min m p.1) c0.1

/-- `maxX` of the bounding-box scan. -/
def maxXof (coords : List (ℤ × ℤ)) : ℤ :=
  match coords with
  | [] => 0
  | c0 :: rest => rest.foldl (fun m p => max m p.1) c0.1

/-- `minY` of the bounding-box scan. -/
def minYof (coords : List (ℤ × ℤ)) : ℤ :=
  match coords with
  | [] => 0
  | c0 :: rest => rest.foldl (fun m p => min m p.2) c0.2

/-- `maxY` of the bounding-box scan. -/
def maxYof (coords : List (ℤ × ℤ)) : ℤ :=
  match coords with
  | [] => 0
  | c0 :: rest => rest.foldl (fun m p => max m p.2) c0.2

/-- `w = maxX - minX + 1` (lib.js line 164). -/
def bbW (coords : List (ℤ × ℤ)) : ℕ := (maxXof coords - minXof coords + 1).toNat

/-- `h = maxY - minY + 1` (lib.js line 165). -/
def bbH (coords : List (ℤ × ℤ)) : ℕ := (maxYof coords - minYof coords + 1).toNat

/-- The grid of `coordsToRLE` (lib.js lines 167-171), embedded as the
membership function the array writes produce:
`grid[gy][gx] = (minX + gx, minY + gy) ∈ coords`. -/
def gridOf (coords : List (ℤ × ℤ)) : ℕ → ℕ → Bool :=
  fun gx gy => decide ((minXof coords + gx, minYof coords + gy) ∈ coords)

/-- `coordsToRLE(coords)` (lib.js lines 152-220). -/
def coordsToRLE (coords : List (ℤ × ℤ)) : List Char :=
  if coords.length = 0 then ['!']
  else c2rBody (gridOf coords) (bbW coords) (bbH coords)

/-- The flat (newline-free) render of one row's run tokens: what the token
loop appends, without the wrap-newlines. -/
def rowRunsFlat (row : ℕ → Bool) (w : ℕ) : ℕ → ℕ → List Char
  | 0, _ => []
  | fuel + 1, x =>
      if x < w then
        let alive := row x
        let count := runCount row w alive x
        if alive = false ∧ x + count ≥ w then []
        else c2rToken count alive ++ rowRunsFlat row w fuel (x + count)
      else []

/-- The flat render of rows `y0, …, y0+n-1` with their terminators. -/
def rowsFlat (grid2 : ℕ → ℕ → Bool) (w h y0 n : ℕ) : List Char :=
  ((List.range' y0 n).map
    (fun y => rowRunsFlat (fun x => grid2 x y) w w 0 ++ [if y < h - 1 then '$' else '!'])).flatten

/-- The live cells of a row from column `x` (inclusive) to `w`
(exclusive), in increasing column order. -/
def rowCells (row : ℕ → Bool) (y x w : ℕ) : List (ℕ × ℕ) :=
  ((List.range' x (w - x)).filter (fun i => row i)).map (fun i => (i, y))

/-- The live cells of rows `y0, …, y0+n-1`, row-major. -/
def gridCellsFrom (grid2 : ℕ → ℕ → Bool) (w y0 n : ℕ) : List (ℕ × ℕ) :=
  ((List.range' y0 n).map (fun y => rowCells (fun x => grid2 x y) y 0 w)).flatten

/-- All live cells of the bounding-box grid of `coords`, row-major: the
exact list the parser produces from the emitted RLE. -/
def gridCellsOf (coords : List (ℤ × ℤ)) : List (ℕ × ℕ) :=
  gridCellsFrom (gridOf coords) (bbW coords) 0 (bbH coords)

theorem runCountAux_props (row : ℕ → Bool) (w : ℕ) (alive : Bool) (x : ℕ) :
    ∀ (fuel count : ℕ), 1 ≤ count → x + count ≤ w → w - (x + count) < fuel →
      (∀ i, x < i → i < x + count → row i = alive) →
      1 ≤ runCountAux row w alive x fuel count ∧
      x + runCountAux row w alive x fuel count ≤ w ∧
      (∀ i, x < i → i < x + runCountAux row w alive x fuel count → row i = alive) ∧
      (x + runCountAux row w alive x fuel count = w ∨
        row (x + runCountAux row w alive x fuel count) ≠ alive) := by
  intro fuel
  induction fuel with
  | zero => intro count _ _ hfuel _; exact absurd hfuel (by omega)
  | succ fuel ih =>
      intro count h1 hle hfuel hmid
      simp only [runCountAux]
      by_cases hc : x + count < w ∧ row (x + count) = alive
      · rw [if_pos hc]
        apply ih (count + 1) (by omega) (by omega) (by omega)
        intro i hxi hic
        by_cases hi : i < x + count
        · exact hmid i hxi hi
        · have hieq : i = x + count := by omega
          rw [hieq]
          exact hc.2
      · rw [if_neg hc]
        refine ⟨h1, hle, hmid, ?_⟩
        rcases Nat.lt_or_ge (x + count) w with hlt | hge
        · right
          intro hrow
          exact hc ⟨hlt, hrow⟩
        · left
          omega

theorem runCount_props (row : ℕ → Bool) (w : ℕ) (alive : Bool) (x : ℕ) (hx : x < w) :
    1 ≤ runCount row w alive x ∧ x + runCount row w alive x ≤ w ∧
    (∀ i, x < i → i < x + runCount row w alive x → row i = alive) ∧
    (x + runCount row w alive x = w ∨ row (x + runCount row w alive x) ≠ alive) := by
  unfold runCount
  exact runCountAux_props row w alive x w 1 (le_refl 1) (by omega) (by omega)
    (by intro i h1 h2; exact absurd h2 (by omega))

theorem runCount_eq (row : ℕ → Bool) (w : ℕ) (alive : Bool) (x : ℕ) (hx : x < w)
    (r : ℕ) (h1 : 1 ≤ r) (hxr : x + r ≤ w)
    (hmid : ∀ i, x < i → i < x + r → row i = alive)
    (hstop : x + r = w ∨ row (x + r) ≠ alive) : runCount row w alive x = r := by
  obtain ⟨h1', hxr', hmid', hstop'⟩ := runCount_props row w alive x hx
  by_contra hne
  rcases Nat.lt_or_ge (runCount row w alive x) r with hlt | hge
  · rcases hstop' with heq | hrow
    · omega
    · exact hrow (hmid (x + runCount row w alive x) (by omega) (by omega))
  · have hgt : r < runCount row w alive x := by omega
    rcases hstop with heq | hrow
    · omega
    · exact hrow (hmid' (x + r) (by omega) (by omega))

/-- The non-newline filter (what survives line splitting and joining). -/
def notNL (c : Char) : Bool := c != '\n'

/-- The characters `coordsToRLE` can emit. -/
def okEmitChar (c : Char) : Prop :=
  c = '\n' ∨ c = 'b' ∨ c = 'o' ∨ c = '$' ∨ c = '!' ∨ ∃ r, r < 10 ∧ c = digitChar r

theorem okEmitChar_props (c : Char) (h : okEmitChar c) (hnl : ¬ c = '\n') :
    isWS c = false ∧ ¬ c = '#' ∧ ¬ c = 'x' := by
  rcases h with rfl | rfl | rfl | rfl | rfl | ⟨r, hr, rfl⟩
  · exact absurd rfl hnl
  · decide
  · decide
  · decide
  · decide
  · interval_cases r <;> decide

theorem splitLines_ne_nil : ∀ cs : List Char, splitLines cs ≠ [] := by
  intro cs
  cases cs with
  | nil => simp [splitLines]
  | cons c cs =>
      cases hsp : splitLines cs with
      | nil => simp [splitLines, hsp]
      | cons l ls =>
          simp only [splitLines, hsp]
          split <;> simp

theorem mem_splitLines : ∀ (cs l : List Char) (c : Char),
    l ∈ splitLines cs → c ∈ l → c ∈ cs ∧ ¬ c = '\n' := by
  intro cs
  induction cs with
  | nil =>
      intro l c hl hc
      simp [splitLines] at hl
      subst hl
      exact absurd hc (List.not_mem_nil c)
  | cons c0 cs ih =>
      intro l c hl hc
      cases hsp : splitLines cs with
      | nil => exact absurd hsp (splitLines_ne_nil cs)
      | cons l0 ls =>
          simp only [splitLines, hsp] at hl
          by_cases hnl : c0 = '\n'
          · rw [if_pos hnl] at hl
            rcases List.mem_cons.mp hl with rfl | hl'
            · exact absurd hc (List.not_mem_nil c)
            · have hr := ih l c (by rw [hsp]; exact hl') hc
              exact ⟨List.mem_cons_of_mem _ hr.1, hr.2⟩
          · rw [if_neg hnl] at hl
            rcases List.mem_cons.mp hl with rfl | hl'
            · rcases List.mem_cons.mp hc with rfl | hc'
              · exact ⟨List.mem_cons_self _ _, hnl⟩
              · have hr := ih l0 c (by rw [hsp]; exact List.mem_cons_self _ _) hc'
                exact ⟨List.mem_cons_of_mem _ hr.1, hr.2⟩
            · have hr := ih l c (by rw [hsp]; exact List.mem_cons_of_mem _ hl') hc
              exact ⟨List.mem_cons_of_mem _ hr.1, hr.2⟩

theorem flatten_splitLines : ∀ cs : List Char, (splitLines cs).flatten = cs.filter notNL := by
  intro cs
  induction cs with
  | nil => rfl
  | cons c0 cs ih =>
      cases hsp : splitLines cs with
      | nil => exact absurd hsp (splitLines_ne_nil cs)
      | cons l0 ls =>
          simp only [splitLines, hsp]
          by_cases hnl : c0 = '\n'
          · rw [if_pos hnl, List.flatten_cons, List.nil_append, ← hsp, ih, hnl,
              List.filter_cons]
            simp [notNL]
          · rw [if_neg hnl, List.flatten_cons, List.cons_append, ← List.flatten_cons,
              ← hsp, ih, List.filter_cons]
            have hok : notNL c0 = true := by simp [notNL, hnl]
            rw [hok]
            simp

theorem dropWhile_false (p : Char → Bool) (l : List Char) (h : ∀ c ∈ l, p c = false) :
    l.dropWhile p = l := by
  cases l with
  | nil => rfl
  | cons hd tl =>
      rw [List.dropWhile_cons, h hd (List.mem_cons_self _ _)]
      simp

theorem trim_id (l : List Char) (h : ∀ c ∈ l, isWS c = false) : trimChars l = l := by
  unfold trimChars
  rw [dropWhile_false isWS l h,
      dropWhile_false isWS l.reverse (by intro c hc; exact h c (List.mem_reverse.mp hc))]
  exact List.reverse_reverse l

theorem isHeaderLine_false (l : List Char) (h : ∀ c ∈ l, ¬ c = '#' ∧ ¬ c = 'x') :
    isHeaderLine l = false := by
  unfold isHeaderLine
  split
  · exact absurd rfl (h '#' (List.mem_cons_self _ _)).1
  · exact absurd rfl (h 'x' (List.mem_cons_self _ _)).2
  · exact absurd rfl (h 'x' (List.mem_cons_self _ _)).2
  · rfl

/-- On text drawn from the emit alphabet, header/comment stripping is
exactly the removal of the newlines. -/
theorem rleData_eq_filter (cs : List Char) (h : ∀ c ∈ cs, okEmitChar c) :
    rleData cs = cs.filter notNL := by
  unfold rleData
  have htrim : (splitLines cs).map trimChars = splitLines cs := by
    have hid : ∀ l ∈ splitLines cs, trimChars l = l := by
      intro l hl
      apply trim_id
      intro c hc
      obtain ⟨hmem, hnl⟩ := mem_splitLines cs l c hl hc
      exact (okEmitChar_props c (h c hmem) hnl).1
    rw [List.map_congr_left hid]
    simp
  rw [htrim]
  have hfil : (splitLines cs).filter (fun l => !isHeaderLine l) = splitLines cs := by
    apply List.filter_eq_self.mpr
    intro l hl
    have hhd : isHeaderLine l = false := by
      apply isHeaderLine_false
      intro c hc
      obtain ⟨hmem, hnl⟩ := mem_splitLines cs l c hl hc
      have hp := okEmitChar_props c (h c hmem) hnl
      exact ⟨hp.2.1, hp.2.2⟩
    rw [hhd]
    rfl
  rw [hfil, flatten_splitLines]

theorem mem_natDigitsAux : ∀ (fuel n : ℕ) (c : Char), c ∈ natDigitsAux fuel n →
    ∃ r, r < 10 ∧ c = digitChar r := by
  intro fuel
  induction fuel with
  | zero => intro n c hc; exact absurd hc (List.not_mem_nil c)
  | succ fuel ih =>
      intro n c hc
      by_cases h10 : n < 10
      · simp only [natDigitsAux, if_pos h10] at hc
        rw [List.mem_singleton.mp hc]
        exact ⟨n, h10, rfl⟩
      · simp only [natDigitsAux, if_neg h10] at hc
        rcases List.mem_append.mp hc with h1 | h1
        · exact ih _ c h1
        · rw [List.mem_singleton.mp h1]
          exact ⟨n % 10, Nat.mod_lt _ (by omega), rfl⟩

theorem mem_natDigits (n : ℕ) (c : Char) (hc : c ∈ natDigits n) :
    ∃ r, r < 10 ∧ c = digitChar r :=
  mem_natDigitsAux _ n c hc

theorem okEmitChar_digit (r : ℕ) (hr : r < 10) : okEmitChar (digitChar r) :=
  Or.inr (Or.inr (Or.inr (Or.inr (Or.inr ⟨r, hr, rfl⟩))))

theorem notNL_digit (r : ℕ) (hr : r < 10) : notNL (digitChar r) = true := by
  interval_cases r <;> decide

theorem c2rToken_ok (count : ℕ) (alive : Bool) :
    ∀ c ∈ c2rToken count alive, okEmitChar c ∧ notNL c = true := by
  intro c hc
  unfold c2rToken at hc
  rcases List.mem_append.mp hc with h1 | h1
  · split at h1
    · obtain ⟨r, hr, rfl⟩ := mem_natDigits _ c h1
      exact ⟨okEmitChar_digit r hr, notNL_digit r hr⟩
    · exact absurd h1 (List.not_mem_nil c)
  · rw [List.mem_singleton.mp h1]
    cases alive
    · exact ⟨Or.inr (Or.inl rfl), by decide⟩
    · exact ⟨Or.inr (Or.inr (Or.inl rfl)), by decide⟩

theorem c2rToken_filter (count : ℕ) (alive : Bool) :
    (c2rToken count alive).filter notNL = c2rToken count alive :=
  List.filter_eq_self.mpr (fun c hc => (c2rToken_ok count alive c hc).2)

theorem c2rRowLoop_filter (row : ℕ → Bool) (w : ℕ) :
    ∀ (fuel x : ℕ) (rle : List Char) (ll : ℕ),
      ((c2rRowLoop row w fuel x (rle, ll)).1).filter notNL =
        rle.filter notNL ++ rowRunsFlat row w fuel x := by
  intro fuel
  induction fuel with
  | zero => intro x rle ll; simp [c2rRowLoop, rowRunsFlat]
  | succ fuel ih =>
      intro x rle ll
      simp only [c2rRowLoop, rowRunsFlat]
      by_cases hx : x < w
      · rw [if_pos hx, if_pos hx]
        by_cases hbr : row x = false ∧ x + runCount row w (row x) x ≥ w
        · rw [if_pos hbr, if_pos hbr]
          simp
        · rw [if_neg hbr, if_neg hbr]
          rw [ih]
          by_cases hwr : ll + (c2rToken (runCount row w (row x) x) (row x)).length > 70 ∧ ll > 0
          · rw [if_pos hwr, List.filter_append, List.filter_append, c2rToken_filter]
            simp [notNL]
          · rw [if_neg hwr, List.filter_append, c2rToken_filter]
            simp
      · rw [if_neg hx, if_neg hx]
        simp

theorem c2rRowLoop_chars (row : ℕ → Bool) (w : ℕ) :
    ∀ (fuel x : ℕ) (rle : List Char) (ll : ℕ) (c : Char),
      c ∈ (c2rRowLoop row w fuel x (rle, ll)).1 → c ∈ rle ∨ okEmitChar c := by
  intro fuel
  induction fuel with
  | zero => intro x rle ll c hc; exact Or.inl hc
  | succ fuel ih =>
      intro x rle ll c hc
      simp only [c2rRowLoop] at hc
      by_cases hx : x < w
      · rw [if_pos hx] at hc
        by_cases hbr : row x = false ∧ x + runCount row w (row x) x ≥ w
        · rw [if_pos hbr] at hc
          exact Or.inl hc
        · rw [if_neg hbr] at hc
          rcases ih _ _ _ c hc with h1 | h1
          · rcases List.mem_append.mp h1 with h2 | h2
            · split at h2
              · rcases List.mem_append.mp h2 with h3 | h3
                · exact Or.inl h3
                · rw [List.mem_singleton.mp h3]
                  exact Or.inr (Or.inl rfl)
              · exact Or.inl h2
            · exact Or.inr (c2rToken_ok _ _ c h2).1
          · exact Or.inr h1
      · rw [if_neg hx] at hc
        exact Or.inl hc

/-- The per-row fold step of `c2rBody`, named for the proofs. -/
def c2rStep (grid2 : ℕ → ℕ → Bool) (w h : ℕ) (st : List Char × ℕ) (y : ℕ) :
    List Char × ℕ :=
  let (rle1, lineLen1) := c2rRowLoop (fun x => grid2 x y) w w 0 st
  let term := if y < h - 1 then '$' else '!'
  let wrapped := lineLen1 + 1 > 70 ∧ lineLen1 > 0
  let rle2 := if wrapped then rle1 ++ ['\n'] else rle1
  let lineLen2 := if wrapped then 0 else lineLen1
  (rle2 ++ [term], lineLen2 + 1)

theorem c2rBody_eq (grid2 : ℕ → ℕ → Bool) (w h : ℕ) :
    c2rBody grid2 w h = ((List.range h).foldl (c2rStep grid2 w h) ([], 0)).1 := rfl

theorem c2rStep_filter (grid2 : ℕ → ℕ → Bool) (w h : ℕ) :
    ∀ (ys : List ℕ) (rle : List Char) (ll : ℕ),
      ((ys.foldl (c2rStep grid2 w h) (rle, ll)).1).filter notNL =
        rle.filter notNL ++
          (ys.map (fun y => rowRunsFlat (fun x => grid2 x y) w w 0 ++
            [if y < h - 1 then '$' else '!'])).flatten := by
  intro ys
  induction ys with
  | nil => intro rle ll; simp
  | cons y ys ih =>
      intro rle ll
      rw [List.foldl_cons]
      cases he : c2rRowLoop (fun x => grid2 x y) w w 0 (rle, ll) with
      | mk rle1 ll1 =>
          have hstep : c2rStep grid2 w h (rle, ll) y =
              ((if ll1 + 1 > 70 ∧ ll1 > 0 then rle1 ++ ['\n'] else rle1) ++
                [if y < h - 1 then '$' else '!'],
               (if ll1 + 1 > 70 ∧ ll1 > 0 then 0 else ll1) + 1) := by
            simp only [c2rStep, he]
          rw [hstep, ih]
          have hr1 : rle1.filter notNL = rle.filter notNL ++ rowRunsFlat (fun x => grid2 x y) w w 0 := by
            have := c2rRowLoop_filter (fun x => grid2 x y) w w 0 rle ll
            rw [he] at this
            exact this
          have hterm : [if y < h - 1 then '$' else '!'].filter notNL =
              [if y < h - 1 then '$' else '!'] := by
            split <;> decide
          rw [List.filter_append, hterm]
          by_cases hwr : ll1 + 1 > 70 ∧ ll1 > 0
          · rw [if_pos hwr, List.filter_append, hr1]
            simp [notNL, List.map_cons, List.flatten_cons]
          · rw [if_neg hwr, hr1]
            simp [List.map_cons, List.flatten_cons]

theorem c2rStep_chars (grid2 : ℕ → ℕ → Bool) (w h : ℕ) :
    ∀ (ys : List ℕ) (rle : List Char) (ll : ℕ) (c : Char),
      c ∈ (ys.foldl (c2rStep grid2 w h) (rle, ll)).1 → c ∈ rle ∨ okEmitChar c := by
  intro ys
  induction ys with
  | nil => intro rle ll c hc; exact Or.inl hc
  | cons y ys ih =>
      intro rle ll c hc
      rw [List.foldl_cons] at hc
      cases he : c2rRowLoop (fun x => grid2 x y) w w 0 (rle, ll) with
      | mk rle1 ll1 =>
          have hstep : c2rStep grid2 w h (rle, ll) y =
              ((if ll1 + 1 > 70 ∧ ll1 > 0 then rle1 ++ ['\n'] else rle1) ++
                [if y < h - 1 then '$' else '!'],
               (if ll1 + 1 > 70 ∧ ll1 > 0 then 0 else ll1) + 1) := by
            simp only [c2rStep, he]
          rw [hstep] at hc
          rcases ih _ _ c hc with h1 | h1
          · rcases List.mem_append.mp h1 with h2 | h2
            · have hmem1 : c ∈ rle1 ∨ okEmitChar c := by
                split at h2
                · rcases List.mem_append.mp h2 with h3 | h3
                  · exact Or.inl h3
                  · rw [List.mem_singleton.mp h3]
                    exact Or.inr (Or.inl rfl)
                · exact Or.inl h2
              rcases hmem1 with h3 | h3
              · have := c2rRowLoop_chars (fun x => grid2 x y) w w 0 rle ll c (by rw [he]; exact h3)
                exact this
              · exact Or.inr h3
            · rw [List.mem_singleton.mp h2]
              split
              · exact Or.inr (Or.inr (Or.inr (Or.inr (Or.inl rfl))))
              · exact Or.inr (Or.inr (Or.inr (Or.inr (Or.inr (Or.inl rfl)))))
          · exact Or.inr h1

/-- Every character of the emitted body is from the emit alphabet. -/
theorem c2rBody_chars (grid2 : ℕ → ℕ → Bool) (w h : ℕ) :
    ∀ c ∈ c2rBody grid2 w h, okEmitChar c := by
  intro c hc
  rw [c2rBody_eq] at hc
  rcases c2rStep_chars grid2 w h (List.range h) [] 0 c hc with h1 | h1
  · exact absurd h1 (List.not_mem_nil c)
  · exact h1

/-- Stripping the wrap-newlines from the emitted body yields the flat
token render. -/
theorem c2rBody_filter (grid2 : ℕ → ℕ → Bool) (w h : ℕ) :
    (c2rBody grid2 w h).filter notNL = rowsFlat grid2 w h 0 h := by
  rw [c2rBody_eq]
  have := c2rStep_filter grid2 w h (List.range h) [] 0
  rw [this]
  unfold rowsFlat
  rw [List.range_eq_range']
  rfl

theorem parseLoop_digit (rest : List Char) (cs : List (ℕ × ℕ)) (x y cnt : ℕ) (c : Char)
    (hc : isDigitChar c = true) (m : ℕ) (hm : cnt * 10 + digitVal c = m)
    (hle : m ≤ RLE_MAX_RUN_LENGTH) :
    parseLoop (c :: rest) ⟨cs, x, y, cnt⟩ = parseLoop rest ⟨cs, x, y, m⟩ := by
  subst hm
  simp only [parseLoop]
  rw [if_pos hc, if_neg (by omega)]

theorem parseLoop_b (rest : List Char) (cs : List (ℕ × ℕ)) (x y cnt r : ℕ)
    (hr : max cnt 1 = r) :
    parseLoop ('b' :: rest) ⟨cs, x, y, cnt⟩ = parseLoop rest ⟨cs, x + r, y, 0⟩ := by
  subst hr
  simp only [parseLoop]
  rw [if_neg (by decide), if_pos (by decide)]

theorem parseLoop_o (rest : List Char) (cs : List (ℕ × ℕ)) (x y cnt r : ℕ)
    (hr : max cnt 1 = r) (hcap : cs.length + r ≤ RLE_MAX_CELLS) :
    parseLoop ('o' :: rest) ⟨cs, x, y, cnt⟩ =
      parseLoop rest ⟨cs ++ (List.range r).map (fun k => (x + k, y)), x + r, y, 0⟩ := by
  subst hr
  simp only [parseLoop]
  rw [if_neg (by decide), if_neg (by decide), if_pos (by decide), if_neg (by omega)]

theorem parseLoop_dollar (rest : List Char) (cs : List (ℕ × ℕ)) (x y cnt r : ℕ)
    (hr : max cnt 1 = r) :
    parseLoop ('$' :: rest) ⟨cs, x, y, cnt⟩ = parseLoop rest ⟨cs, 0, y + r, 0⟩ := by
  subst hr
  simp only [parseLoop]
  rw [if_neg (by decide), if_neg (by decide), if_neg (by decide), if_pos (by decide)]

theorem parseLoop_bang (rest : List Char) (cs : List (ℕ × ℕ)) (x y cnt : ℕ) :
    parseLoop ('!' :: rest) ⟨cs, x, y, cnt⟩ = .ok cs := by
  simp only [parseLoop]
  rw [if_neg (by decide), if_neg (by decide), if_neg (by decide), if_neg (by decide),
    if_pos (by decide)]

theorem isDigitChar_digitChar (r : ℕ) (hr : r < 10) : isDigitChar (digitChar r) = true := by
  interval_cases r <;> decide

theorem digitVal_digitChar (r : ℕ) (hr : r < 10) : digitVal (digitChar r) = r := by
  interval_cases r <;> decide

/-- Consuming the decimal digits of `n ≤ 100000` from a zero pending count
accumulates exactly `n`. -/
theorem parseLoop_natDigits (n : ℕ) (hn : n ≤ RLE_MAX_RUN_LENGTH) :
    ∀ (rest : List Char) (cs : List (ℕ × ℕ)) (x y : ℕ),
      parseLoop (natDigits n ++ rest) ⟨cs, x, y, 0⟩ = parseLoop rest ⟨cs, x, y, n⟩ := by
  induction n using Nat.strong_induction_on with
  | _ n ih =>
      intro rest cs x y
      by_cases h10 : n < 10
      · have hnd : natDigits n = [digitChar n] := by
          unfold natDigits
          simp [natDigitsAux, h10]
        rw [hnd, List.singleton_append,
          parseLoop_digit rest cs x y 0 (digitChar n) (isDigitChar_digitChar n h10) n
            (by rw [digitVal_digitChar n h10]; omega) hn]
      · rw [natDigits_unfold n h10, List.append_assoc,
          ih (n / 10) (Nat.div_lt_self (by omega) (by omega))
            (le_trans (Nat.div_le_self n 10) hn) _ cs x y,
          List.singleton_append,
          parseLoop_digit rest cs x y (n / 10) (digitChar (n % 10))
            (isDigitChar_digitChar _ (Nat.mod_lt _ (by omega))) n
            (by rw [digitVal_digitChar _ (Nat.mod_lt _ (by omega))]; omega) hn]

/-- Parsing a live-run token pushes the run's cells. -/
theorem parseLoop_token_o (count : ℕ) (h1 : 1 ≤ count) (hle : count ≤ RLE_MAX_RUN_LENGTH)
    (rest : List Char) (cs : List (ℕ × ℕ)) (x y : ℕ)
    (hcap : cs.length + count ≤ RLE_MAX_CELLS) :
    parseLoop (c2rToken count true ++ rest) ⟨cs, x, y, 0⟩ =
      parseLoop rest ⟨cs ++ (List.range count).map (fun k => (x + k, y)), x + count, y, 0⟩ := by
  unfold c2rToken
  rw [show (if (true : Bool) = true then 'o' else 'b') = 'o' from rfl]
  by_cases hc1 : count > 1
  · rw [if_pos hc1, List.append_assoc, parseLoop_natDigits count hle _ cs x y,
      List.singleton_append, parseLoop_o rest cs x y count count (by omega) hcap]
  · have hceq : count = 1 := by omega
    subst hceq
    rw [if_neg hc1, List.nil_append, List.singleton_append,
      parseLoop_o rest cs x y 0 1 (by decide) hcap]

/-- Parsing a dead-run token advances the cursor. -/
theorem parseLoop_token_b (count : ℕ) (h1 : 1 ≤ count) (hle : count ≤ RLE_MAX_RUN_LENGTH)
    (rest : List Char) (cs : List (ℕ × ℕ)) (x y : ℕ) :
    parseLoop (c2rToken count false ++ rest) ⟨cs, x, y, 0⟩ =
      parseLoop rest ⟨cs, x + count, y, 0⟩ := by
  unfold c2rToken
  rw [show (if (false : Bool) = true then 'o' else 'b') = 'b' from rfl]
  by_cases hc1 : count > 1
  · rw [if_pos hc1, List.append_assoc, parseLoop_natDigits count hle _ cs x y,
      List.singleton_append, parseLoop_b rest cs x y count count (by omega)]
  · have hceq : count = 1 := by omega
    subst hceq
    rw [if_neg hc1, List.nil_append, List.singleton_append,
      parseLoop_b rest cs x y 0 1 (by decide)]

theorem rowCells_out (row : ℕ → Bool) (y x w : ℕ) (hxw : w ≤ x) : rowCells row y x w = [] := by
  simp [rowCells, Nat.sub_eq_zero_of_le hxw]

theorem range'_split (x count n : ℕ) (h : count ≤ n) :
    List.range' x n = List.range' x count ++ List.range' (x + count) (n - count) := by
  have := List.range'_append x count (n - count) 1
  simp only [one_mul] at this
  rw [show n - count + count = n from by omega] at this
  exact this.symm

theorem rowCells_split (row : ℕ → Bool) (y x w count : ℕ) (hxr : x + count ≤ w) :
    rowCells row y x w =
      ((List.range' x count).filter (fun i => row i)).map (fun i => (i, y)) ++
        rowCells row y (x + count) w := by
  unfold rowCells
  rw [range'_split x count (w - x) (by omega), List.filter_append, List.map_append,
    show w - x - count = w - (x + count) from by omega]

theorem rowCells_alive (row : ℕ → Bool) (y x w count : ℕ) (hxr : x + count ≤ w)
    (hall : ∀ i, x ≤ i → i < x + count → row i = true) :
    rowCells row y x w =
      (List.range count).map (fun k => (x + k, y)) ++ rowCells row y (x + count) w := by
  rw [rowCells_split row y x w count hxr]
  congr 1
  rw [List.filter_eq_self.mpr
      (by intro i hi
          rw [List.mem_range'_1] at hi
          exact hall i hi.1 hi.2)]
  rw [List.range'_eq_map_range, List.map_map]
  rfl

theorem rowCells_dead (row : ℕ → Bool) (y x w count : ℕ) (hxr : x + count ≤ w)
    (hall : ∀ i, x ≤ i → i < x + count → row i = false) :
    rowCells row y x w = rowCells row y (x + count) w := by
  rw [rowCells_split row y x w count hxr]
  rw [List.filter_eq_nil_iff.mpr
      (by intro i hi
          rw [List.mem_range'_1] at hi
          simp [hall i hi.1 hi.2])]
  rfl

theorem rowRunsFlat_succ (row : ℕ → Bool) (w x fuel : ℕ) :
    rowRunsFlat row w (fuel + 1) x =
      if x < w then
        (if row x = false ∧ x + runCount row w (row x) x ≥ w then []
         else c2rToken (runCount row w (row x) x) (row x) ++
           rowRunsFlat row w fuel (x + runCount row w (row x) x))
      else [] := by
  simp only [rowRunsFlat]

/-- Parsing the flat run tokens of one row from column `x` pushes exactly
the live cells from `x` on, leaving the cursor on row `y`. -/
theorem parse_rowRunsFlat (row : ℕ → Bool) (w : ℕ) (hw : w ≤ RLE_MAX_RUN_LENGTH) :
    ∀ (fuel x : ℕ), w ≤ x + fuel →
      ∀ (cs : List (ℕ × ℕ)) (y : ℕ) (rest : List Char),
        cs.length + (rowCells row y x w).length ≤ RLE_MAX_CELLS →
        ∃ x', parseLoop (rowRunsFlat row w fuel x ++ rest) ⟨cs, x, y, 0⟩ =
          parseLoop rest ⟨cs ++ rowCells row y x w, x', y, 0⟩ := by
  intro fuel
  induction fuel with
  | zero =>
      intro x hfx cs y rest hcap
      refine ⟨x, ?_⟩
      rw [show rowRunsFlat row w 0 x = [] from rfl, List.nil_append,
        rowCells_out row y x w (by omega), List.append_nil]
  | succ fuel ih =>
      intro x hfx cs y rest hcap
      rw [rowRunsFlat_succ]
      by_cases hx : x < w
      · obtain ⟨h1r, hxr, hmid, hstop⟩ := runCount_props row w (row x) x hx
        rw [if_pos hx]
        by_cases hbr : row x = false ∧ x + runCount row w (row x) x ≥ w
        · rw [if_pos hbr]
          have hrc : rowCells row y x w = [] := by
            have hcw : x + runCount row w (row x) x = w := by omega
            rw [rowCells_dead row y x w (runCount row w (row x) x) hxr
                (by intro i hxi hic
                    by_cases hix : i = x
                    · rw [hix]; exact hbr.1
                    · exact (hmid i (by omega) hic).trans hbr.1),
              hcw, rowCells_out row y w w (le_refl w)]
          exact ⟨x, by rw [List.nil_append, hrc, List.append_nil]⟩
        · rw [if_neg hbr, List.append_assoc]
          cases halive : row x with
          | true =>
              rw [halive] at hxr h1r hmid
              have hall : ∀ i, x ≤ i → i < x + runCount row w true x → row i = true := by
                intro i hxi hic
                rcases Nat.eq_or_lt_of_le hxi with heq | hlt
                · rw [← heq]; exact halive
                · exact hmid i hlt hic
              have hsplitRC := rowCells_alive row y x w (runCount row w true x) hxr hall
              have hlenRC : (rowCells row y x w).length =
                  runCount row w true x + (rowCells row y (x + runCount row w true x) w).length := by
                rw [hsplitRC]
                simp
              rw [parseLoop_token_o (runCount row w true x) h1r (by omega) _ cs x y (by omega)]
              obtain ⟨x', hx'⟩ := ih (x + runCount row w true x) (by omega)
                (cs ++ (List.range (runCount row w true x)).map (fun k => (x + k, y))) y rest
                (by rw [List.length_append]; simp only [List.length_map, List.length_range]; omega)
              refine ⟨x', ?_⟩
              rw [hx', hsplitRC, ← List.append_assoc]
          | false =>
              rw [halive] at hxr h1r hmid
              have hall : ∀ i, x ≤ i → i < x + runCount row w false x → row i = false := by
                intro i hxi hic
                rcases Nat.eq_or_lt_of_le hxi with heq | hlt
                · rw [← heq]; exact halive
                · exact hmid i hlt hic
              have hsplitRC := rowCells_dead row y x w (runCount row w false x) hxr hall
              rw [parseLoop_token_b (runCount row w false x) h1r (by omega) _ cs x y]
              obtain ⟨x', hx'⟩ := ih (x + runCount row w false x) (by omega) cs y rest
                (by rw [← hsplitRC]; exact hcap)
              exact ⟨x', by rw [hx', hsplitRC]⟩
      · rw [if_neg hx]
        refine ⟨x, ?_⟩
        rw [List.nil_append, rowCells_out row y x w (by omega), List.append_nil]

/-- Parsing the flat rows render accumulates all live cells row-major and
ends with `!`. -/
theorem parse_rows (grid2 : ℕ → ℕ → Bool) (w h : ℕ) (hw : w ≤ RLE_MAX_RUN_LENGTH) :
    ∀ (n y0 : ℕ), y0 + n = h → 1 ≤ n →
      ∀ cs : List (ℕ × ℕ),
        cs.length + (gridCellsFrom grid2 w y0 n).length ≤ RLE_MAX_CELLS →
        parseLoop (rowsFlat grid2 w h y0 n) ⟨cs, 0, y0, 0⟩ =
          .ok (cs ++ gridCellsFrom grid2 w y0 n) := by
  intro n
  induction n with
  | zero => intro y0 hyh h1 cs hcap; exact absurd h1 (by omega)
  | succ n ih =>
      intro y0 hyh h1 cs hcap
      have hflat : rowsFlat grid2 w h y0 (n + 1) =
          (rowRunsFlat (fun x => grid2 x y0) w w 0 ++ [if y0 < h - 1 then '$' else '!']) ++
            rowsFlat grid2 w h (y0 + 1) n := by
        unfold rowsFlat
        rw [List.range'_succ, List.map_cons, List.flatten_cons]
      have hgc : gridCellsFrom grid2 w y0 (n + 1) =
          rowCells (fun x => grid2 x y0) y0 0 w ++ gridCellsFrom grid2 w (y0 + 1) n := by
        unfold gridCellsFrom
        rw [List.range'_succ, List.map_cons, List.flatten_cons]
      rw [hgc, List.length_append] at hcap
      rw [hflat, List.append_assoc]
      obtain ⟨x', hx'⟩ := parse_rowRunsFlat (fun x => grid2 x y0) w hw w 0 (by omega) cs y0
        ([if y0 < h - 1 then '$' else '!'] ++ rowsFlat grid2 w h (y0 + 1) n) (by omega)
      rw [hx']
      cases n with
      | zero =>
          have hterm : (if y0 < h - 1 then '$' else '!') = '!' := by
            rw [if_neg]
            omega
          rw [hterm, List.singleton_append, parseLoop_bang, hgc,
            show gridCellsFrom grid2 w (y0 + 1) 0 = [] from rfl, List.append_nil]
      | succ m =>
          have hterm : (if y0 < h - 1 then '$' else '!') = '$' := by
            rw [if_pos]
            omega
          rw [hterm, List.singleton_append, parseLoop_dollar _ _ _ _ _ 1 (by decide),
            ih (y0 + 1) (by omega) (by omega) (cs ++ rowCells (fun x => grid2 x y0) y0 0 w)
              (by rw [List.length_append]; omega),
            hgc, List.append_assoc]

theorem foldl_min_le (g : ℤ × ℤ → ℤ) :
    ∀ (l : List (ℤ × ℤ)) (a : ℤ),
      l.foldl (fun m p => min m (g p)) a ≤ a ∧
      ∀ q ∈ l, l.foldl (fun m p => min m (g p)) a ≤ g q := by
  intro l
  induction l with
  | nil => intro a; exact ⟨le_refl a, fun q hq => absurd hq (List.not_mem_nil q)⟩
  | cons hd tl ih =>
      intro a
      rw [List.foldl_cons]
      obtain ⟨ha, hq⟩ := ih (min a (g hd))
      refine ⟨le_trans ha (min_le_left _ _), ?_⟩
      intro q hmem
      rcases List.mem_cons.mp hmem with rfl | hmem'
      · exact le_trans ha (min_le_right _ _)
      · exact hq q hmem'

theorem foldl_max_ge (g : ℤ × ℤ → ℤ) :
    ∀ (l : List (ℤ × ℤ)) (a : ℤ),
      a ≤ l.foldl (fun m p => max m (g p)) a ∧
      ∀ q ∈ l, g q ≤ l.foldl (fun m p => max m (g p)) a := by
  intro l
  induction l with
  | nil => intro a; exact ⟨le_refl a, fun q hq => absurd hq (List.not_mem_nil q)⟩
  | cons hd tl ih =>
      intro a
      rw [List.foldl_cons]
      obtain ⟨ha, hq⟩ := ih (max a (g hd))
      refine ⟨le_trans (le_max_left _ _) ha, ?_⟩
      intro q hmem
      rcases List.mem_cons.mp hmem with rfl | hmem'
      · exact le_trans (le_max_right _ _) ha
      · exact hq q hmem'

theorem coord_bounds (coords : List (ℤ × ℤ)) (q : ℤ × ℤ) (hq : q ∈ coords) :
    minXof coords ≤ q.1 ∧ q.1 ≤ maxXof coords ∧
    minYof coords ≤ q.2 ∧ q.2 ≤ maxYof coords := by
  cases coords with
  | nil => exact absurd hq (List.not_mem_nil q)
  | cons c0 rest =>
      simp only [minXof, maxXof, minYof, maxYof]
      rcases List.mem_cons.mp hq with rfl | hmem
      · exact ⟨(foldl_min_le Prod.fst rest q.1).1, (foldl_max_ge Prod.fst rest q.1).1,
          (foldl_min_le Prod.snd rest q.2).1, (foldl_max_ge Prod.snd rest q.2).1⟩
      · exact ⟨(foldl_min_le Prod.fst rest c0.1).2 q hmem,
          (foldl_max_ge Prod.fst rest c0.1).2 q hmem,
          (foldl_min_le Prod.snd rest c0.2).2 q hmem,
          (foldl_max_ge Prod.snd rest c0.2).2 q hmem⟩

theorem mem_gridCellsFrom (grid2 : ℕ → ℕ → Bool) (w : ℕ) :
    ∀ (n y0 a b : ℕ),
      ((a, b) ∈ gridCellsFrom grid2 w y0 n ↔
        (y0 ≤ b ∧ b < y0 + n ∧ a < w ∧ grid2 a b = true)) := by
  intro n y0 a b
  simp only [gridCellsFrom, rowCells, List.mem_flatten, List.mem_map, List.mem_filter,
    List.mem_range'_1, Nat.sub_zero, Nat.zero_add]
  constructor
  · rintro ⟨l, ⟨y, ⟨hy1, hy2⟩, rfl⟩, hmem⟩
    obtain ⟨i, hi, heq⟩ := List.mem_map.mp hmem
    obtain ⟨hir, hg⟩ := List.mem_filter.mp hi
    rw [List.mem_range'_1] at hir
    have ha : i = a := congrArg Prod.fst heq
    have hb : y = b := congrArg Prod.snd heq
    subst ha
    subst hb
    exact ⟨hy1, hy2, by omega, hg⟩
  · rintro ⟨hb1, hb2, ha, hg⟩
    refine ⟨((List.range' 0 w).filter (fun i => grid2 i b)).map (fun i => (i, b)),
      ⟨b, ⟨hb1, hb2⟩, rfl⟩, ?_⟩
    exact List.mem_map.mpr ⟨a,
      List.mem_filter.mpr ⟨List.mem_range'_1.mpr (by omega), hg⟩, rfl⟩

theorem mem_gridCellsOf (coords : List (ℤ × ℤ)) (a b : ℕ) :
    (a, b) ∈ gridCellsOf coords ↔
      (minXof coords + a, minYof coords + b) ∈ coords := by
  unfold gridCellsOf
  rw [mem_gridCellsFrom]
  constructor
  · rintro ⟨_, hb, ha, hg⟩
    unfold gridOf at hg
    exact of_decide_eq_true hg
  · intro hmem
    obtain ⟨hx1, hx2, hy1, hy2⟩ := coord_bounds coords _ hmem
    simp only at hx1 hx2 hy1 hy2
    refine ⟨Nat.zero_le b, ?_, ?_, ?_⟩
    · unfold bbH
      omega
    · unfold bbW
      omega
    · unfold gridOf
      exact decide_eq_true hmem

theorem bbH_pos (coords : List (ℤ × ℤ)) (hne : coords ≠ []) : 1 ≤ bbH coords := by
  cases coords with
  | nil => exact absurd rfl hne
  | cons c0 rest =>
      obtain ⟨-, -, hy1, hy2⟩ := coord_bounds (c0 :: rest) c0 (List.mem_cons_self _ _)
      unfold bbH
      omega

/-- C7 (corrected): for every non-empty coordinate list whose bounding box
is at most 100000 wide (so no emitted run length exceeds the parser's cap)
and whose distinct-cell count is at most 10^7 (the parser's cell cap),
emitting with `coordsToRLE` and parsing with `parseRLE` succeeds and
returns exactly the input set of live cells translated to the bounding-box
origin: the parsed cells are `gridCellsOf coords`, and `(a, b)` is parsed
iff `(minX + a, minY + b)` is an input coordinate. -/
theorem coordsToRLE_roundtrip (coords : List (ℤ × ℤ)) (hne : coords ≠ [])
    (hw : bbW coords ≤ RLE_MAX_RUN_LENGTH)
    (hcap : (gridCellsOf coords).length ≤ RLE_MAX_CELLS) :
    parseRLE (coordsToRLE coords) = .ok (gridCellsOf coords) ∧
    ∀ a b : ℕ, ((a, b) ∈ gridCellsOf coords ↔
      (minXof coords + a, minYof coords + b) ∈ coords) := by
  refine ⟨?_, fun a b => mem_gridCellsOf coords a b⟩
  unfold parseRLE coordsToRLE
  rw [if_neg (by rw [List.length_eq_zero]; exact hne),
    rleData_eq_filter _ (c2rBody_chars _ _ _), c2rBody_filter,
    parse_rows (gridOf coords) (bbW coords) (bbH coords) hw (bbH coords) 0 (by omega)
      (bbH_pos coords hne) [] (by simpa [gridCellsOf] using hcap),
    List.nil_append]
  rfl

/-- A small concrete pattern for the round-trip: an L-tromino away from
the origin. -/
def c7Wit : List (ℤ × ℤ) := [(5, 3), (6, 3), (7, 4)]

theorem coordsToRLE_roundtrip_witness :
    c7Wit ≠ [] ∧ bbW c7Wit ≤ RLE_MAX_RUN_LENGTH ∧
    (gridCellsOf c7Wit).length ≤ RLE_MAX_CELLS ∧
    parseRLE (coordsToRLE c7Wit) = .ok (gridCellsOf c7Wit) ∧
    gridCellsOf c7Wit = [(0, 0), (1, 0), (2, 1)] := by
  have h := coordsToRLE_roundtrip c7Wit (by decide) (by decide) (by decide)
  exact ⟨by decide, by decide, by decide, h.1, by decide⟩

/-- An accumulated digit beyond the cap errors immediately (lib.js lines
80-83). -/
theorem parseLoop_digit_overflow (rest : List Char) (cs : List (ℕ × ℕ)) (x y cnt : ℕ)
    (c : Char) (hc : isDigitChar c = true)
    (hover : cnt * 10 + digitVal c > RLE_MAX_RUN_LENGTH) :
    parseLoop (c :: rest) ⟨cs, x, y, cnt⟩ = .error .runLength := by
  simp only [parseLoop]
  rw [if_pos hc, if_pos hover]

/-- Two cells 100002 columns apart: the emitted dead run is 100001 long. -/
def c7Cex : List (ℤ × ℤ) := [(0, 0), (100002, 0)]

theorem c7Cex_row_mid : ∀ i : ℕ, 0 < i → i < 100002 → gridOf c7Cex i 0 = false := by
  intro i h1 h2
  have hminx : minXof c7Cex = 0 := by decide
  have hminy : minYof c7Cex = 0 := by decide
  unfold gridOf
  rw [hminx, hminy]
  apply decide_eq_false
  intro hmem
  simp only [c7Cex, List.mem_cons, List.not_mem_nil, or_false] at hmem
  rcases hmem with h | h
  · have hfst := congrArg Prod.fst h
    simp at hfst
    omega
  · have hfst := congrArg Prod.fst h
    simp at hfst
    omega

theorem c7Cex_rc0 : runCount (fun x => gridOf c7Cex x 0) 100003 true 0 = 1 := by
  apply runCount_eq _ _ _ _ (by omega) 1 (le_refl 1) (by omega)
  · intro i h1 h2
    exact absurd h2 (by omega)
  · right
    decide

theorem c7Cex_rcb : runCount (fun x => gridOf c7Cex x 0) 100003 false 1 = 100001 := by
  apply runCount_eq _ _ _ _ (by omega) 100001 (by omega) (by omega)
  · intro i h1 h2
    exact c7Cex_row_mid i (by omega) (by omega)
  · right
    decide

theorem c7Cex_rc2 : runCount (fun x => gridOf c7Cex x 0) 100003 true 100002 = 1 := by
  apply runCount_eq _ _ _ _ (by omega) 1 (le_refl 1) (by omega)
  · intro i h1 h2
    exact absurd h2 (by omega)
  · left
    omega

theorem rowRunsFlat_stop (row : ℕ → Bool) (w x fuel : ℕ) (hx : ¬ x < w) :
    rowRunsFlat row w fuel x = [] := by
  cases fuel with
  | zero => rfl
  | succ fuel => rw [rowRunsFlat_succ, if_neg hx]

theorem rowRunsFlat_step2 (row : ℕ → Bool) (w x fuel m x2 : ℕ) (hfuel : fuel = m + 1)
    (hx : x < w) (al : Bool) (hal : row x = al) (r : ℕ) (hr : runCount row w al x = r)
    (hx2 : x + r = x2) (hnb : ¬(al = false ∧ x + r ≥ w)) :
    rowRunsFlat row w fuel x = c2rToken r al ++ rowRunsFlat row w m x2 := by
  subst hfuel
  subst hx2
  subst hr
  subst hal
  rw [rowRunsFlat_succ, if_pos hx, if_neg hnb]

theorem c7Cex_flat :
    rowRunsFlat (fun x => gridOf c7Cex x 0) 100003 100003 0 =
      c2rToken 1 true ++ (c2rToken 100001 false ++ (c2rToken 1 true ++ [])) := by
  rw [rowRunsFlat_step2 _ _ _ _ 100002 1 (by norm_num) (by omega) true (by decide) 1
      c7Cex_rc0 (by norm_num) (by simp),
    rowRunsFlat_step2 _ _ _ _ 100001 100002 (by norm_num) (by omega) false (by decide) 100001
      c7Cex_rcb (by norm_num) (by intro hcon; exact absurd hcon.2 (by omega)),
    rowRunsFlat_step2 _ _ _ _ 100000 100003 (by norm_num) (by omega) true (by decide) 1
      c7Cex_rc2 (by norm_num) (by simp),
    rowRunsFlat_stop _ _ _ _ (by omega)]

/-- C7 counterexample: the cells `(0,0)` and `(100002,0)` emit the RLE
`o100001bo!` (a dead run of 100001), and the parser rejects any run over
100000, so emit-then-parse fails instead of round-tripping. -/
theorem coordsToRLE_claim_cex :
    c7Cex ≠ [] ∧ parseRLE (coordsToRLE c7Cex) = .error .runLength := by
  refine ⟨by decide, ?_⟩
  unfold parseRLE coordsToRLE
  rw [if_neg (by decide), rleData_eq_filter _ (c2rBody_chars _ _ _), c2rBody_filter,
    show bbW c7Cex = 100003 from by decide, show bbH c7Cex = 1 from by decide]
  have hrows : rowsFlat (gridOf c7Cex) 100003 1 0 1 =
      rowRunsFlat (fun x => gridOf c7Cex x 0) 100003 100003 0 ++ ['!'] := by
    unfold rowsFlat
    rw [show List.range' 0 1 = [0] from rfl, List.map_cons, List.map_nil,
      List.flatten_cons, List.flatten_nil, List.append_nil,
      show (if (0 : ℕ) < 1 - 1 then '$' else '!') = '!' from rfl]
  rw [hrows, c7Cex_flat, List.append_assoc,
    parseLoop_token_o 1 (by decide) (by decide) _ [] 0 0 (by decide),
    List.append_assoc,
    show c2rToken 100001 false = '1' :: '0' :: '0' :: '0' :: '0' :: '1' :: 'b' :: [] from
      by decide]
  simp only [List.cons_append, List.nil_append]
  rw [parseLoop_digit _ _ _ _ _ '1' (by decide) 1 (by decide) (by decide),
    parseLoop_digit _ _ _ _ _ '0' (by decide) 10 (by decide) (by decide),
    parseLoop_digit _ _ _ _ _ '0' (by decide) 100 (by decide) (by decide),
    parseLoop_digit _ _ _ _ _ '0' (by decide) 1000 (by decide) (by decide),
    parseLoop_digit _ _ _ _ _ '0' (by decide) 10000 (by decide) (by decide),
    parseLoop_digit_overflow _ _ _ _ _ '1' (by decide) (by decide)]
